import Mathlib

/-!
Verification development for the RetroArch rollback/rewind state engine.

The definitions below are shallow embeddings of:
  * `src/matchmaking-server/rendezvous_server.c` (namespace `Rendezvous`),
  * `src/state_manager.c` (namespace `StateManager`),
  * `src/deps/ggpo/src/lib/ggpo/sync.cpp` / `sync.h` (namespace `GGPOSync`).

Machine integers are modelled as `Nat`/`Int`; byte buffers as `List Nat`;
fallible operations return `Option`/`Bool` following the C control flow.
-/

namespace Rendezvous

/-- An IPv4/UDP endpoint (`struct sockaddr_in`), abstracted to its
address and port numbers. -/
structure Addr where
  ip : Nat
  port : Nat
deriving DecidableEq, Repr

/-- `struct room_entry` from rendezvous_server.c. `host_seen`/`client_seen`
are `time_t` timestamps, modelled as `Nat` seconds. -/
structure RoomEntry where
  name : String
  has_host : Bool
  has_client : Bool
  host_addr : Addr
  client_addr : Addr
  host_seen : Nat
  client_seen : Nat
deriving DecidableEq, Repr

def MAX_ROOMS : Nat := 128

def ROOM_TIMEOUT_SEC : Nat := 30

/-- Effect of one `prune_rooms` iteration on a single room: a side is
dropped when its last datagram is more than `ROOM_TIMEOUT_SEC` old.
(`now - seen` is `time_t` arithmetic; with monotone clocks the C signed
subtraction and the truncated `Nat` subtraction agree on the `> 30` test.) -/
def pruneRoom (now : Nat) (r : RoomEntry) : RoomEntry :=
  { r with
    has_host := r.has_host && !decide (now - r.host_seen > ROOM_TIMEOUT_SEC)
    has_client := r.has_client && !decide (now - r.client_seen > ROOM_TIMEOUT_SEC) }

/-- `prune_rooms`: drop timed-out sides, then compact away rooms with
neither side present (the `memmove` loop preserves relative order, i.e.
it is exactly a filter over the side-dropped rooms). -/
def prune_rooms (now : Nat) (rooms : List RoomEntry) : List RoomEntry :=
  (rooms.map (pruneRoom now)).filter (fun r => r.has_host || r.has_client)

/-- A fresh zeroed room (`memset(&rooms[room_count], 0, ...)` followed by
copying in the name). -/
def freshRoom (name : String) : RoomEntry :=
  { name := name
    has_host := false
    has_client := false
    host_addr := ⟨0, 0⟩
    client_addr := ⟨0, 0⟩
    host_seen := 0
    client_seen := 0 }

/-- `find_or_create_room`: linear search by name; append a fresh room when
absent, unless `MAX_ROOMS` rooms already exist (then `NULL`, modelled as
`none`). Returns the room table and the index of the found/created room. -/
def find_or_create_room (rooms : List RoomEntry) (name : String) :
    List RoomEntry × Option Nat :=
  match rooms.findIdx? (fun r => r.name == name) with
  | some i => (rooms, some i)
  | none =>
    if rooms.length ≥ MAX_ROOMS then
      (rooms, none)
    else
      (rooms ++ [freshRoom name], some rooms.length)

/-- A datagram the server sends: either `"WAIT <room>"` or
`"PEER <ip> <port>"` carrying the other side's endpoint. -/
inductive ServerMsg where
  | wait (room : String)
  | peer (addr : Addr)
deriving DecidableEq, Repr

/-- One outgoing UDP packet: destination plus payload. -/
structure Packet where
  dest : Addr
  payload : ServerMsg
deriving DecidableEq, Repr

/-- Register the sender on its side of the room (the `role == 'H'` /
`role == 'C'` branches of `main`). -/
def registerSender (r : RoomEntry) (role : Char) (src : Addr) (now : Nat) :
    RoomEntry :=
  if role = 'H' then
    { r with host_addr := src, host_seen := now, has_host := true }
  else
    { r with client_addr := src, client_seen := now, has_client := true }

/-- One iteration of the server's receive loop in `main`, after a datagram
has been received and `sscanf` succeeded: check the magic, prune, find or
create the room, register the sender, and reply.  Returns the new room
table and the packets sent. A `role` other than `H`/`C` hits `continue`
after the room was created. -/
def server_step (rooms : List RoomEntry) (now : Nat) (magic : String)
    (role : Char) (room_name : String) (src : Addr) :
    List RoomEntry × List Packet :=
  if magic ≠ "RNDV1" then
    (rooms, [])
  else
    let pruned := prune_rooms now rooms
    match find_or_create_room pruned room_name with
    | (rooms₁, none) => (rooms₁, [])
    | (rooms₁, some i) =>
      if role = 'H' ∨ role = 'C' then
        match rooms₁[i]? with
        | none => (rooms₁, [])
        | some r =>
          let r₁ := registerSender r role src now
          let rooms₂ := rooms₁.set i r₁
          if r₁.has_host && r₁.has_client then
            (rooms₂, [⟨r₁.host_addr, .peer r₁.client_addr⟩,
                      ⟨r₁.client_addr, .peer r₁.host_addr⟩])
          else
            (rooms₂, [⟨src, .wait room_name⟩])
      else
        (rooms₁, [])

/-- The behaviour claimed for one server-loop iteration on a valid
`RNDV1` datagram: prune semantics (a side is dropped after more than 30
seconds of silence; a room survives pruning iff a side survives), the
128-room capacity bound with excess creations ignored, and the
`PEER`/`WAIT` reply discipline. -/
def ServerStepSpec (rooms : List RoomEntry) (now : Nat) (role : Char)
    (rn : String) (src : Addr) : Prop :=
  let result := server_step rooms now "RNDV1" role rn src
  let pruned := prune_rooms now rooms
  (∀ r : RoomEntry,
      (pruneRoom now r).has_host
        = (r.has_host && !decide (now - r.host_seen > ROOM_TIMEOUT_SEC)) ∧
      (pruneRoom now r).has_client
        = (r.has_client && !decide (now - r.client_seen > ROOM_TIMEOUT_SEC))) ∧
  (∀ r ∈ rooms, (pruneRoom now r ∈ pruned ↔
      ((pruneRoom now r).has_host = true ∨ (pruneRoom now r).has_client = true))) ∧
  (rooms.length ≤ MAX_ROOMS → result.1.length ≤ MAX_ROOMS) ∧
  ((result.2 = [] ∧ result.1 = pruned ∧ MAX_ROOMS ≤ pruned.length ∧
      ∀ r ∈ pruned, ¬r.name = rn) ∨
   (∃ (i : Nat) (r₁ : RoomEntry), result.1[i]? = some r₁ ∧ r₁.name = rn ∧
      (role = 'H' → r₁.has_host = true ∧ r₁.host_addr = src ∧ r₁.host_seen = now) ∧
      (role = 'C' → r₁.has_client = true ∧ r₁.client_addr = src ∧ r₁.client_seen = now) ∧
      (if r₁.has_host && r₁.has_client then
        result.2 = [⟨r₁.host_addr, .peer r₁.client_addr⟩,
                    ⟨r₁.client_addr, .peer r₁.host_addr⟩]
      else
        result.2 = [⟨src, .wait rn⟩])))

theorem length_prune_le (now : Nat) (rooms : List RoomEntry) :
    (prune_rooms now rooms).length ≤ rooms.length := by
  unfold prune_rooms
  exact le_trans (List.length_filter_le _ _) (le_of_eq (List.length_map _ _))

theorem server_step_found (rooms : List RoomEntry) (now : Nat) (role : Char)
    (rn : String) (src : Addr) (i : Nat)
    (h : (prune_rooms now rooms).findIdx? (fun r => r.name == rn) = some i)
    (hlt : i < (prune_rooms now rooms).length)
    (hrole : role = 'H' ∨ role = 'C') :
    server_step rooms now "RNDV1" role rn src =
      ((prune_rooms now rooms).set i
          (registerSender ((prune_rooms now rooms)[i]) role src now),
        if (registerSender ((prune_rooms now rooms)[i]) role src now).has_host
            && (registerSender ((prune_rooms now rooms)[i]) role src now).has_client
        then
          [⟨(registerSender ((prune_rooms now rooms)[i]) role src now).host_addr,
              ServerMsg.peer (registerSender ((prune_rooms now rooms)[i]) role
                src now).client_addr⟩,
           ⟨(registerSender ((prune_rooms now rooms)[i]) role src now).client_addr,
              ServerMsg.peer (registerSender ((prune_rooms now rooms)[i]) role
                src now).host_addr⟩]
        else [⟨src, ServerMsg.wait rn⟩]) := by
  simp only [server_step, find_or_create_room, h, ne_eq, not_true_eq_false,
    if_false, if_pos hrole, List.getElem?_eq_getElem hlt]
  split <;> rfl

theorem server_step_created (rooms : List RoomEntry) (now : Nat) (role : Char)
    (rn : String) (src : Addr)
    (h : (prune_rooms now rooms).findIdx? (fun r => r.name == rn) = none)
    (hfull : ¬(prune_rooms now rooms).length ≥ MAX_ROOMS)
    (hrole : role = 'H' ∨ role = 'C') :
    server_step rooms now "RNDV1" role rn src =
      ((prune_rooms now rooms ++ [freshRoom rn]).set (prune_rooms now rooms).length
          (registerSender (freshRoom rn) role src now),
        [⟨src, ServerMsg.wait rn⟩]) := by
  have hwin : ¬((registerSender (freshRoom rn) role src now).has_host
      && (registerSender (freshRoom rn) role src now).has_client) = true := by
    rcases hrole with hr | hr <;> simp [hr, registerSender, freshRoom]
  simp only [server_step, find_or_create_room, h, if_neg hfull, ne_eq,
    not_true_eq_false, if_false, if_pos hrole, List.getElem?_concat_length,
    if_neg hwin]

theorem server_step_full (rooms : List RoomEntry) (now : Nat) (role : Char)
    (rn : String) (src : Addr)
    (h : (prune_rooms now rooms).findIdx? (fun r => r.name == rn) = none)
    (hfull : (prune_rooms now rooms).length ≥ MAX_ROOMS) :
    server_step rooms now "RNDV1" role rn src = (prune_rooms now rooms, []) := by
  simp only [server_step, find_or_create_room, h, if_pos hfull, ne_eq,
    not_true_eq_false, if_false]

/-- C8: on a valid `RNDV1 H/C` datagram, the server registers the sender,
replies `PEER` to both sides when both are present and `WAIT` to the sender
otherwise; sides silent for more than 30 s are dropped and rooms with both
sides dropped are removed; at most 128 rooms exist and excess creations are
ignored. -/
theorem server_pairing_pruning_capacity (rooms : List RoomEntry) (now : Nat)
    (role : Char) (rn : String) (src : Addr)
    (hrole : role = 'H' ∨ role = 'C') :
    ServerStepSpec rooms now role rn src := by
  unfold ServerStepSpec
  have hplen := length_prune_le now rooms
  refine ⟨fun r => ⟨rfl, rfl⟩, ?_, ?_, ?_⟩
  · intro r hr
    constructor
    · intro hmem
      have h := List.mem_filter.mp hmem
      simpa using h.2
    · intro h
      refine List.mem_filter.mpr ⟨List.mem_map_of_mem _ hr, ?_⟩
      simpa using h
  · -- capacity bound
    intro hcap
    rcases h : (prune_rooms now rooms).findIdx? (fun r => r.name == rn) with _ | i
    · by_cases hfull : (prune_rooms now rooms).length ≥ MAX_ROOMS
      · rw [server_step_full rooms now role rn src h hfull]
        exact le_trans hplen hcap
      · rw [server_step_created rooms now role rn src h hfull hrole]
        simp only [List.length_set, List.length_append, List.length_singleton]
        omega
    · obtain ⟨hlt, hp, -⟩ := List.findIdx?_eq_some_iff_getElem.mp h
      rw [server_step_found rooms now role rn src i h hlt hrole]
      simp only [List.length_set]
      exact le_trans hplen hcap
  · -- reply behaviour
    rcases h : (prune_rooms now rooms).findIdx? (fun r => r.name == rn) with _ | i
    · by_cases hfull : (prune_rooms now rooms).length ≥ MAX_ROOMS
      · left
        have hnone := List.findIdx?_eq_none_iff.mp h
        rw [server_step_full rooms now role rn src h hfull]
        refine ⟨rfl, rfl, hfull, fun r hr => ?_⟩
        have := hnone r hr
        simpa using this
      · right
        rw [server_step_created rooms now role rn src h hfull hrole]
        have hlen : (prune_rooms now rooms).length <
            ((prune_rooms now rooms) ++ [freshRoom rn]).length := by
          simp
        have hget : ((prune_rooms now rooms ++ [freshRoom rn]).set
            (prune_rooms now rooms).length
            (registerSender (freshRoom rn) role src now))[
              (prune_rooms now rooms).length]? =
            some (registerSender (freshRoom rn) role src now) :=
          List.getElem?_set_self hlen
        refine ⟨(prune_rooms now rooms).length,
          registerSender (freshRoom rn) role src now, hget, ?_, ?_, ?_, ?_⟩
        · rcases hrole with hr | hr <;> simp [hr, registerSender, freshRoom]
        · intro hH
          simp [hH, registerSender]
        · intro hC
          rcases hrole with hr | hr
          · rw [hr] at hC
            exact absurd hC (by decide)
          · simp [hC, registerSender, freshRoom]
        · have hwin : ¬((registerSender (freshRoom rn) role src now).has_host
              && (registerSender (freshRoom rn) role src now).has_client)
              = true := by
            rcases hrole with hr | hr <;> simp [hr, registerSender, freshRoom]
          rw [if_neg hwin]
    · obtain ⟨hlt, hp, -⟩ := List.findIdx?_eq_some_iff_getElem.mp h
      right
      have hname : ((prune_rooms now rooms)[i]).name = rn := by
        simpa using hp
      rw [server_step_found rooms now role rn src i h hlt hrole]
      have hlen : i < ((prune_rooms now rooms).set i
          (registerSender ((prune_rooms now rooms)[i]) role src now)).length := by
        simpa using hlt
      refine ⟨i, registerSender ((prune_rooms now rooms)[i]) role src now,
        List.getElem?_set_self (by simpa using hlt), ?_, ?_, ?_, ?_⟩
      · rcases hrole with hr | hr <;> simp [hr, registerSender, hname]
      · intro hH
        simp [hH, registerSender]
      · intro hC
        rcases hrole with hr | hr
        · rw [hr] at hC
          exact absurd hC (by decide)
        · simp [hC, registerSender]
      · split <;> rfl

/-- Witness for C8: concrete evaluation of the theorem at an empty room
table and a host datagram. -/
theorem server_pairing_pruning_capacity_witness :
    (('H' = 'H' ∨ 'H' = 'C') ∧ ServerStepSpec [] 0 'H' "r" ⟨1, 2⟩) :=
  ⟨Or.inl rfl,
   server_pairing_pruning_capacity [] 0 'H' "r" ⟨1, 2⟩ (Or.inl rfl)⟩

end Rendezvous

namespace StateManager

/-- `sizeof(size_t)` on the 64-bit targets this code ships on. -/
def szt : Nat := 8

/-- `INT_MAX`. -/
def INT_MAX : Nat := 2 ^ 31 - 1

/-- `LZ4_MAX_INPUT_SIZE` from lz4.h. -/
def LZ4_MAX_INPUT_SIZE : Nat := 0x7E000000

/-- `STATE_DELTA_HEADER_SIZE = sizeof(size_t) * 2`. -/
def STATE_DELTA_HEADER_SIZE : Nat := 2 * szt

/-- `LZ4_COMPRESSBOUND` from lz4.h. -/
def LZ4_compressBound (n : Nat) : Nat :=
  if n > LZ4_MAX_INPUT_SIZE then 0 else n + n / 255 + 16

/-- The LZ4 codec, treated as opaque (the library is an external
dependency): `comp` models `LZ4_compress_fast` (`none` = the C call
returned `≤ 0`; `some c` = it returned `c.length > 0` bytes), `decomp`
models `LZ4_decompress_safe` applied to a full compressed block with the
given destination capacity (`none` = negative return). The two fields of
evidence are the library's documented contracts: compressed output fits
in `LZ4_compressBound` and decompressing a compressed block restores it. -/
structure Codec where
  comp : List Nat → Option (List Nat)
  decomp : List Nat → Nat → Option (List Nat)
  comp_bound : ∀ x y, comp x = some y → y.length ≤ LZ4_compressBound x.length
  decomp_comp : ∀ x y, comp x = some y → decomp y x.length = some x

/-- A codec whose compressor always reports failure; the engine then keeps
every payload raw.  Used to evaluate the model on concrete inputs. -/
def failCodec : Codec where
  comp := fun _ => none
  decomp := fun _ _ => none
  comp_bound := fun _ _ h => by cases h
  decomp_comp := fun _ _ h => by cases h

/-- `state_manager_raw_maxsize`: maximum byte size of a patch produced by
`state_manager_raw_compress` for an `uncomp`-byte block. -/
def state_manager_raw_maxsize (uncomp : Nat) : Nat :=
  STATE_DELTA_HEADER_SIZE +
    (if uncomp ≤ LZ4_MAX_INPUT_SIZE then LZ4_compressBound uncomp else uncomp)

/-- A patch record blob as written by `state_manager_raw_compress`:
the two-word header `{ payload_size, flags }` (modelled structurally)
followed by the payload bytes.  `raw_flag` is `flags & STATE_DELTA_FLAG_RAW`. -/
structure Patch where
  payload_size : Nat
  raw_flag : Bool
  payload : List Nat
deriving DecidableEq, Repr

/-- Total byte length of a patch blob: header plus payload. -/
def patchLen (p : Patch) : Nat := STATE_DELTA_HEADER_SIZE + p.payload_size

/-- `state_manager_xor_delta`: `dst[i] = a[i] ^ b[i]`. -/
def state_manager_xor_delta (a b : List Nat) : List Nat :=
  List.zipWith Nat.xor a b

/-- `state_manager_raw_compress(src, dst, len, patch, scratch)`: XOR the
two blocks into the scratch delta, try LZ4 (only when
`len ≤ LZ4_MAX_INPUT_SIZE`); keep the compressed payload only on a strict
win (`0 < compressed < len`), otherwise store the raw delta with the RAW
flag.  Returns the patch blob (the C function returns its length,
recovered here as `patchLen`). -/
def state_manager_raw_compress (cd : Codec) (src dst : List Nat) (len : Nat) :
    Patch :=
  let scratch := state_manager_xor_delta src dst
  let attempt : Option (List Nat) :=
    if len ≤ LZ4_MAX_INPUT_SIZE then cd.comp scratch else none
  match attempt with
  | some c =>
    if 0 < c.length ∧ c.length < len then ⟨c.length, false, c⟩
    else ⟨len, true, scratch⟩
  | none => ⟨len, true, scratch⟩

/-- `state_manager_raw_decompress(patch, data, len, scratch)`: decode the
patch payload into the scratch block (checking the sizes exactly as the C
does) and, on success, XOR it onto `data`.  `none` models `return false`
(in which case the C routine has not yet touched `data`). -/
def state_manager_raw_decompress (cd : Codec) (p : Patch) (data : List Nat)
    (len : Nat) : Option (List Nat) :=
  if p.raw_flag then
    if p.payload_size ≠ len then none
    else some (List.zipWith Nat.xor data p.payload)
  else
    if len > INT_MAX then none
    else if p.payload_size > INT_MAX then none
    else
      match cd.decomp p.payload len with
      | none => none
      | some d => if d.length = len then some (List.zipWith Nat.xor data d) else none

/-- `state_manager_t`.  Offsets (`headpos`, `tailpos`) are relative to
`data`; the byte arena is modelled by two overlay maps: `cells` holds the
`size_t` self-pointers written with `write_size_t`, keyed by absolute
offset, and `patches` holds patch blobs keyed by the absolute offset of
their header. -/
@[ext]
structure SMState where
  capacity : Nat
  maxcompsize : Nat
  blocksize : Nat
  headpos : Nat
  tailpos : Nat
  cells : Nat → Nat
  patches : Nat → Patch
  thisblock : List Nat
  nextblock : List Nat
  entries : Nat
  thisblock_valid : Bool

/-- `state_manager_new(state_size, buffer_size)` (the parts of the
constructor that initialise the ring; allocation failure is out of
scope).  `calloc` zero-fills the blocks. -/
def state_manager_new (state_size buffer_size : Nat) : SMState :=
  let block_size := ((state_size + 2 - 1) / 2) * 2
  { capacity := buffer_size
    maxcompsize := state_manager_raw_maxsize block_size + szt * 2
    blocksize := block_size
    headpos := szt
    tailpos := szt
    cells := fun _ => 0
    patches := fun _ => ⟨0, true, []⟩
    thisblock := List.replicate block_size 0
    nextblock := List.replicate block_size 0
    entries := 0
    thisblock_valid := false }

/-- Result of `state_manager_pop(state, &data)`: the new manager state,
the value of `*data` on return (`none` models `NULL`), and the returned
`bool`. -/
structure PopResult where
  st : SMState
  data : Option (List Nat)
  ok : Bool

/-- `state_manager_pop`: hand back `thisblock` when `thisblock_valid`;
otherwise expose `thisblock` as the baseline, fail on an empty ring
(`head == tail`), else walk `head` back through the stored self-pointer
and XOR-decode the most recent record onto `thisblock`. -/
def state_manager_pop (cd : Codec) (s : SMState) : PopResult :=
  if s.thisblock_valid then
    { st := { s with thisblock_valid := false, entries := s.entries - 1 }
      data := some s.thisblock
      ok := true }
  else if s.headpos = s.tailpos then
    { st := s, data := some s.thisblock, ok := false }
  else
    let start := s.cells (s.headpos - szt)
    let patch := s.patches (start + szt)
    match state_manager_raw_decompress cd patch s.thisblock s.blocksize with
    | none => { st := { s with headpos := start }, data := some s.thisblock, ok := false }
    | some decoded =>
      { st := { s with headpos := start, thisblock := decoded,
                       entries := s.entries - 1 }
        data := some decoded
        ok := true }

/-- `remaining` as computed inside `state_manager_push_do`, with the
`size_t` subtraction made explicit modulo `2^64`. -/
def remainingOf (s : SMState) : Nat :=
  ((s.tailpos + s.capacity + 2 ^ 64 - (szt + s.headpos + 1)) % 2 ^ 64)
      % s.capacity + 1

/-- The `recheckcapacity` eviction loop of `state_manager_push_do`:
while `remaining ≤ maxcompsize`, advance `tail` through the record's
stored self-pointer and decrement `entries`.  The C loop is unbounded;
the model carries fuel, shown sufficient under the ring invariant. -/
def evictLoop : Nat → SMState → SMState
  | 0, s => s
  | fuel + 1, s =>
    if remainingOf s ≤ s.maxcompsize then
      evictLoop fuel
        { s with tailpos := s.cells s.tailpos, entries := s.entries - 1 }
    else s

/-- `state_manager_push_do`: with a valid baseline, reject undersized
arenas, evict until the new record fits, write the patch at
`head + sizeof(size_t)`, wrap the write cursor to the arena start when
less than `maxcompsize` would remain before the arena end (advancing a
sentinel tail), link the self-pointers, and swap the working blocks. -/
def state_manager_push_do (cd : Codec) (s : SMState) : SMState :=
  if s.thisblock_valid then
    if s.capacity < szt + s.maxcompsize then s
    else
      let s₁ := evictLoop (s.entries + 1) s
      let patch := state_manager_raw_compress cd s₁.thisblock s₁.nextblock
        s₁.blocksize
      let s₂ := { s₁ with
        patches := Function.update s₁.patches (s₁.headpos + szt) patch }
      let cpos := s₂.headpos + szt + patchLen patch
      let wrapped := s₂.capacity < cpos + s₂.maxcompsize
      let s₃ :=
        if wrapped then
          if s₂.tailpos = szt then { s₂ with tailpos := s₂.cells s₂.tailpos }
          else s₂
        else s₂
      let cpos₂ := if wrapped then 0 else cpos
      let s₄ := { s₃ with
        cells := Function.update s₃.cells cpos₂ s₃.headpos }
      let s₅ := { s₄ with
        cells := Function.update s₄.cells s₄.headpos (cpos₂ + szt) }
      { s₅ with
        headpos := cpos₂ + szt
        thisblock := s₅.nextblock
        nextblock := s₅.thisblock
        entries := s₅.entries + 1 }
  else
    { s with
      thisblock_valid := true
      thisblock := s.nextblock
      nextblock := s.thisblock
      entries := s.entries + 1 }

/-! Ghost description of the live patch records in the arena, oldest
first, used to state and prove the ring invariant. -/

/-- One live patch record: its absolute start offset (the offset of its
forward self-pointer cell), the patch blob, and whether the write cursor
wrapped to the arena origin when this record was linked. -/
structure ArenaRec where
  start : Nat
  patch : Patch
  wrapped : Bool

/-- Bytes a record occupies: forward pointer, patch blob, back pointer. -/
def recLen (r : ArenaRec) : Nat := 2 * szt + patchLen r.patch

/-- Offset of the next record (the value of the record's forward
self-pointer): just past the record, or the arena origin plus one word
when the record wrapped. -/
def nextStart (r : ArenaRec) : Nat :=
  if r.wrapped then szt else r.start + recLen r

/-- The records chain from `tail` to `head` through their forward
self-pointers. -/
def chainOk : Nat → List ArenaRec → Nat → Prop
  | t, [], h => t = h
  | t, r :: rs, h => r.start = t ∧ chainOk (nextStart r) rs h

/-- Record starts are either the arena origin cell or lie past at least
one minimum-sized record. -/
def goodStart (p : Nat) : Prop := p = szt ∨ 5 * szt ≤ p

/-- Well-formedness of one live record against the manager state:
geometry within the arena, patch decodability, and agreement of the
self-pointer cells and the patch map with the ghost record. -/
def RecOk (cd : Codec) (s : SMState) (r : ArenaRec) : Prop :=
  goodStart r.start ∧
  r.start + s.maxcompsize ≤ s.capacity + szt ∧
  patchLen r.patch + 2 * szt ≤ s.maxcompsize ∧
  r.patch.payload_size = r.patch.payload.length ∧
  (r.patch.raw_flag = true → r.patch.payload.length = s.blocksize) ∧
  (r.patch.raw_flag = false →
     ∃ d, cd.decomp r.patch.payload s.blocksize = some d ∧
       d.length = s.blocksize) ∧
  (r.wrapped = true →
     s.capacity < r.start + szt + patchLen r.patch + s.maxcompsize) ∧
  (r.wrapped = false →
     r.start + szt + patchLen r.patch + s.maxcompsize ≤ s.capacity) ∧
  s.cells r.start = nextStart r ∧
  s.cells (nextStart r - szt) = r.start ∧
  s.patches (r.start + szt) = r.patch

/-- Layout shape: the records chain from tail to head and contain at
most one wrapped record; while a wrapped record is live the write cursor
sits strictly below the tail with a word of slack. -/
def Shape (s : SMState) (recs : List ArenaRec) : Prop :=
  chainOk s.tailpos recs s.headpos ∧
  ((∀ r ∈ recs, r.wrapped = false) ∨
   (∃ A w B, recs = A ++ w :: B ∧ w.wrapped = true ∧
      (∀ r ∈ A, r.wrapped = false) ∧ (∀ r ∈ B, r.wrapped = false) ∧
      s.headpos + szt < s.tailpos))

/-- The ring invariant of `state_manager_t`, relative to the ghost record
list.  The capacity envelope `2·maxcompsize + 2·sizeof(size_t) ≤ capacity`
reflects the design note that about two `maxcompsize` of the arena stay
unused; `capacity < 2^32` holds because the buffer size is configured as
an `unsigned`. -/
def Inv (cd : Codec) (s : SMState) (recs : List ArenaRec) : Prop :=
  2 * s.maxcompsize + 2 * szt ≤ s.capacity ∧
  s.capacity < 2 ^ 32 ∧
  6 * szt ≤ s.maxcompsize ∧
  state_manager_raw_maxsize s.blocksize + szt * 2 = s.maxcompsize ∧
  s.thisblock.length = s.blocksize ∧
  s.nextblock.length = s.blocksize ∧
  goodStart s.headpos ∧
  s.headpos + s.maxcompsize ≤ s.capacity + szt ∧
  goodStart s.tailpos ∧
  recs.length + (if s.thisblock_valid then 1 else 0) ≤ s.entries ∧
  Shape s recs ∧
  (∀ r ∈ recs, RecOk cd s r)

theorem recLen_ge (r : ArenaRec) : 4 * szt ≤ recLen r := by
  unfold recLen patchLen STATE_DELTA_HEADER_SIZE
  omega

theorem chain_nowrap_bounds {t h : Nat} {recs : List ArenaRec}
    (hc : chainOk t recs h) (hw : ∀ r ∈ recs, r.wrapped = false) :
    t ≤ h ∧ ∀ r ∈ recs, t ≤ r.start ∧ r.start + recLen r ≤ h := by
  induction recs generalizing t with
  | nil => exact ⟨le_of_eq hc, by simp⟩
  | cons r rs ih =>
    obtain ⟨hstart, hchain⟩ := hc
    have hwr : r.wrapped = false := hw r (List.mem_cons_self r rs)
    have hnext : nextStart r = r.start + recLen r := by
      unfold nextStart
      rw [hwr]
      simp
    rw [hnext] at hchain
    obtain ⟨hth, hall⟩ := ih hchain (fun x hx => hw x (List.mem_cons_of_mem r hx))
    subst hstart
    refine ⟨by omega, ?_⟩
    intro x hx
    rcases List.mem_cons.mp hx with hx | hx
    · subst hx
      exact ⟨le_refl _, by omega⟩
    · have := hall x hx
      omega

theorem chain_nowrap_sum {t h : Nat} {recs : List ArenaRec}
    (hc : chainOk t recs h) (hw : ∀ r ∈ recs, r.wrapped = false) :
    (recs.map recLen).sum = h - t := by
  induction recs generalizing t with
  | nil =>
    subst hc
    simp
  | cons r rs ih =>
    obtain ⟨hstart, hchain⟩ := hc
    have hwr : r.wrapped = false := hw r (List.mem_cons_self r rs)
    have hnext : nextStart r = r.start + recLen r := by
      unfold nextStart
      rw [hwr]
      simp
    rw [hnext] at hchain
    have hsum := ih hchain (fun x hx => hw x (List.mem_cons_of_mem r hx))
    have hle := (chain_nowrap_bounds hchain
      (fun x hx => hw x (List.mem_cons_of_mem r hx))).1
    subst hstart
    simp only [List.map_cons, List.sum_cons, hsum]
    omega

theorem chain_last {t h : Nat} {recs : List ArenaRec}
    (hc : chainOk t recs h) (hne : recs ≠ []) :
    ∃ rs r, recs = rs ++ [r] ∧ nextStart r = h := by
  induction recs generalizing t with
  | nil => exact absurd rfl hne
  | cons r rs ih =>
    obtain ⟨-, hchain⟩ := hc
    rcases rs with _ | ⟨r₂, rs₂⟩
    · exact ⟨[], r, rfl, hchain⟩
    · obtain ⟨rs', r', heq, hnext⟩ := ih hchain (by simp)
      exact ⟨r :: rs', r', by rw [heq]; rfl, hnext⟩

theorem chain_drop {t h : Nat} {r : ArenaRec}
    {rs : List ArenaRec} (hc : chainOk t (r :: rs) h) :
    chainOk (nextStart r) rs h := hc.2

theorem chain_dropLast {t h : Nat} {rs : List ArenaRec} {r : ArenaRec}
    (hc : chainOk t (rs ++ [r]) h) : chainOk t rs r.start := by
  induction rs generalizing t with
  | nil => exact hc.1.symm
  | cons x xs ih => exact ⟨hc.1, ih hc.2⟩

/-- Evaluation of the `remaining` expression when no `size_t` borrow
occurs in the outer subtraction. -/
theorem remainingOf_eval (s : SMState)
    (h1 : szt + s.headpos + 1 ≤ s.tailpos + s.capacity)
    (h2 : s.tailpos + s.capacity < 2 ^ 64) :
    remainingOf s =
      (s.tailpos + s.capacity - szt - s.headpos - 1) % s.capacity + 1 := by
  unfold remainingOf
  congr 1
  have hd : s.tailpos + s.capacity + 2 ^ 64 - (szt + s.headpos + 1)
      = 2 ^ 64 + (s.tailpos + s.capacity - szt - s.headpos - 1) := by omega
  have hlt : s.tailpos + s.capacity - szt - s.headpos - 1 < 2 ^ 64 := by omega
  rw [hd, Nat.add_mod_left, Nat.mod_eq_of_lt hlt]

/-- `remaining` when the head is below the tail (`tail - szt - head - 1`
does not borrow and is below `capacity`). -/
theorem remainingOf_below (s : SMState)
    (h1 : s.headpos + szt + 1 ≤ s.tailpos)
    (h3 : s.tailpos - szt - s.headpos - 1 < s.capacity)
    (h2 : s.tailpos + s.capacity < 2 ^ 64) :
    remainingOf s = s.tailpos - szt - s.headpos := by
  rw [remainingOf_eval s (by omega) h2]
  have he : s.tailpos + s.capacity - szt - s.headpos - 1
      = s.capacity + (s.tailpos - szt - s.headpos - 1) := by omega
  rw [he, Nat.add_mod_left, Nat.mod_eq_of_lt h3]
  omega

/-- `remaining` when the head is at or above the tail (the subtraction
borrows and wraps once around `capacity`). -/
theorem remainingOf_above (s : SMState)
    (h1 : s.tailpos ≤ s.headpos + szt)
    (h0 : szt + s.headpos + 1 ≤ s.tailpos + s.capacity)
    (h2 : s.tailpos + s.capacity < 2 ^ 64) :
    remainingOf s = s.tailpos + s.capacity - szt - s.headpos := by
  rw [remainingOf_eval s h0 h2]
  have hlt : s.tailpos + s.capacity - szt - s.headpos - 1 < s.capacity := by
    omega
  rw [Nat.mod_eq_of_lt hlt]
  omega

theorem le_raw_maxsize (b : Nat) : b ≤ state_manager_raw_maxsize b := by
  unfold state_manager_raw_maxsize LZ4_compressBound STATE_DELTA_HEADER_SIZE
    LZ4_MAX_INPUT_SIZE szt
  split
  · split <;> omega
  · omega

theorem blocksize_le_intmax {cd : Codec} {s : SMState} {recs : List ArenaRec}
    (hInv : Inv cd s recs) : s.blocksize ≤ INT_MAX ∧ s.blocksize ≤ s.maxcompsize := by
  obtain ⟨hcap, hcap32, -, hm, -⟩ := hInv
  have hb := le_raw_maxsize s.blocksize
  unfold INT_MAX szt at *
  omega

theorem decompress_ok (cd : Codec) {p : Patch} {L : Nat} (data : List Nat)
    (hdata : data.length = L) (hL : L ≤ INT_MAX)
    (hps : p.payload_size = p.payload.length)
    (hpsle : p.payload_size ≤ INT_MAX)
    (hraw : p.raw_flag = true → p.payload.length = L)
    (hcomp : p.raw_flag = false →
      ∃ d, cd.decomp p.payload L = some d ∧ d.length = L) :
    ∃ out, state_manager_raw_decompress cd p data L = some out ∧
      out.length = L := by
  unfold state_manager_raw_decompress
  cases hflag : p.raw_flag with
  | true =>
    have hlen := hraw hflag
    refine ⟨List.zipWith Nat.xor data p.payload, ?_, ?_⟩
    · have hps' : ¬p.payload_size ≠ L := by omega
      simp [hps']
    · rw [List.length_zipWith, hdata, hlen]
      exact Nat.min_self L
  | false =>
    obtain ⟨d, hd, hdlen⟩ := hcomp hflag
    refine ⟨List.zipWith Nat.xor data d, ?_, ?_⟩
    · have h1 : ¬L > INT_MAX := by omega
      have h2 : ¬p.payload_size > INT_MAX := by omega
      simp [h1, h2, hd, hdlen]
    · rw [List.length_zipWith, hdata, hdlen]
      exact Nat.min_self L

theorem head_ne_tail_of_recs {cd : Codec} {s : SMState} {recs : List ArenaRec}
    (hInv : Inv cd s recs) (hne : recs ≠ []) : s.headpos ≠ s.tailpos := by
  obtain ⟨-, -, -, -, -, -, -, -, -, -, ⟨hchain, hshape⟩, -⟩ := hInv
  rcases hshape with hnw | ⟨A, w, B, -, -, -, -, hsep⟩
  · rcases recs with _ | ⟨r, rs⟩
    · exact absurd rfl hne
    · have hb := (chain_nowrap_bounds hchain hnw).2 r (List.mem_cons_self r rs)
      have hr := recLen_ge r
      have hst : r.start = s.tailpos := hchain.1
      unfold szt at hr
      omega
  · unfold szt at hsep
    omega

/-- Full characterization of `state_manager_pop` under the ring
invariant. -/
theorem pop_characterization (cd : Codec) (s : SMState) (recs : List ArenaRec)
    (hInv : Inv cd s recs) :
    (s.thisblock_valid = true →
      state_manager_pop cd s =
        ⟨{ s with thisblock_valid := false, entries := s.entries - 1 },
         some s.thisblock, true⟩) ∧
    (s.thisblock_valid = false → s.headpos = s.tailpos →
      state_manager_pop cd s = ⟨s, some s.thisblock, false⟩) ∧
    (s.thisblock_valid = false → s.headpos ≠ s.tailpos →
      ∃ rs r out, recs = rs ++ [r] ∧
        state_manager_raw_decompress cd r.patch s.thisblock s.blocksize
          = some out ∧
        out.length = s.blocksize ∧
        state_manager_pop cd s =
          ⟨{ s with headpos := r.start, thisblock := out,
                    entries := s.entries - 1 }, some out, true⟩) := by
  refine ⟨?_, ?_, ?_⟩
  · intro hv
    unfold state_manager_pop
    rw [if_pos hv]
  · intro hv hht
    unfold state_manager_pop
    rw [if_neg (by simp [hv]), if_pos hht]
  · intro hv hht
    have hInv' := hInv
    obtain ⟨hc1, hc2, hc3, hc4, hthis, hc6, hc7, hc8, hc9, hc10,
      ⟨hchain, hshape⟩, hrecok⟩ := hInv'
    have hne : recs ≠ [] := by
      intro heq
      subst heq
      have hth : s.tailpos = s.headpos := hchain
      exact hht hth.symm
    obtain ⟨rs, r, heq, hnext⟩ := chain_last hchain hne
    have hmem : r ∈ recs := by
      rw [heq]
      exact List.mem_append_right rs (List.mem_cons_self r [])
    obtain ⟨-, -, hplen, hps, hraw, hcomp, -, -, -, hback, hpatch⟩ :=
      hrecok r hmem
    obtain ⟨hbint, -⟩ := blocksize_le_intmax hInv
    have hpsle : r.patch.payload_size ≤ INT_MAX := by
      unfold patchLen STATE_DELTA_HEADER_SIZE szt INT_MAX at *
      omega
    obtain ⟨out, hout, houtlen⟩ :=
      decompress_ok cd s.thisblock hthis hbint hps hpsle hraw hcomp
    refine ⟨rs, r, out, heq, hout, houtlen, ?_⟩
    unfold state_manager_pop
    rw [if_neg (by simp [hv]), if_neg hht]
    have hcell : s.cells (s.headpos - szt) = r.start := by
      rw [← hnext]
      exact hback
    simp only [hcell, hpatch, hout]

/-- A concrete manager (4-byte states, 1000-byte arena) right after the
initial `push_where`/`push_do` pair of `state_manager_event_init`:
its ring invariant holds with no stored records. -/
theorem inv_example :
    Inv failCodec (state_manager_push_do failCodec (state_manager_new 4 1000))
      [] := by
  unfold Inv state_manager_push_do state_manager_new Shape chainOk goodStart
    state_manager_raw_maxsize LZ4_compressBound STATE_DELTA_HEADER_SIZE
    LZ4_MAX_INPUT_SIZE szt RecOk
  norm_num

/-- The behaviour of `state_manager_pop` claimed for success and failure:
failure exactly on an exhausted ring, the baseline hand-back when
`thisblock_valid`, and the XOR decode of the most recent record
otherwise. -/
def PopSpec (cd : Codec) (s : SMState) (recs : List ArenaRec) : Prop :=
  ((state_manager_pop cd s).ok = false ↔
      (s.headpos = s.tailpos ∧ s.thisblock_valid = false)) ∧
  (s.thisblock_valid = true →
      (state_manager_pop cd s).data = some s.thisblock ∧
      (state_manager_pop cd s).st.thisblock_valid = false ∧
      (state_manager_pop cd s).st.entries = s.entries - 1 ∧
      (state_manager_pop cd s).ok = true) ∧
  (s.thisblock_valid = false → s.headpos ≠ s.tailpos →
      ∃ rs r, recs = rs ++ [r] ∧
        state_manager_raw_decompress cd r.patch s.thisblock s.blocksize
          = some (state_manager_pop cd s).st.thisblock ∧
        (state_manager_pop cd s).st.entries = s.entries - 1 ∧
        (state_manager_pop cd s).ok = true)

/-- C7: `state_manager_pop` fails iff `head == tail` and `this_valid` is
false; with `this_valid` it hands back `this_block`, clears the flag and
decrements `entries`; otherwise it XOR-decodes the most recent record
onto `this_block`, decrements `entries` and succeeds. -/
theorem state_manager_pop_success_conditions (cd : Codec) (s : SMState)
    (recs : List ArenaRec) (hInv : Inv cd s recs) : PopSpec cd s recs := by
  obtain ⟨hval, hfail, hdec⟩ := pop_characterization cd s recs hInv
  unfold PopSpec
  refine ⟨?_, ?_, ?_⟩
  · cases hv : s.thisblock_valid with
    | true =>
      rw [hval hv]
      simp
    | false =>
      by_cases hht : s.headpos = s.tailpos
      · rw [hfail hv hht]
        simp [hht, hv]
      · obtain ⟨rs, r, out, -, -, -, hpop⟩ := hdec hv hht
        rw [hpop]
        simp [hht]
  · intro hv
    rw [hval hv]
    exact ⟨rfl, rfl, rfl, rfl⟩
  · intro hv hht
    obtain ⟨rs, r, out, heq, hout, houtlen, hpop⟩ := hdec hv hht
    refine ⟨rs, r, heq, ?_, ?_, ?_⟩
    · rw [hpop]
      exact hout
    · rw [hpop]
    · rw [hpop]

/-- Witness for C7: the initialized example manager; its pop hands back
the baseline. -/
theorem state_manager_pop_success_conditions_witness :
    PopSpec failCodec
      (state_manager_push_do failCodec (state_manager_new 4 1000)) [] :=
  state_manager_pop_success_conditions _ _ _ inv_example

/-- The claimed fallback behaviour of `state_manager_pop`: `*data` always
points at the (post-call) baseline block of `blocksize` bytes, never
`NULL`, even when the pop fails. -/
def PopBaselineSpec (cd : Codec) (s : SMState) (recs : List ArenaRec) : Prop :=
  (state_manager_pop cd s).data = some (state_manager_pop cd s).st.thisblock ∧
  (state_manager_pop cd s).st.thisblock.length = s.blocksize ∧
  ((state_manager_pop cd s).ok = false →
      (state_manager_pop cd s).data = some s.thisblock)

/-- C9: even a failed `state_manager_pop` (exhausted ring) leaves `*data`
pointing at `this_block`, a baseline snapshot of `blocksize` bytes, so
the caller may deserialize it; `*data` is never `NULL`. -/
theorem state_manager_pop_baseline (cd : Codec) (s : SMState)
    (recs : List ArenaRec) (hInv : Inv cd s recs) :
    PopBaselineSpec cd s recs := by
  obtain ⟨hval, hfail, hdec⟩ := pop_characterization cd s recs hInv
  have hthis : s.thisblock.length = s.blocksize := hInv.2.2.2.2.1
  unfold PopBaselineSpec
  cases hv : s.thisblock_valid with
  | true =>
    rw [hval hv]
    exact ⟨rfl, hthis, fun h => by cases h⟩
  | false =>
    by_cases hht : s.headpos = s.tailpos
    · rw [hfail hv hht]
      exact ⟨rfl, hthis, fun _ => rfl⟩
    · obtain ⟨rs, r, out, -, -, houtlen, hpop⟩ := hdec hv hht
      rw [hpop]
      exact ⟨rfl, houtlen, fun h => by cases h⟩

/-- Witness for C9: the example manager. -/
theorem state_manager_pop_baseline_witness :
    PopBaselineSpec failCodec
      (state_manager_push_do failCodec (state_manager_new 4 1000)) [] :=
  state_manager_pop_baseline _ _ _ inv_example

/-! Machinery for the `state_manager_push_do` characterization. -/

/-- Start of a record chain: the first record's start, or the head
offset when the chain is empty. -/
def chainTail (recs : List ArenaRec) (h : Nat) : Nat :=
  match recs with
  | [] => h
  | r :: _ => r.start

theorem chain_drop_i {t h : Nat} {recs : List ArenaRec}
    (hc : chainOk t recs h) (i : Nat) :
    chainOk (chainTail (recs.drop i) h) (recs.drop i) h := by
  induction i generalizing t recs with
  | zero =>
    cases recs with
    | nil => exact hc ▸ rfl
    | cons r rs => exact ⟨rfl, hc.2⟩
  | succ i ih =>
    cases recs with
    | nil => exact rfl
    | cons r rs => exact ih hc.2

theorem chain_snoc {t h : Nat} {recs : List ArenaRec} {r : ArenaRec}
    (hc : chainOk t recs h) (hstart : r.start = h) :
    chainOk t (recs ++ [r]) (nextStart r) := by
  induction recs generalizing t with
  | nil => exact ⟨hstart ▸ hc ▸ rfl, rfl⟩
  | cons x xs ih => exact ⟨hc.1, ih hc.2⟩

theorem chain_append_split {t h : Nat} {A B : List ArenaRec}
    (hc : chainOk t (A ++ B) h) :
    chainOk t A (chainTail B h) ∧ chainOk (chainTail B h) B h := by
  induction A generalizing t with
  | nil =>
    rw [List.nil_append] at hc
    cases B with
    | nil => exact ⟨hc, hc ▸ rfl⟩
    | cons b bs => exact ⟨hc.1.symm, rfl, hc.2⟩
  | cons a as ih =>
    obtain ⟨h1, h2⟩ := ih hc.2
    exact ⟨⟨hc.1, h1⟩, h2⟩

/-- The structural facts `state_manager_raw_compress` guarantees about
the patch it produces. -/
theorem raw_compress_props (cd : Codec) (this next : List Nat) (L : Nat)
    (hthis : this.length = L) (hnext : next.length = L) :
    (state_manager_raw_compress cd this next L).payload_size
      = (state_manager_raw_compress cd this next L).payload.length ∧
    ((state_manager_raw_compress cd this next L).raw_flag = true →
      (state_manager_raw_compress cd this next L).payload.length = L) ∧
    ((state_manager_raw_compress cd this next L).raw_flag = false →
      ∃ d, cd.decomp (state_manager_raw_compress cd this next L).payload L
            = some d ∧ d.length = L) ∧
    patchLen (state_manager_raw_compress cd this next L)
      ≤ state_manager_raw_maxsize L := by
  have hdlen : (state_manager_xor_delta this next).length = L := by
    unfold state_manager_xor_delta
    rw [List.length_zipWith, hthis, hnext]
    exact Nat.min_self L
  have hmax : STATE_DELTA_HEADER_SIZE + L ≤ state_manager_raw_maxsize L := by
    unfold state_manager_raw_maxsize LZ4_compressBound
    split
    · rw [if_neg (by omega)]
      omega
    · omega
  by_cases hle' : L ≤ LZ4_MAX_INPUT_SIZE
  · cases hcm : cd.comp (state_manager_xor_delta this next) with
    | none =>
      have hP : state_manager_raw_compress cd this next L
          = ⟨L, true, state_manager_xor_delta this next⟩ := by
        simp [state_manager_raw_compress, hle', hcm]
      rw [hP]
      refine ⟨hdlen.symm, fun _ => hdlen, ?_, ?_⟩
      · intro h
        simp at h
      · unfold patchLen
        exact hmax
    | some c =>
      by_cases hwin : 0 < c.length ∧ c.length < L
      · have hP : state_manager_raw_compress cd this next L
            = ⟨c.length, false, c⟩ := by
          simp [state_manager_raw_compress, hle', hcm, hwin]
        rw [hP]
        have hrt := cd.decomp_comp _ _ hcm
        rw [hdlen] at hrt
        refine ⟨rfl, ?_, fun _ => ⟨_, hrt, hdlen⟩, ?_⟩
        · intro h
          simp at h
        · show STATE_DELTA_HEADER_SIZE + c.length ≤ state_manager_raw_maxsize L
          omega
      · have hP : state_manager_raw_compress cd this next L
            = ⟨L, true, state_manager_xor_delta this next⟩ := by
          simp only [state_manager_raw_compress, if_pos hle', hcm, if_neg hwin]
        rw [hP]
        refine ⟨hdlen.symm, fun _ => hdlen, ?_, ?_⟩
        · intro h
          simp at h
        · unfold patchLen
          exact hmax
  · have hP : state_manager_raw_compress cd this next L
        = ⟨L, true, state_manager_xor_delta this next⟩ := by
      simp [state_manager_raw_compress, hle']
    rw [hP]
    refine ⟨hdlen.symm, fun _ => hdlen, ?_, ?_⟩
    · intro h
      simp at h
    · unfold patchLen
      exact hmax

/-- In any invariant state no record's patch blob crosses the arena end
("no patch record spans the wrap boundary"). -/
theorem no_span_of_inv {cd : Codec} {s : SMState} {recs : List ArenaRec}
    (hInv : Inv cd s recs) :
    ∀ r ∈ recs, r.start + szt + patchLen r.patch ≤ s.capacity := by
  intro r hr
  obtain ⟨hc1, -, hc3, -, -, -, -, -, -, -, -, hrecok⟩ := hInv
  obtain ⟨-, hstart, hplen, -, -, -, hwrapc, hnowrapc, -⟩ := hrecok r hr
  cases hw : r.wrapped with
  | true =>
    have := hwrapc hw
    omega
  | false =>
    have := hnowrapc hw
    omega

/-- In any invariant state the stored records' total footprint is at
most the arena capacity. -/
theorem sum_bound_of_inv {cd : Codec} {s : SMState} {recs : List ArenaRec}
    (hInv : Inv cd s recs) :
    (recs.map recLen).sum ≤ s.capacity := by
  have hns := no_span_of_inv hInv
  obtain ⟨hc1, -, hc3, -, -, -, -, hc8, -, -, ⟨hchain, hshape⟩, hrecok⟩ := hInv
  rcases hshape with hnw | ⟨A, w, B, heq, hw, hA, hB, hsep⟩
  · rw [chain_nowrap_sum hchain hnw]
    omega
  · subst heq
    have hsplit := chain_append_split hchain
    have hctA : chainTail (w :: B) s.headpos = w.start := rfl
    rw [hctA] at hsplit
    have hcA := hsplit.1
    have hcB : chainOk (nextStart w) B s.headpos := hsplit.2.2
    have hnsw : nextStart w = szt := by
      unfold nextStart
      rw [hw]
      simp
    rw [hnsw] at hcB
    have hsumA := chain_nowrap_sum hcA hA
    have hsumB := chain_nowrap_sum hcB hB
    have hbndA := chain_nowrap_bounds hcA hA
    have hbndB := chain_nowrap_bounds hcB hB
    have hwspan := hns w (by simp)
    have hrecw : recLen w = 2 * szt + patchLen w.patch := rfl
    simp only [List.map_append, List.map_cons, List.sum_append, List.sum_cons,
      hsumA, hsumB, hrecw]
    unfold szt at *
    omega

/-- The eviction loop of `push_do` drops the longest prefix of the
record chain whose intermediate `remaining` values stay at or below
`maxcompsize`, advancing the tail through the stored self-pointers and
decrementing `entries` once per dropped record; it exits with
`remaining > maxcompsize`. -/
theorem evictLoop_spec (s : SMState) (recs : List ArenaRec) (fuel : Nat)
    (hchain : chainOk s.tailpos recs s.headpos)
    (hcells : ∀ r ∈ recs, s.cells r.start = nextStart r)
    (hszm : szt + s.maxcompsize < s.capacity)
    (hpos : s.headpos ≤ s.capacity)
    (hst : ∀ r ∈ recs, r.start ≤ s.capacity ∧ nextStart r ≤ s.capacity)
    (hc64 : 2 * s.capacity < 2 ^ 64)
    (hfuel : recs.length < fuel) :
    ∃ j, j ≤ recs.length ∧
      evictLoop fuel s =
        { s with tailpos := chainTail (recs.drop j) s.headpos,
                 entries := s.entries - j } ∧
      (∀ i < j,
        remainingOf { s with tailpos := chainTail (recs.drop i) s.headpos }
          ≤ s.maxcompsize) ∧
      s.maxcompsize <
        remainingOf { s with tailpos := chainTail (recs.drop j) s.headpos } := by
  induction recs generalizing s fuel with
  | nil =>
    have ht : s.tailpos = s.headpos := hchain
    have hrem : remainingOf s = s.capacity - szt := by
      rw [remainingOf_above s (by omega) (by omega) (by omega), ht]
      omega
    cases fuel with
    | zero => omega
    | succ f =>
      refine ⟨0, le_refl _, ?_, fun i hi => absurd hi (by omega), ?_⟩
      · show (if remainingOf s ≤ s.maxcompsize then _ else s) = _
        rw [if_neg (by omega)]
        ext <;> simp [chainTail, ht]
      · have hre2 : ({ s with tailpos := chainTail (List.drop 0 []) s.headpos } : SMState) = s := by
          ext <;> simp [chainTail, ht]
        rw [hre2]
        omega
  | cons r rs ih =>
    cases fuel with
    | zero => simp at hfuel
    | succ f =>
      have ht : r.start = s.tailpos := hchain.1
      by_cases hcond : remainingOf s ≤ s.maxcompsize
      · have hcell : s.cells s.tailpos = nextStart r := by
          rw [← ht]
          exact hcells r (List.mem_cons_self r rs)
        have hstep : evictLoop (f + 1) s =
            evictLoop f { s with tailpos := nextStart r,
                                 entries := s.entries - 1 } := by
          show (if remainingOf s ≤ s.maxcompsize then _ else s) = _
          rw [if_pos hcond, hcell]
        have hchain' : chainOk (nextStart r) rs s.headpos := hchain.2
        obtain ⟨j, hj, heq, hcons, hexit⟩ :=
          ih { s with tailpos := nextStart r, entries := s.entries - 1 }
            f hchain' (fun x hx => hcells x (List.mem_cons_of_mem r hx))
            hszm hpos (fun x hx => hst x (List.mem_cons_of_mem r hx)) hc64
            (by simp at hfuel; omega)
        refine ⟨j + 1, by simp; omega, ?_, ?_, ?_⟩
        · rw [hstep, heq]
          show ({ s with
              tailpos := chainTail (rs.drop j) s.headpos,
              entries := s.entries - 1 - j } : SMState) = _
          have he : s.entries - 1 - j = s.entries - (j + 1) := by omega
          rw [he]
          rfl
        · intro i hi
          cases i with
          | zero =>
            show remainingOf { s with tailpos := chainTail (r :: rs) s.headpos }
              ≤ s.maxcompsize
            have hct : chainTail (r :: rs) s.headpos = s.tailpos := ht
            rw [hct]
            exact hcond
          | succ i =>
            have := hcons i (by omega)
            exact this
        · exact hexit
      · refine ⟨0, by omega, ?_, fun i hi => absurd hi (by omega), ?_⟩
        · show (if remainingOf s ≤ s.maxcompsize then _ else s) = _
          rw [if_neg hcond]
          ext <;> simp [chainTail, ← ht]
        · have hre2 : ({ s with tailpos := chainTail (List.drop 0 (r :: rs)) s.headpos } : SMState) = s := by
            ext <;> simp [chainTail, ← ht]
          rw [hre2]
          omega

/-- Evaluation of `state_manager_push_do` when the new record fits
without wrapping. -/
theorem push_do_eval_nowrap (cd : Codec) (s : SMState) (t₁ e₁ : Nat)
    (hvalid : s.thisblock_valid = true)
    (hcap : ¬s.capacity < szt + s.maxcompsize)
    (hloop : evictLoop (s.entries + 1) s
      = { s with tailpos := t₁, entries := e₁ })
    (hwrap : ¬s.capacity < s.headpos + szt +
        patchLen (state_manager_raw_compress cd s.thisblock s.nextblock
          s.blocksize) + s.maxcompsize) :
    state_manager_push_do cd s =
      { s with
        patches := Function.update s.patches (s.headpos + szt)
          (state_manager_raw_compress cd s.thisblock s.nextblock s.blocksize)
        cells := Function.update
          (Function.update s.cells
            (s.headpos + szt + patchLen (state_manager_raw_compress cd
              s.thisblock s.nextblock s.blocksize)) s.headpos)
          s.headpos
          (s.headpos + szt + patchLen (state_manager_raw_compress cd
            s.thisblock s.nextblock s.blocksize) + szt)
        headpos := s.headpos + szt + patchLen (state_manager_raw_compress cd
          s.thisblock s.nextblock s.blocksize) + szt
        tailpos := t₁
        thisblock := s.nextblock
        nextblock := s.thisblock
        entries := e₁ + 1 } := by
  simp [state_manager_push_do, hvalid, hcap, hloop, hwrap]

/-- Evaluation of `state_manager_push_do` when the write cursor wraps to
the arena origin and the tail is not at its sentinel position. -/
theorem push_do_eval_wrap (cd : Codec) (s : SMState) (t₁ e₁ : Nat)
    (hvalid : s.thisblock_valid = true)
    (hcap : ¬s.capacity < szt + s.maxcompsize)
    (hloop : evictLoop (s.entries + 1) s
      = { s with tailpos := t₁, entries := e₁ })
    (hwrap : s.capacity < s.headpos + szt +
        patchLen (state_manager_raw_compress cd s.thisblock s.nextblock
          s.blocksize) + s.maxcompsize)
    (hsent : ¬t₁ = szt) :
    state_manager_push_do cd s =
      { s with
        patches := Function.update s.patches (s.headpos + szt)
          (state_manager_raw_compress cd s.thisblock s.nextblock s.blocksize)
        cells := Function.update
          (Function.update s.cells 0 s.headpos) s.headpos szt
        headpos := szt
        tailpos := t₁
        thisblock := s.nextblock
        nextblock := s.thisblock
        entries := e₁ + 1 } := by
  simp [state_manager_push_do, hvalid, hcap, hloop, hwrap, hsent]

/-- Evaluation of `state_manager_push_do` when the write cursor wraps and
the tail sits at the sentinel position, so the tail advances through its
stored self-pointer. -/
theorem push_do_eval_wrap_sentinel (cd : Codec) (s : SMState) (e₁ : Nat)
    (hvalid : s.thisblock_valid = true)
    (hcap : ¬s.capacity < szt + s.maxcompsize)
    (hloop : evictLoop (s.entries + 1) s
      = { s with tailpos := szt, entries := e₁ })
    (hwrap : s.capacity < s.headpos + szt +
        patchLen (state_manager_raw_compress cd s.thisblock s.nextblock
          s.blocksize) + s.maxcompsize) :
    state_manager_push_do cd s =
      { s with
        patches := Function.update s.patches (s.headpos + szt)
          (state_manager_raw_compress cd s.thisblock s.nextblock s.blocksize)
        cells := Function.update
          (Function.update s.cells 0 s.headpos) s.headpos szt
        headpos := szt
        tailpos := s.cells szt
        thisblock := s.nextblock
        nextblock := s.thisblock
        entries := e₁ + 1 } := by
  simp [state_manager_push_do, hvalid, hcap, hloop, hwrap]

/-- Transfer of a record's well-formedness to a state with the same
scalar geometry whose memory agrees at the record's three keys. -/
theorem RecOk_of_keys {cd : Codec} {s₀ : SMState} {r : ArenaRec}
    (F : SMState) (h : RecOk cd s₀ r)
    (hcap : F.capacity = s₀.capacity) (hm : F.maxcompsize = s₀.maxcompsize)
    (hbs : F.blocksize = s₀.blocksize)
    (hcells1 : F.cells r.start = s₀.cells r.start)
    (hcells2 : F.cells (nextStart r - szt) = s₀.cells (nextStart r - szt))
    (hpatches : F.patches (r.start + szt) = s₀.patches (r.start + szt)) :
    RecOk cd F r := by
  unfold RecOk at *
  rw [hcap, hm, hbs, hcells1, hcells2, hpatches]
  exact h

/-- Bound on the tail position and the post-exit `remaining` value when a
wrapped-shape chain survives: the head sits at least `maxcompsize` plus a
word below the first surviving record. -/
theorem exit_sep {s : SMState} {t₁ : Nat}
    (hsep : s.headpos + szt < t₁) (ht₁cap : t₁ ≤ s.capacity)
    (hc2 : s.capacity < 2 ^ 32)
    (hexit : s.maxcompsize < remainingOf { s with tailpos := t₁ }) :
    s.headpos + szt + s.maxcompsize < t₁ := by
  have hr : remainingOf { s with tailpos := t₁ } = t₁ - szt - s.headpos := by
    have := remainingOf_below { s with tailpos := t₁ } (by simp; omega)
      (by simp; unfold szt at *; omega) (by simp; unfold szt at *; omega)
    simpa using this
  rw [hr] at hexit
  omega

/-- Invariant preservation for the non-wrapping write phase of
`push_do`, stated over the surviving (post-eviction) chain. -/
theorem inv_after_nowrap (cd : Codec) (s : SMState) (live : List ArenaRec)
    (t₁ e₁ : Nat) (p : Patch)
    (hc1 : 2 * s.maxcompsize + 2 * szt ≤ s.capacity)
    (hc2 : s.capacity < 2 ^ 32)
    (hc3 : 6 * szt ≤ s.maxcompsize)
    (hc4 : state_manager_raw_maxsize s.blocksize + szt * 2 = s.maxcompsize)
    (hc5 : s.thisblock.length = s.blocksize)
    (hc6 : s.nextblock.length = s.blocksize)
    (hc7 : goodStart s.headpos)
    (hc8 : s.headpos + s.maxcompsize ≤ s.capacity + szt)
    (hgt : goodStart t₁)
    (hvalid : s.thisblock_valid = true)
    (hchainL : chainOk t₁ live s.headpos)
    (hrecokL : ∀ r ∈ live, RecOk cd s r)
    (hshapeL : (∀ r ∈ live, r.wrapped = false) ∨
      (∃ A w B, live = A ++ w :: B ∧ w.wrapped = true ∧
        (∀ r ∈ A, r.wrapped = false) ∧ (∀ r ∈ B, r.wrapped = false) ∧
        s.headpos + szt < t₁))
    (hexit : s.maxcompsize < remainingOf { s with tailpos := t₁ })
    (he : live.length + 1 ≤ e₁)
    (hpp1 : p.payload_size = p.payload.length)
    (hpp2 : p.raw_flag = true → p.payload.length = s.blocksize)
    (hpp3 : p.raw_flag = false →
      ∃ d, cd.decomp p.payload s.blocksize = some d ∧ d.length = s.blocksize)
    (hpl : patchLen p + 2 * szt ≤ s.maxcompsize)
    (hwrap : ¬s.capacity < s.headpos + szt + patchLen p + s.maxcompsize) :
    Inv cd
      { s with
        patches := Function.update s.patches (s.headpos + szt) p
        cells := Function.update
          (Function.update s.cells (s.headpos + szt + patchLen p) s.headpos)
          s.headpos (s.headpos + szt + patchLen p + szt)
        headpos := s.headpos + szt + patchLen p + szt
        tailpos := t₁
        thisblock := s.nextblock
        nextblock := s.thisblock
        entries := e₁ + 1 }
      (live ++ [⟨s.headpos, p, false⟩]) := by
  have hhge : szt ≤ s.headpos := by rcases hc7 with h | h <;> omega
  have hplo : 2 * szt ≤ patchLen p := by
    unfold patchLen STATE_DELTA_HEADER_SIZE
    omega
  -- separation when a wrapped record survives
  have hsep2 : (∃ A w B, live = A ++ w :: B ∧ w.wrapped = true) →
      s.headpos + szt + s.maxcompsize < t₁ := by
    rintro ⟨A, w, B, heqL, hwt⟩
    rcases hshapeL with hnw | ⟨A', w', B', heqL', -, -, -, hsep⟩
    · exfalso
      have hwf := hnw w (by rw [heqL]; exact List.mem_append_right A (by simp))
      rw [hwt] at hwf
      cases hwf
    · have ht₁cap : t₁ ≤ s.capacity := by
        rcases hlv : live with _ | ⟨r0, rest⟩
        · rw [hlv] at heqL'
          simp at heqL'
        · rw [hlv] at hchainL hrecokL
          have h0 : r0.start = t₁ := hchainL.1
          have := (hrecokL r0 (by simp)).2.1
          omega
      exact exit_sep hsep ht₁cap hc2 hexit
  refine ⟨hc1, hc2, hc3, hc4, hc6, hc5, ?_, ?_, hgt, ?_, ?_, ?_⟩
  · right
    show 5 * szt ≤ s.headpos + szt + patchLen p + szt
    omega
  · show s.headpos + szt + patchLen p + szt + s.maxcompsize
      ≤ s.capacity + szt
    omega
  · show (live ++ [(⟨s.headpos, p, false⟩ : ArenaRec)]).length
      + (if s.thisblock_valid = true then 1 else 0) ≤ e₁ + 1
    rw [hvalid, if_pos rfl, List.length_append]
    simp
    omega
  · -- Shape
    constructor
    · have hsn := @chain_snoc t₁ s.headpos live ⟨s.headpos, p, false⟩
        hchainL rfl
      have h2 : nextStart (⟨s.headpos, p, false⟩ : ArenaRec)
          = s.headpos + szt + patchLen p + szt := by
        show s.headpos + (2 * szt + patchLen p) = _
        omega
      rw [h2] at hsn
      exact hsn
    · rcases hshapeL with hnw | ⟨A, w, B, heqL, hw, hA, hB, hsep⟩
      · left
        intro r hr
        rcases List.mem_append.mp hr with hr | hr
        · exact hnw r hr
        · simp at hr
          rw [hr]
      · right
        refine ⟨A, w, B ++ [⟨s.headpos, p, false⟩], by rw [heqL]; simp,
          hw, hA, ?_, ?_⟩
        · intro r hr
          rcases List.mem_append.mp hr with hr | hr
          · exact hB r hr
          · simp at hr
            rw [hr]
        · show s.headpos + szt + patchLen p + szt + szt < t₁
          have := hsep2 ⟨A, w, B, heqL, hw⟩
          omega
  · -- record well-formedness
    have hkeys : ∀ r ∈ live,
        r.start ≠ s.headpos ∧ r.start ≠ s.headpos + szt + patchLen p ∧
        nextStart r - szt ≠ s.headpos ∧
        nextStart r - szt ≠ s.headpos + szt + patchLen p := by
      rcases hshapeL with hnw | ⟨A, w, B, heqL, hw, hA, hB, hsep⟩
      · intro r hr
        have hb := (chain_nowrap_bounds hchainL hnw).2 r hr
        have hrl := recLen_ge r
        have hnx : nextStart r = r.start + recLen r := by
          unfold nextStart
          rw [hnw r hr]
          simp
        unfold szt at *
        omega
      · have hs2 := hsep2 ⟨A, w, B, heqL, hw⟩
        subst heqL
        have hsplit := chain_append_split hchainL
        have hctw : chainTail (w :: B) s.headpos = w.start := rfl
        rw [hctw] at hsplit
        have hbA := chain_nowrap_bounds hsplit.1 hA
        have hnsw : nextStart w = szt := by
          unfold nextStart
          rw [hw]
          simp
        have hcB : chainOk szt B s.headpos := by
          have := hsplit.2.2
          rw [hnsw] at this
          exact this
        have hbB := chain_nowrap_bounds hcB hB
        intro r hr
        rcases List.mem_append.mp hr with hrA | hrw
        · have hb := hbA.2 r hrA
          have hrl := recLen_ge r
          have hnx : nextStart r = r.start + recLen r := by
            unfold nextStart
            rw [hA r hrA]
            simp
          unfold szt at *
          omega
        · rcases List.mem_cons.mp hrw with hrw | hrB
          · subst hrw
            have hws : t₁ ≤ r.start := hbA.1
            rw [hnsw]
            unfold szt at *
            omega
          · have hb := hbB.2 r hrB
            have hrl := recLen_ge r
            have hnx : nextStart r = r.start + recLen r := by
              unfold nextStart
              rw [hB r hrB]
              simp
            unfold szt at *
            omega
    intro r hr
    rcases List.mem_append.mp hr with hr | hrnew
    · obtain ⟨k1, k2, k3, k4⟩ := hkeys r hr
      refine RecOk_of_keys _ (hrecokL r hr) rfl rfl rfl ?_ ?_ ?_
      · show Function.update
          (Function.update s.cells (s.headpos + szt + patchLen p) s.headpos)
          s.headpos (s.headpos + szt + patchLen p + szt) r.start
          = s.cells r.start
        rw [Function.update_noteq k1, Function.update_noteq k2]
      · show Function.update
          (Function.update s.cells (s.headpos + szt + patchLen p) s.headpos)
          s.headpos (s.headpos + szt + patchLen p + szt) (nextStart r - szt)
          = s.cells (nextStart r - szt)
        rw [Function.update_noteq k3, Function.update_noteq k4]
      · show Function.update s.patches (s.headpos + szt) p (r.start + szt)
          = s.patches (r.start + szt)
        have : r.start + szt ≠ s.headpos + szt := by
          intro hh
          exact k1 (by omega)
        rw [Function.update_noteq this]
    · simp only [List.mem_singleton] at hrnew
      subst hrnew
      refine ⟨hc7, hc8, hpl, hpp1, hpp2, hpp3, ?_, ?_, ?_, ?_, ?_⟩
      · intro hx
        simp at hx
      · intro hx
        show s.headpos + szt + patchLen p + s.maxcompsize ≤ s.capacity
        omega
      · show Function.update
          (Function.update s.cells (s.headpos + szt + patchLen p) s.headpos)
          s.headpos (s.headpos + szt + patchLen p + szt) s.headpos
          = nextStart ⟨s.headpos, p, false⟩
        rw [Function.update_same]
        show _ = s.headpos + (2 * szt + patchLen p)
        omega
      · have hkeyb : nextStart (⟨s.headpos, p, false⟩ : ArenaRec) - szt
            = s.headpos + szt + patchLen p := by
          show s.headpos + (2 * szt + patchLen p) - szt = _
          omega
        rw [hkeyb]
        have hne : s.headpos + szt + patchLen p ≠ s.headpos := by
          unfold szt
          omega
        show Function.update
          (Function.update s.cells (s.headpos + szt + patchLen p) s.headpos)
          s.headpos (s.headpos + szt + patchLen p + szt)
          (s.headpos + szt + patchLen p) = _
        rw [Function.update_noteq hne, Function.update_same]
      · show Function.update s.patches (s.headpos + szt) p
          (s.headpos + szt) = p
        rw [Function.update_same]

/-- No wrapped record can survive to the moment the write cursor wraps
again: the eviction guard keeps the head far enough below the surviving
tail. -/
theorem no_wrapped_survives_wrap (cd : Codec) (s : SMState)
    (live : List ArenaRec) (t₁ : Nat) (p : Patch)
    (hc2 : s.capacity < 2 ^ 32)
    (hchainL : chainOk t₁ live s.headpos)
    (hrecokL : ∀ r ∈ live, RecOk cd s r)
    (hshapeL : (∀ r ∈ live, r.wrapped = false) ∨
      (∃ A w B, live = A ++ w :: B ∧ w.wrapped = true ∧
        (∀ r ∈ A, r.wrapped = false) ∧ (∀ r ∈ B, r.wrapped = false) ∧
        s.headpos + szt < t₁))
    (hexit : s.maxcompsize < remainingOf { s with tailpos := t₁ })
    (hpl : patchLen p + 2 * szt ≤ s.maxcompsize)
    (hwrap : s.capacity < s.headpos + szt + patchLen p + s.maxcompsize) :
    ∀ r ∈ live, r.wrapped = false := by
  rcases hshapeL with hnw | ⟨A, w, B, heqL, hw, hA, hB, hsep⟩
  · exact hnw
  · exfalso
    have ht₁cap : t₁ + s.maxcompsize ≤ s.capacity + szt := by
      rcases hlv : live with _ | ⟨r0, rest⟩
      · rw [hlv] at heqL
        simp at heqL
      · rw [hlv] at hchainL hrecokL
        have h0 : r0.start = t₁ := hchainL.1
        have := (hrecokL r0 (by simp)).2.1
        omega
    have hs2 := exit_sep hsep (by unfold szt at *; omega) hc2 hexit
    unfold szt at *
    omega

/-- Invariant preservation for the wrapping write phase of `push_do`
when the tail is not at the sentinel position. -/
theorem inv_after_wrap (cd : Codec) (s : SMState) (live : List ArenaRec)
    (t₁ e₁ : Nat) (p : Patch)
    (hc1 : 2 * s.maxcompsize + 2 * szt ≤ s.capacity)
    (hc2 : s.capacity < 2 ^ 32)
    (hc3 : 6 * szt ≤ s.maxcompsize)
    (hc4 : state_manager_raw_maxsize s.blocksize + szt * 2 = s.maxcompsize)
    (hc5 : s.thisblock.length = s.blocksize)
    (hc6 : s.nextblock.length = s.blocksize)
    (hc7 : goodStart s.headpos)
    (hc8 : s.headpos + s.maxcompsize ≤ s.capacity + szt)
    (hgt : goodStart t₁)
    (hvalid : s.thisblock_valid = true)
    (hchainL : chainOk t₁ live s.headpos)
    (hrecokL : ∀ r ∈ live, RecOk cd s r)
    (hnwL : ∀ r ∈ live, r.wrapped = false)
    (he : live.length + 1 ≤ e₁)
    (hpp1 : p.payload_size = p.payload.length)
    (hpp2 : p.raw_flag = true → p.payload.length = s.blocksize)
    (hpp3 : p.raw_flag = false →
      ∃ d, cd.decomp p.payload s.blocksize = some d ∧ d.length = s.blocksize)
    (hpl : patchLen p + 2 * szt ≤ s.maxcompsize)
    (hwrap : s.capacity < s.headpos + szt + patchLen p + s.maxcompsize)
    (hsentne : t₁ ≠ szt) :
    Inv cd
      { s with
        patches := Function.update s.patches (s.headpos + szt) p
        cells := Function.update
          (Function.update s.cells 0 s.headpos) s.headpos szt
        headpos := szt
        tailpos := t₁
        thisblock := s.nextblock
        nextblock := s.thisblock
        entries := e₁ + 1 }
      (live ++ [⟨s.headpos, p, true⟩]) := by
  have hhge : szt ≤ s.headpos := by rcases hc7 with h | h <;> omega
  have ht₁ge : szt ≤ t₁ := by rcases hgt with h | h <;> omega
  have ht₁5 : 5 * szt ≤ t₁ := by
    rcases hgt with h | h
    · exact absurd h hsentne
    · exact h
  have hbnd := chain_nowrap_bounds hchainL hnwL
  refine ⟨hc1, hc2, hc3, hc4, hc6, hc5, Or.inl rfl, ?_, hgt, ?_, ?_, ?_⟩
  · show szt + s.maxcompsize ≤ s.capacity + szt
    omega
  · show (live ++ [(⟨s.headpos, p, true⟩ : ArenaRec)]).length
      + (if s.thisblock_valid = true then 1 else 0) ≤ e₁ + 1
    rw [hvalid, if_pos rfl, List.length_append]
    simp
    omega
  · constructor
    · exact @chain_snoc t₁ s.headpos live ⟨s.headpos, p, true⟩ hchainL rfl
    · right
      refine ⟨live, ⟨s.headpos, p, true⟩, [], by simp, rfl, hnwL,
        by simp, ?_⟩
      show szt + szt < t₁
      unfold szt at *
      omega
  · have hkeys : ∀ r ∈ live,
        r.start ≠ s.headpos ∧ r.start ≠ 0 ∧
        nextStart r - szt ≠ s.headpos ∧ nextStart r - szt ≠ 0 := by
      intro r hr
      have hb := hbnd.2 r hr
      have hrl := recLen_ge r
      have hnx : nextStart r = r.start + recLen r := by
        unfold nextStart
        rw [hnwL r hr]
        simp
      unfold szt at *
      omega
    intro r hr
    rcases List.mem_append.mp hr with hr | hrnew
    · obtain ⟨k1, k2, k3, k4⟩ := hkeys r hr
      refine RecOk_of_keys _ (hrecokL r hr) rfl rfl rfl ?_ ?_ ?_
      · show Function.update (Function.update s.cells 0 s.headpos)
          s.headpos szt r.start = s.cells r.start
        rw [Function.update_noteq k1, Function.update_noteq k2]
      · show Function.update (Function.update s.cells 0 s.headpos)
          s.headpos szt (nextStart r - szt) = s.cells (nextStart r - szt)
        rw [Function.update_noteq k3, Function.update_noteq k4]
      · show Function.update s.patches (s.headpos + szt) p (r.start + szt)
          = s.patches (r.start + szt)
        have : r.start + szt ≠ s.headpos + szt := by
          intro hh
          exact k1 (by omega)
        rw [Function.update_noteq this]
    · simp only [List.mem_singleton] at hrnew
      subst hrnew
      refine ⟨hc7, hc8, hpl, hpp1, hpp2, hpp3, ?_, ?_, ?_, ?_, ?_⟩
      · intro hx
        exact hwrap
      · intro hx
        simp at hx
      · show Function.update (Function.update s.cells 0 s.headpos)
          s.headpos szt s.headpos = nextStart ⟨s.headpos, p, true⟩
        rw [Function.update_same]
        rfl
      · show Function.update (Function.update s.cells 0 s.headpos)
          s.headpos szt (nextStart (⟨s.headpos, p, true⟩ : ArenaRec) - szt)
          = s.headpos
        have hkeyb : nextStart (⟨s.headpos, p, true⟩ : ArenaRec) - szt = 0 := by
          show szt - szt = 0
          omega
        rw [hkeyb]
        have hne : (0 : Nat) ≠ s.headpos := by
          unfold szt at hhge
          omega
        rw [Function.update_noteq hne, Function.update_same]
      · show Function.update s.patches (s.headpos + szt) p
          (s.headpos + szt) = p
        rw [Function.update_same]

/-- Invariant preservation for the wrapping write phase of `push_do`
when the tail sits at the sentinel position: the sentinel record is
dropped and the tail advances through its stored self-pointer. -/
theorem inv_after_wrap_sentinel (cd : Codec) (s : SMState) (r₀ : ArenaRec)
    (rest : List ArenaRec) (e₁ : Nat) (p : Patch)
    (hc1 : 2 * s.maxcompsize + 2 * szt ≤ s.capacity)
    (hc2 : s.capacity < 2 ^ 32)
    (hc3 : 6 * szt ≤ s.maxcompsize)
    (hc4 : state_manager_raw_maxsize s.blocksize + szt * 2 = s.maxcompsize)
    (hc5 : s.thisblock.length = s.blocksize)
    (hc6 : s.nextblock.length = s.blocksize)
    (hc7 : goodStart s.headpos)
    (hc8 : s.headpos + s.maxcompsize ≤ s.capacity + szt)
    (hvalid : s.thisblock_valid = true)
    (hchainL : chainOk szt (r₀ :: rest) s.headpos)
    (hrecokL : ∀ r ∈ r₀ :: rest, RecOk cd s r)
    (hnwL : ∀ r ∈ r₀ :: rest, r.wrapped = false)
    (he : (r₀ :: rest).length + 1 ≤ e₁)
    (hpp1 : p.payload_size = p.payload.length)
    (hpp2 : p.raw_flag = true → p.payload.length = s.blocksize)
    (hpp3 : p.raw_flag = false →
      ∃ d, cd.decomp p.payload s.blocksize = some d ∧ d.length = s.blocksize)
    (hpl : patchLen p + 2 * szt ≤ s.maxcompsize)
    (hwrap : s.capacity < s.headpos + szt + patchLen p + s.maxcompsize) :
    Inv cd
      { s with
        patches := Function.update s.patches (s.headpos + szt) p
        cells := Function.update
          (Function.update s.cells 0 s.headpos) s.headpos szt
        headpos := szt
        tailpos := s.cells szt
        thisblock := s.nextblock
        nextblock := s.thisblock
        entries := e₁ + 1 }
      (rest ++ [⟨s.headpos, p, true⟩]) := by
  have hhge : szt ≤ s.headpos := by rcases hc7 with h | h <;> omega
  have hst0 : r₀.start = szt := hchainL.1
  have hnx0 : nextStart r₀ = r₀.start + recLen r₀ := by
    unfold nextStart
    rw [hnwL r₀ (by simp)]
    simp
  have hrl0 := recLen_ge r₀
  have hcell : s.cells szt = nextStart r₀ := by
    rw [← hst0]
    exact (hrecokL r₀ (by simp)).2.2.2.2.2.2.2.2.1
  rw [hcell]
  have hbnd := chain_nowrap_bounds hchainL hnwL
  refine ⟨hc1, hc2, hc3, hc4, hc6, hc5, Or.inl rfl, ?_, ?_, ?_, ?_, ?_⟩
  · show szt + s.maxcompsize ≤ s.capacity + szt
    omega
  · right
    show 5 * szt ≤ nextStart r₀
    omega
  · show (rest ++ [(⟨s.headpos, p, true⟩ : ArenaRec)]).length
      + (if s.thisblock_valid = true then 1 else 0) ≤ e₁ + 1
    rw [hvalid, if_pos rfl, List.length_append]
    simp at he ⊢
    omega
  · constructor
    · exact @chain_snoc (nextStart r₀) s.headpos rest ⟨s.headpos, p, true⟩
        hchainL.2 rfl
    · right
      refine ⟨rest, ⟨s.headpos, p, true⟩, [], by simp, rfl,
        fun r hr => hnwL r (List.mem_cons_of_mem r₀ hr), by simp, ?_⟩
      show szt + szt < nextStart r₀
      unfold szt at *
      omega
  · have hkeys : ∀ r ∈ rest,
        r.start ≠ s.headpos ∧ r.start ≠ 0 ∧
        nextStart r - szt ≠ s.headpos ∧ nextStart r - szt ≠ 0 := by
      intro r hr
      have hb := hbnd.2 r (List.mem_cons_of_mem r₀ hr)
      have hrl := recLen_ge r
      have hnx : nextStart r = r.start + recLen r := by
        unfold nextStart
        rw [hnwL r (List.mem_cons_of_mem r₀ hr)]
        simp
      unfold szt at *
      omega
    intro r hr
    rcases List.mem_append.mp hr with hr | hrnew
    · obtain ⟨k1, k2, k3, k4⟩ := hkeys r hr
      refine RecOk_of_keys _ (hrecokL r (List.mem_cons_of_mem r₀ hr))
        rfl rfl rfl ?_ ?_ ?_
      · show Function.update (Function.update s.cells 0 s.headpos)
          s.headpos szt r.start = s.cells r.start
        rw [Function.update_noteq k1, Function.update_noteq k2]
      · show Function.update (Function.update s.cells 0 s.headpos)
          s.headpos szt (nextStart r - szt) = s.cells (nextStart r - szt)
        rw [Function.update_noteq k3, Function.update_noteq k4]
      · show Function.update s.patches (s.headpos + szt) p (r.start + szt)
          = s.patches (r.start + szt)
        have : r.start + szt ≠ s.headpos + szt := by
          intro hh
          exact k1 (by omega)
        rw [Function.update_noteq this]
    · simp only [List.mem_singleton] at hrnew
      subst hrnew
      refine ⟨hc7, hc8, hpl, hpp1, hpp2, hpp3, ?_, ?_, ?_, ?_, ?_⟩
      · intro hx
        exact hwrap
      · intro hx
        simp at hx
      · show Function.update (Function.update s.cells 0 s.headpos)
          s.headpos szt s.headpos = nextStart ⟨s.headpos, p, true⟩
        rw [Function.update_same]
        rfl
      · show Function.update (Function.update s.cells 0 s.headpos)
          s.headpos szt (nextStart (⟨s.headpos, p, true⟩ : ArenaRec) - szt)
          = s.headpos
        have hkeyb : nextStart (⟨s.headpos, p, true⟩ : ArenaRec) - szt = 0 := by
          show szt - szt = 0
          omega
        rw [hkeyb]
        have hne : (0 : Nat) ≠ s.headpos := by
          unfold szt at hhge
          omega
        rw [Function.update_noteq hne, Function.update_same]
      · show Function.update s.patches (s.headpos + szt) p
          (s.headpos + szt) = p
        rw [Function.update_same]

/-- Dropping an eviction prefix preserves the layout shape; the
separation transfers from the old tail to the surviving chain's tail. -/
theorem shape_drop {cd : Codec} {s : SMState} {recs : List ArenaRec} (j : Nat)
    (hchain : chainOk s.tailpos recs s.headpos)
    (hrecok : ∀ r ∈ recs, RecOk cd s r)
    (hshape : (∀ r ∈ recs, r.wrapped = false) ∨
      (∃ A w B, recs = A ++ w :: B ∧ w.wrapped = true ∧
        (∀ r ∈ A, r.wrapped = false) ∧ (∀ r ∈ B, r.wrapped = false) ∧
        s.headpos + szt < s.tailpos)) :
    (∀ r ∈ recs.drop j, r.wrapped = false) ∨
    (∃ A w B, recs.drop j = A ++ w :: B ∧ w.wrapped = true ∧
      (∀ r ∈ A, r.wrapped = false) ∧ (∀ r ∈ B, r.wrapped = false) ∧
      s.headpos + szt < chainTail (recs.drop j) s.headpos) := by
  rcases hshape with hnw | ⟨A, w, B, heq, hw, hA, hB, hsep⟩
  · left
    intro r hr
    exact hnw r (List.mem_of_mem_drop hr)
  · subst heq
    by_cases hj : j ≤ A.length
    · right
      have hdrop : (A ++ w :: B).drop j = A.drop j ++ w :: B :=
        List.drop_append_of_le_length hj
      refine ⟨A.drop j, w, B, hdrop, hw,
        fun r hr => hA r (List.mem_of_mem_drop hr), hB, ?_⟩
      have hsplit := chain_append_split hchain
      have hbA := chain_nowrap_bounds hsplit.1 hA
      rw [hdrop]
      rcases hAd : A.drop j with _ | ⟨a, as⟩
      · show s.headpos + szt < w.start
        have h1 : s.tailpos ≤ chainTail (w :: B) s.headpos := hbA.1
        have h2 : chainTail (w :: B) s.headpos = w.start := rfl
        omega
      · show s.headpos + szt < a.start
        have ha : a ∈ A := @List.mem_of_mem_drop _ _ j A (by rw [hAd]; simp)
        have h1 := (hbA.2 a ha).1
        omega
    · left
      push_neg at hj
      obtain ⟨k, hk⟩ : ∃ k, j - A.length = k + 1 :=
        ⟨j - A.length - 1, by omega⟩
      have hdrop : (A ++ w :: B).drop j = B.drop k := by
        rw [List.drop_append_eq_append_drop, hk,
          List.drop_eq_nil_of_le (by omega), List.drop_succ_cons,
          List.nil_append]
      rw [hdrop]
      intro r hr
      exact hB r (List.mem_of_mem_drop hr)

/-- The behaviour claimed for `state_manager_push_do` with a valid
baseline: outright rejection of undersized arenas; eviction of the oldest
records (tail advanced through the stored self-pointers, `entries`
decremented) while `remaining ≤ maxcompsize`; wrap of the write position
to the arena start exactly when less than `maxcompsize` would remain
before the arena end; no patch record spanning the arena end; and
conservation of the stored record footprint. -/
def PushDoSpec (cd : Codec) (s : SMState) (recs : List ArenaRec) : Prop :=
  (s.capacity < szt + s.maxcompsize → state_manager_push_do cd s = s) ∧
  (szt + s.maxcompsize ≤ s.capacity →
    ∃ j, j ≤ recs.length ∧
    ∃ recs' : List ArenaRec,
      (∀ i < j,
        remainingOf { s with tailpos := chainTail (recs.drop i) s.headpos }
          ≤ s.maxcompsize) ∧
      (evictLoop (s.entries + 1) s).tailpos
        = chainTail (recs.drop j) s.headpos ∧
      (evictLoop (s.entries + 1) s).entries = s.entries - j ∧
      s.maxcompsize <
        remainingOf { s with tailpos := chainTail (recs.drop j) s.headpos } ∧
      (recs' = recs.drop j ++
          [⟨s.headpos, state_manager_raw_compress cd s.thisblock s.nextblock
              s.blocksize, false⟩] ∨
       recs' = recs.drop j ++
          [⟨s.headpos, state_manager_raw_compress cd s.thisblock s.nextblock
              s.blocksize, true⟩] ∨
       recs' = recs.drop (j + 1) ++
          [⟨s.headpos, state_manager_raw_compress cd s.thisblock s.nextblock
              s.blocksize, true⟩]) ∧
      ((state_manager_push_do cd s).headpos = szt ↔
        s.capacity < s.headpos + szt +
          patchLen (state_manager_raw_compress cd s.thisblock s.nextblock
            s.blocksize) + s.maxcompsize) ∧
      (state_manager_push_do cd s).entries = s.entries - j + 1 ∧
      Inv cd (state_manager_push_do cd s) recs' ∧
      (∀ r ∈ recs', r.start + szt + patchLen r.patch ≤ s.capacity) ∧
      (recs'.map recLen).sum ≤ s.capacity)

/-- C6: rewind arena behaviour of `state_manager_push_do` with a valid
baseline: an arena with `capacity < sizeof(size_t) + max_comp_size` is
rejected outright — the state is returned unchanged, with no hypothesis
beyond the valid baseline — and under the ring invariant the push evicts
oldest records while `remaining ≤ max_comp_size` (advancing `tail`
through the stored size and decrementing `entries`), wraps the write
cursor to the arena start exactly when the written record would leave
less than `max_comp_size` before the arena end (so no record spans the
boundary), and keeps the sum of stored record lengths within capacity. -/
theorem state_manager_push_do_spec (cd : Codec) (s : SMState)
    (recs : List ArenaRec) (hvalid : s.thisblock_valid = true) :
    (s.capacity < szt + s.maxcompsize → state_manager_push_do cd s = s) ∧
    (Inv cd s recs → PushDoSpec cd s recs) := by
  constructor
  · intro hlt
    simp [state_manager_push_do, hvalid, hlt]
  · intro hInv
    have hInv' := hInv
    obtain ⟨hc1, hc2, hc3, hc4, hc5, hc6, hc7, hc8, hc9, hc10,
      ⟨hchain, hshape⟩, hrecok⟩ := hInv'
    constructor
    · intro hlt
      simp [state_manager_push_do, hvalid, hlt]
    intro hcap
    have hszm : szt + s.maxcompsize < s.capacity := by
      unfold szt at *
      omega
    have hpos : s.headpos ≤ s.capacity := by
      unfold szt at *
      omega
    have hstarts : ∀ r ∈ recs, r.start ≤ s.capacity ∧
        nextStart r ≤ s.capacity := by
      intro r hr
      obtain ⟨-, hsb, hplen, -, -, -, -, hnwc, -⟩ := hrecok r hr
      cases hw : r.wrapped with
      | true =>
        have hns : nextStart r = szt := by
          unfold nextStart
          rw [hw]
          simp
        rw [hns]
        unfold szt at *
        omega
      | false =>
        have := hnwc hw
        have hns : nextStart r = r.start + recLen r := by
          unfold nextStart
          rw [hw]
          simp
        rw [hns]
        unfold recLen szt at *
        omega
    have hc64 : 2 * s.capacity < 2 ^ 64 := by
      have hh : (2 : Nat) * 2 ^ 32 ≤ 2 ^ 64 := by norm_num
      omega
    have hfuel : recs.length < s.entries + 1 := by
      rw [hvalid, if_pos rfl] at hc10
      omega
    obtain ⟨j, hj, heqLoop, hconds, hexit⟩ :=
      evictLoop_spec s recs (s.entries + 1) hchain
        (fun r hr => (hrecok r hr).2.2.2.2.2.2.2.2.1) hszm hpos hstarts
        hc64 hfuel
    have hchainL := chain_drop_i hchain j
    have hrecokL : ∀ r ∈ recs.drop j, RecOk cd s r :=
      fun r hr => hrecok r (List.mem_of_mem_drop hr)
    have hshapeL := shape_drop j hchain hrecok hshape
    obtain ⟨hpp1, hpp2, hpp3, hpmax⟩ :=
      raw_compress_props cd s.thisblock s.nextblock s.blocksize hc5 hc6
    have hpl : patchLen (state_manager_raw_compress cd s.thisblock s.nextblock
        s.blocksize) + 2 * szt ≤ s.maxcompsize := by
      omega
    have hlivelen : (recs.drop j).length = recs.length - j :=
      List.length_drop j recs
    have he : (recs.drop j).length + 1 ≤ s.entries - j := by
      rw [hvalid, if_pos rfl] at hc10
      omega
    have hgt : goodStart (chainTail (recs.drop j) s.headpos) := by
      rcases hlv : recs.drop j with _ | ⟨r₀, rest⟩
      · exact hc7
      · have : r₀ ∈ recs.drop j := by rw [hlv]; simp
        exact (hrecokL r₀ this).1
    by_cases hwrapc : s.capacity < s.headpos + szt +
        patchLen (state_manager_raw_compress cd s.thisblock s.nextblock
          s.blocksize) + s.maxcompsize
    · -- the write wraps to the arena origin
      have hnwL := no_wrapped_survives_wrap cd s (recs.drop j)
        (chainTail (recs.drop j) s.headpos)
        (state_manager_raw_compress cd s.thisblock s.nextblock s.blocksize)
        hc2 hchainL hrecokL hshapeL hexit hpl hwrapc
      by_cases hsent : chainTail (recs.drop j) s.headpos = szt
      · rcases hlv : recs.drop j with _ | ⟨r₀, rest⟩
        · exfalso
          rw [hlv] at hsent
          have hth : s.headpos = szt := hsent
          unfold szt at *
          omega
        · rw [hsent] at heqLoop hchainL
          have hpush := push_do_eval_wrap_sentinel cd s (s.entries - j)
            hvalid (by omega) heqLoop hwrapc
          rw [hlv] at hchainL hrecokL hnwL he
          have hInvF := inv_after_wrap_sentinel cd s r₀ rest (s.entries - j)
            (state_manager_raw_compress cd s.thisblock s.nextblock s.blocksize)
            hc1 hc2 hc3 hc4 hc5 hc6 hc7 hc8 hvalid hchainL hrecokL hnwL he
            hpp1 hpp2 hpp3 hpl hwrapc
          have hdrop1 : recs.drop (j + 1) = rest := by
            have h1 : (recs.drop j).drop 1 = recs.drop (j + 1) :=
              List.drop_drop 1 j recs
            rw [hlv] at h1
            simpa using h1.symm
          refine ⟨j, hj, rest ++ [⟨s.headpos,
            state_manager_raw_compress cd s.thisblock s.nextblock s.blocksize,
            true⟩], hconds, ?_, ?_, hexit, Or.inr (Or.inr (by rw [hdrop1])),
            ?_, ?_, ?_, ?_, ?_⟩
          · rw [heqLoop, hsent]
          · rw [heqLoop]
          · rw [hpush]
            exact ⟨fun _ => hwrapc, fun _ => rfl⟩
          · rw [hpush]
          · rw [hpush]
            exact hInvF
          · have h1 := no_span_of_inv hInvF
            exact h1
          · have h2 := sum_bound_of_inv hInvF
            exact h2
      · have hpush := push_do_eval_wrap cd s
          (chainTail (recs.drop j) s.headpos) (s.entries - j)
          hvalid (by omega) heqLoop hwrapc hsent
        have hInvF := inv_after_wrap cd s (recs.drop j)
          (chainTail (recs.drop j) s.headpos) (s.entries - j)
          (state_manager_raw_compress cd s.thisblock s.nextblock s.blocksize)
          hc1 hc2 hc3 hc4 hc5 hc6 hc7 hc8 hgt hvalid hchainL hrecokL hnwL he
          hpp1 hpp2 hpp3 hpl hwrapc hsent
        refine ⟨j, hj, recs.drop j ++ [⟨s.headpos,
          state_manager_raw_compress cd s.thisblock s.nextblock s.blocksize,
          true⟩], hconds, ?_, ?_, hexit, Or.inr (Or.inl rfl),
          ?_, ?_, ?_, ?_, ?_⟩
        · rw [heqLoop]
        · rw [heqLoop]
        · rw [hpush]
          exact ⟨fun _ => hwrapc, fun _ => rfl⟩
        · rw [hpush]
        · rw [hpush]
          exact hInvF
        · have h1 := no_span_of_inv hInvF
          exact h1
        · have h2 := sum_bound_of_inv hInvF
          exact h2
    · -- the record fits without wrapping
      have hpush := push_do_eval_nowrap cd s
        (chainTail (recs.drop j) s.headpos) (s.entries - j)
        hvalid (by omega) heqLoop hwrapc
      have hInvF := inv_after_nowrap cd s (recs.drop j)
        (chainTail (recs.drop j) s.headpos) (s.entries - j)
        (state_manager_raw_compress cd s.thisblock s.nextblock s.blocksize)
        hc1 hc2 hc3 hc4 hc5 hc6 hc7 hc8 hgt hvalid hchainL hrecokL hshapeL
        hexit he hpp1 hpp2 hpp3 hpl hwrapc
      have hh8 : szt ≤ s.headpos := by rcases hc7 with h | h <;> omega
      refine ⟨j, hj, recs.drop j ++ [⟨s.headpos,
        state_manager_raw_compress cd s.thisblock s.nextblock s.blocksize,
        false⟩], hconds, ?_, ?_, hexit, Or.inl rfl, ?_, ?_, ?_, ?_, ?_⟩
      · rw [heqLoop]
      · rw [heqLoop]
      · rw [hpush]
        constructor
        · intro hx
          exfalso
          have hx2 : s.headpos + szt + patchLen (state_manager_raw_compress cd
              s.thisblock s.nextblock s.blocksize) + szt = szt := hx
          have hplo : 2 * szt ≤ patchLen (state_manager_raw_compress cd
              s.thisblock s.nextblock s.blocksize) := by
            unfold patchLen STATE_DELTA_HEADER_SIZE
            omega
          unfold szt at *
          omega
        · intro hx
          exact absurd hx hwrapc
      · rw [hpush]
      · rw [hpush]
        exact hInvF
      · have h1 := no_span_of_inv hInvF
        exact h1
      · have h2 := sum_bound_of_inv hInvF
        exact h2

/-- Witness for C6: an undersized 20-byte arena with a valid baseline is
rejected unchanged, and the initialized example manager accepts a push
and keeps the invariant. -/
theorem state_manager_push_do_spec_witness :
    state_manager_push_do failCodec
        { state_manager_new 4 20 with thisblock_valid := true } =
      { state_manager_new 4 20 with thisblock_valid := true } ∧
    PushDoSpec failCodec
      (state_manager_push_do failCodec (state_manager_new 4 1000)) [] := by
  constructor
  · exact (state_manager_push_do_spec failCodec
      { state_manager_new 4 20 with thisblock_valid := true } [] rfl).1
      (by decide)
  · exact (state_manager_push_do_spec failCodec
      (state_manager_push_do failCodec (state_manager_new 4 1000)) [] rfl).2
      inv_example

end StateManager

/-!
## GGPO `Sync` (src/deps/ggpo/src/lib/ggpo/sync.cpp, sync.h)

Shallow embedding of the rollback engine: the saved-frame ring with its
four slot encodings (raw, LZ4, delta, delta+LZ4), the save / load /
reconstruct paths, the synchronous and asynchronous LZ4 compression, the
prediction barrier and `AdjustSimulation`.  Machine `int`s that can go
negative (`frame`, `head`, `_framecount`) are `Int`; byte counts are
`Nat` (the code never lets them go negative on the modelled paths, and
`LZ4_compress_fast` reports failure as `0`).  Heap buffers are `Buf`
values: `id` plays the role of the C pointer value and the pointer
comparison `state->buf != result.input` is modelled as inequality of
`Buf` values (live allocations never share an `id`).  The LZ4 facade is
the same abstract `Codec` used for `state_manager.c`.
-/

namespace GGPOSync

open StateManager

/-- `ARRAY_SIZE(_savedstate.frames) = MAX_PREDICTION_FRAMES + 2 = 10`
(sync.h lines 24, 96). -/
def ARRAY_SIZE : Nat := 10

/-- `MAX_PREDICTION_FRAMES` (sync.h line 24). -/
def MAX_PREDICTION_FRAMES : Int := 8

/-- `GGPO_STATE_KEYFRAME_INTERVAL` (sync.h line 25). -/
def GGPO_STATE_KEYFRAME_INTERVAL : Int := 4

/-- A heap allocation holding bytes.  `id` stands for the C pointer value:
live allocations never share an `id`, so pointer equality is equality of
`Buf` values. -/
structure Buf where
  id : Nat
  data : List Nat
deriving DecidableEq, Repr

/-- `Sync::SavedFrame` (sync.h lines 76-88): one slot of the ring. -/
structure SavedFrame where
  buf : Option Buf
  cbuf : Nat
  uncompressed_size : Nat
  buf_capacity : Nat
  frame : Int
  checksum : Nat
  compressed : Bool
  delta : Bool
  compress_pending : Bool
deriving DecidableEq, Repr

/-- The all-zero slot produced by `memset(&_savedstate, 0, ...)` in the
`Sync` constructor (sync.cpp line 283): note `frame = 0`, not `-1`. -/
def SavedFrame.zero : SavedFrame :=
  { buf := none
    cbuf := 0
    uncompressed_size := 0
    buf_capacity := 0
    frame := 0
    checksum := 0
    compressed := false
    delta := false
    compress_pending := false }

/-- `GameInput`: frame number plus abstract input payload. -/
structure GameInput where
  frame : Int
  bits : List Nat
deriving DecidableEq, Repr

/-- Modelled from the spec: `InputQueue` (input_queue.cpp is not among the
sources).  Only what the sync layer observes is kept: the enqueued
inputs and `first_incorrect_frame` (`NULL_FRAME = -1`). -/
structure InputQueue where
  inputs : List GameInput
  first_incorrect_frame : Int
deriving DecidableEq, Repr

/-- Modelled from the spec: `InputQueue::AddInput` enqueues the input (spec
"Stamp inp.frame := current_frame; enqueue"); the queue-internal frame
delay and gap filling are not observable by the sync-layer claims. -/
def InputQueue.AddInput (q : InputQueue) (inp : GameInput) : InputQueue :=
  { q with inputs := q.inputs ++ [inp] }

/-- Modelled from the spec: `InputQueue::ResetPrediction(F)` — "clear
prediction state from F onward; if first_incorrect_frame ≥ F, reset it
to NULL_FRAME". -/
def InputQueue.ResetPrediction (q : InputQueue) (frameNumber : Int) : InputQueue :=
  if frameNumber ≤ q.first_incorrect_frame then { q with first_incorrect_frame := -1 }
  else q

/-- The portion of `Sync` the claims touch.  `pool` is
`_state_buffer_pool`, `size_hint` is `_state_buffer_size_hint`,
`next_buf_id` is a ghost allocation counter handing out fresh `Buf`
identities, and `raws` is a ghost map recording, per frame number, the
snapshot bytes the save callback most recently produced for that frame;
no operation reads `next_buf_id` or `raws` other than to thread them. -/
structure SyncState where
  frames : List SavedFrame
  head : Int
  framecount : Int
  last_confirmed_frame : Int
  max_prediction_frames : Int
  rollingback : Bool
  last_state : List Nat
  last_state_size : Nat
  last_state_frame : Int
  last_state_valid : Bool
  pool : List (Buf × Nat)
  size_hint : Nat
  next_buf_id : Nat
  input_queues : List InputQueue
  raws : Int → List Nat

/-- `_savedstate.frames[i]` for an `int` index (a negative index is never
dereferenced on the modelled paths). -/
def slotAt (s : SyncState) (i : Int) : SavedFrame :=
  s.frames.getD i.toNat SavedFrame.zero

/-- `Sync::FindSavedFrameIndex` (sync.cpp 1245-1259): index of the first
ring slot whose `frame` field matches, `-1` when there is none. -/
def FindSavedFrameIndex (s : SyncState) (frame : Int) : Int :=
  match s.frames.findIdx? (fun st => st.frame == frame) with
  | some i => (i : Int)
  | none => -1

/-- `XorBuffers(dst, lhs, rhs, len)` (sync.cpp 47-52): `dst[i] = lhs[i] ^
rhs[i]` for `i < len`. -/
def XorBuffers (lhs rhs : List Nat) (len : Nat) : List Nat :=
  List.zipWith Nat.xor (lhs.take len) (rhs.take len)

/-- `XorBufferInPlace(dst, src, len)` (sync.cpp 40-45): the first `len`
bytes of `dst` are xored with `src`, the rest keep their value. -/
def XorBufferInPlace (dst src : List Nat) (len : Nat) : List Nat :=
  List.zipWith Nat.xor (dst.take len) (src.take len) ++ dst.drop len

/-- `Sync::DecodeSavedFrameRaw` (sync.cpp 720-737): decode one slot into a
caller buffer of `buffer_size` bytes; `none` models a `false` return.
For a compressed slot `LZ4_decompress_safe(state->buf, buffer,
state->cbuf, state->uncompressed_size)` must decode exactly
`uncompressed_size` bytes. -/
def DecodeSavedFrameRaw (cd : Codec) (st : SavedFrame) (buffer_size : Nat) :
    Option (List Nat) :=
  match st.buf with
  | none => none
  | some b =>
    if st.uncompressed_size = 0 ∨ buffer_size < st.uncompressed_size then none
    else if st.compressed then
      match cd.decomp (b.data.take st.cbuf) st.uncompressed_size with
      | some d => if d.length = st.uncompressed_size then some d else none
      | none => none
    else some (b.data.take st.uncompressed_size)

/-- `Sync::DecodeSavedFrameInternal` (sync.cpp 739-747): decode into a
scratch buffer grown to exactly `uncompressed_size` bytes. -/
def DecodeSavedFrameInternal (cd : Codec) (st : SavedFrame) : Option (List Nat) :=
  if st.buf.isNone ∨ st.uncompressed_size = 0 then none
  else DecodeSavedFrameRaw cd st st.uncompressed_size

/-- The backward scan of `Sync::ReconstructFrameInternal` (sync.cpp
767-784): walk `bf` downward until a ring slot stored non-delta is
found; `none` when a slot is missing or the scan walks below frame 0.
`fuel` bounds the walk and `bf.toNat + 1` steps always suffice. -/
def findBaseAux (s : SyncState) : Nat → Int → Option Int
  | 0, _ => none
  | fuel + 1, bf =>
    if bf < 0 then none
    else if FindSavedFrameIndex s bf < 0 then none
    else if (slotAt s (FindSavedFrameIndex s bf)).delta then findBaseAux s fuel (bf - 1)
    else some bf

/-- The base frame `Sync::ReconstructFrameInternal` rolls forward from. -/
def findBase (s : SyncState) (frame : Int) : Option Int :=
  findBaseAux s (frame.toNat + 1) frame

/-- The forward loop of `Sync::ReconstructFrameInternal` (sync.cpp
790-817): `n` frames remain, the next one is `f`, `buffer` holds the
scratch contents.  A non-delta slot is decoded over the buffer; a delta
slot is decoded into the delta scratch and xored in place. -/
def applyDeltasAux (cd : Codec) (s : SyncState) :
    Nat → Int → List Nat → Option (List Nat)
  | 0, _, buffer => some buffer
  | n + 1, f, buffer =>
    if FindSavedFrameIndex s f < 0 then none
    else
      let st := slotAt s (FindSavedFrameIndex s f)
      if st.delta then
        match DecodeSavedFrameInternal cd st with
        | none => none
        | some d =>
          if buffer.length < st.uncompressed_size then none
          else applyDeltasAux cd s n (f + 1) (XorBufferInPlace buffer d st.uncompressed_size)
      else
        match DecodeSavedFrameInternal cd st with
        | none => none
        | some b => applyDeltasAux cd s n (f + 1) b

/-- `Sync::ReconstructFrameInternal` (sync.cpp 749-820), returning the
bytes left in the scratch buffer on success. -/
def ReconstructFrameInternal (cd : Codec) (s : SyncState) (frame : Int) :
    Option (List Nat) :=
  if FindSavedFrameIndex s frame < 0 then none
  else if (slotAt s (FindSavedFrameIndex s frame)).delta then
    match findBase s frame with
    | none => none
    | some base =>
      match DecodeSavedFrameInternal cd (slotAt s (FindSavedFrameIndex s base)) with
      | none => none
      | some buffer => applyDeltasAux cd s (frame - base).toNat (base + 1) buffer
  else
    DecodeSavedFrameInternal cd (slotAt s (FindSavedFrameIndex s frame))

/-- The best-fit scan of `Sync::AcquireStateBuffer` (sync.cpp 620-630):
fold step keeping the index and capacity of the smallest pool entry
whose capacity reaches the hint, earliest among ties. -/
def bestFitStep (hint : Nat) (acc : Option (Nat × Nat)) (e : Nat × (Buf × Nat)) :
    Option (Nat × Nat) :=
  if hint ≤ e.2.2 then
    match acc with
    | none => some (e.1, e.2.2)
    | some bc => if e.2.2 < bc.2 then some (e.1, e.2.2) else some bc
  else acc

/-- `Sync::AcquireStateBuffer` (sync.cpp 610-642): remove and return the
best-fit pool entry, or `none` when the hint is zero or nothing fits. -/
def AcquireStateBuffer (s : SyncState) : SyncState × Option (Buf × Nat) :=
  if s.size_hint = 0 ∨ s.pool.isEmpty then (s, none)
  else
    match s.pool.enum.foldl (bestFitStep s.size_hint) none with
    | none => (s, none)
    | some bc =>
      ({ s with pool := s.pool.eraseIdx bc.1 },
       some (s.pool.getD bc.1 (Buf.mk 0 [], 0)))

/-- `Sync::RecycleStateBuffer` (sync.cpp 644-668); the `free_buffer`
callback is configured, so a zero capacity or a full pool frees the
allocation instead of pooling it. -/
def RecycleStateBuffer (s : SyncState) (buffer : Option Buf) (capacity : Nat) :
    SyncState :=
  match buffer with
  | none => s
  | some b =>
    if capacity = 0 then s
    else if ARRAY_SIZE ≤ s.pool.length then s
    else { s with pool := s.pool ++ [(b, capacity)] }

/-- `Sync::FreeSavedFrameBuffer` (sync.cpp 1221-1242) on ring slot `i`.
`WaitForCompression` settles the `compress_pending` flag; any matching
result is applied by an earlier interleaved compression step of the
reachability relation, so here the flag is simply cleared. -/
def FreeSavedFrameBuffer (s : SyncState) (i : Nat) : SyncState :=
  let st := s.frames.getD i SavedFrame.zero
  match st.buf with
  | none => s
  | some b =>
    let s₁ := if st.compressed ∨ st.delta then s
              else RecycleStateBuffer s (some b) st.buf_capacity
    let blank := { st with
      buf := none
      cbuf := 0
      uncompressed_size := 0
      buf_capacity := 0
      compressed := false
      delta := false
      compress_pending := false }
    { s₁ with frames := s₁.frames.set i blank }

/-- `Sync::UpdateLastState` (sync.cpp 954-970). -/
def UpdateLastState (s : SyncState) (bytes : List Nat) (size : Nat) (frame : Int) :
    SyncState :=
  if size = 0 then
    { s with
      last_state_valid := false
      last_state_size := 0
      last_state_frame := -1
      last_state := [] }
  else
    { s with
      last_state := bytes.take size
      last_state_size := size
      last_state_frame := frame
      last_state_valid := true }

/-- `Sync::CompressSync` (sync.cpp 580-608) on slot value `st` with the
compression input `input[0..input_size)`.  `cd.comp = none` covers both
a failed `malloc` and a non-positive `LZ4_compress_fast` return; the
compressed form is installed only when `0 < compressed_size <
input_size`. -/
def CompressSync (cd : Codec) (s : SyncState) (st : SavedFrame)
    (input : List Nat) (input_size : Nat) : SavedFrame × SyncState :=
  match cd.comp (input.take input_size) with
  | none => (st, s)
  | some c =>
    if 0 < c.length ∧ c.length < input_size then
      let fresh := Buf.mk s.next_buf_id c
      let s₁ := { s with next_buf_id := s.next_buf_id + 1 }
      let s₂ := if st.compressed ∨ st.delta then s₁
                else RecycleStateBuffer s₁ st.buf st.buf_capacity
      let st₂ := { st with
        buf := some fresh
        cbuf := c.length
        buf_capacity := c.length
        compressed := true }
      (st₂, s₂)
    else (st, s)

/-- `Sync::CompressResult` (sync.h): `state` is the target slot (a pointer
in C, a ring index here, `none` = NULL), `input` the input-buffer
pointer recorded when the job was queued, `compressed_size = 0` a
failed compression. -/
structure CompressResult where
  state : Option Nat
  input : Option Buf
  input_size : Nat
  frame : Int
  compressed_buf : Option Buf
  compressed_size : Nat
deriving DecidableEq, Repr

/-- `Sync::ApplyCompressionResult` (sync.cpp 513-555): clear the slot's
`compress_pending` first, then install the compressed buffer only when
it exists, is non-empty, matches the slot's current frame and input
buffer, the slot is still uncompressed, and the compression won. -/
def ApplyCompressionResult (s : SyncState) (result : CompressResult) : SyncState :=
  match result.state with
  | none => s
  | some i =>
    let st := s.frames.getD i SavedFrame.zero
    let st₁ := { st with compress_pending := false }
    let s₁ := { s with frames := s.frames.set i st₁ }
    match result.compressed_buf with
    | none => s₁
    | some cb =>
      if result.compressed_size = 0 then s₁
      else if st₁.frame ≠ result.frame ∨ st₁.buf ≠ result.input ∨ st₁.compressed then s₁
      else if st₁.uncompressed_size ≤ result.compressed_size then s₁
      else
        let s₂ := if st₁.compressed ∨ st₁.delta then s₁
                  else RecycleStateBuffer s₁ st₁.buf st₁.buf_capacity
        let stc := { st₁ with
          buf := some cb
          cbuf := result.compressed_size
          buf_capacity := result.compressed_size
          compressed := true }
        { s₂ with frames := s₂.frames.set i stc }

/-- `Sync::ProcessCompressionResults` (sync.cpp 492-511): drain the result
queue in order, applying each result. -/
def ProcessCompressionResults (s : SyncState) (results : List CompressResult) :
    SyncState :=
  results.foldl ApplyCompressionResult s


/-- Outcome of one `save_game_state` callback: the snapshot bytes it
wrote, the checksum it reported, and whether it filled the buffer the
engine offered (when it did not, it returned an allocation of its own). -/
structure SaveResult where
  reused : Bool
  data : List Nat
  checksum : Nat
deriving DecidableEq, Repr

/-- The delta election of `Sync::SaveCurrentFrame` (sync.cpp 1157-1161):
`use_delta = can_delta && !keyframe`, for a snapshot of `n` bytes taken
at the current frame. -/
abbrev useDelta (s : SyncState) (n : Nat) : Prop :=
  (s.last_state_valid = true ∧ s.last_state_size = n ∧
   s.last_state_frame = s.framecount - 1) ∧
  ¬s.framecount % GGPO_STATE_KEYFRAME_INTERVAL = 0

/-- `Sync::SaveCurrentFrame` from line 1149 on (sync.cpp 1149-1208), after
the save callback has produced the slot buffer `bufNew` (holding the raw
snapshot bytes) with capacity `capNew`: delta election, the delta xor,
`UpdateLastState`, then compression — `async = true` models
`QueueCompression` accepting the slot (its result arriving through a
later `ApplyCompressionResult`), `async = false` the inline
`CompressSync`.  `i` is the ring index being written and `headPrev` the
head pointer to advance.  The ghost `raws` records the raw bytes. -/
def SaveCurrentFrameCore (cd : Codec) (s : SyncState) (async : Bool)
    (i : Nat) (headPrev : Int) (bufNew : Buf) (capNew : Nat) (checksum : Nat) :
    SyncState :=
  let frame := s.framecount
  let data := bufNew.data
  let st₀ : SavedFrame := { buf := some bufNew
                            cbuf := data.length
                            uncompressed_size := data.length
                            buf_capacity := capNew
                            frame := frame
                            checksum := checksum
                            compressed := false
                            delta := false
                            compress_pending := false }
  let s₅ := { s with size_hint := max s.size_hint st₀.uncompressed_size }
  let s₆ := if useDelta s data.length then { s₅ with next_buf_id := s₅.next_buf_id + 1 } else s₅
  let deltaBuf := Buf.mk s₅.next_buf_id (XorBuffers data s.last_state st₀.uncompressed_size)
  let s₇ := UpdateLastState s₆ data st₀.uncompressed_size frame
  let st₁ := if useDelta s data.length then { st₀ with
      delta := true
      buf := some deltaBuf
      cbuf := st₀.uncompressed_size
      buf_capacity := st₀.uncompressed_size
      compressed := false } else st₀
  let s₈ := if useDelta s data.length then RecycleStateBuffer s₇ (some bufNew) st₀.buf_capacity else s₇
  let queued : Prop := async = true ∧ 0 < st₁.uncompressed_size
  let cs := CompressSync cd s₈ st₁ (st₁.buf.elim [] Buf.data) st₁.uncompressed_size
  let st₂ := if queued then { st₁ with compress_pending := true } else cs.1
  let s₉ := if queued then s₈ else cs.2
  let s₁₀ := { s₉ with raws := Function.update s₉.raws frame data }
  { s₁₀ with
    frames := s₁₀.frames.set i st₂
    head := (headPrev + 1) % (ARRAY_SIZE : Int) }

/-- `Sync::SaveCurrentFrame` (sync.cpp 1118-1209), lines 1127-1148: free
the old slot buffer, offer a pooled buffer to the `save_game_state`
callback, recycle the offered buffer if the callback returned its own
allocation, fix the slot capacity; then hand over to
`SaveCurrentFrameCore`.  `sv` is the callback outcome; the
`ProcessCompressionResults` at entry is modelled as separate interleaved
`Reach` steps. -/
def SaveCurrentFrame (cd : Codec) (s : SyncState) (sv : SaveResult)
    (async : Bool) : SyncState :=
  let i : Nat := s.head.toNat
  let s₁ := FreeSavedFrameBuffer s i
  let acq := AcquireStateBuffer s₁
  let s₂ := acq.1
  match acq.2 with
  | none =>
    let bufNew := Buf.mk s₂.next_buf_id sv.data
    let s₃ := { s₂ with next_buf_id := s₂.next_buf_id + 1 }
    SaveCurrentFrameCore cd s₃ async i s.head bufNew sv.data.length sv.checksum
  | some bc =>
    if sv.reused = true then
      SaveCurrentFrameCore cd s₂ async i s.head (Buf.mk bc.1.id sv.data) bc.2 sv.checksum
    else
      let bufNew := Buf.mk s₂.next_buf_id sv.data
      let s₃ := { s₂ with next_buf_id := s₂.next_buf_id + 1 }
      let s₄ := RecycleStateBuffer s₃ (some bc.1) bc.2
      SaveCurrentFrameCore cd s₄ async i s.head bufNew sv.data.length sv.checksum

/-- `Sync::IncrementFrame` (sync.cpp 912-917): `_framecount++` then
`SaveCurrentFrame()`. -/
def IncrementFrame (cd : Codec) (s : SyncState) (sv : SaveResult) (async : Bool) :
    SyncState :=
  SaveCurrentFrame cd { s with framecount := s.framecount + 1 } sv async

/-- `Sync::ResetPrediction` (sync.cpp 1302-1308): reset every input queue
from `frameNumber` on. -/
def ResetPrediction (s : SyncState) (frameNumber : Int) : SyncState :=
  { s with input_queues := s.input_queues.map (fun q => q.ResetPrediction frameNumber) }

/-- `Sync::LoadFrame` (sync.cpp 1059-1116).  Returns the updated state and
the `bool` result.  A `frame == _framecount` call is a NOP; otherwise
the head is repointed at the slot (staying `-1` on a miss), the slot is
decoded along its encoding, `load_game_state` is invoked (no effect on
the sync state), `_last_state` is refreshed and `_framecount` is reset
to the slot's frame. -/
def LoadFrame (cd : Codec) (s : SyncState) (frame : Int) : SyncState × Bool :=
  if frame = s.framecount then (s, true)
  else
    let idx := FindSavedFrameIndex s frame
    let s₁ := { s with head := idx }
    if idx < 0 then (s₁, false)
    else
      let st := slotAt s₁ idx
      if st.buf.isNone ∨ st.cbuf = 0 then (s₁, false)
      else if st.delta then
        match ReconstructFrameInternal cd s₁ frame with
        | none => (s₁, false)
        | some bytes =>
          let s₂ := UpdateLastState s₁ bytes st.uncompressed_size st.frame
          ({ s₂ with
             framecount := st.frame
             head := (idx + 1) % (ARRAY_SIZE : Int) }, true)
      else if st.compressed then
        if st.uncompressed_size = 0 then (s₁, false)
        else
          match cd.decomp ((st.buf.elim [] Buf.data).take st.cbuf) st.uncompressed_size with
          | none => (s₁, false)
          | some d =>
            if d.length = st.uncompressed_size then
              let s₂ := UpdateLastState s₁ d st.uncompressed_size st.frame
              ({ s₂ with
                 framecount := st.frame
                 head := (idx + 1) % (ARRAY_SIZE : Int) }, true)
            else (s₁, false)
      else
        let s₂ := UpdateLastState s₁ (st.buf.elim [] Buf.data) st.cbuf st.frame
        ({ s₂ with
           framecount := st.frame
           head := (idx + 1) % (ARRAY_SIZE : Int) }, true)

/-- Iterated `advance_frame` callback. -/
def iterateAdv (adv : SyncState → SyncState) : Nat → SyncState → SyncState
  | 0, s => s
  | n + 1, s => iterateAdv adv n (adv s)

/-- `Sync::AdjustSimulation` (sync.cpp 919-952), with the `advance_frame`
callback abstracted as `adv`.  Returns the final state and the number of
`advance_frame` calls made. -/
def AdjustSimulation (cd : Codec) (adv : SyncState → SyncState) (s : SyncState)
    (seek_to : Int) : SyncState × Nat :=
  let count := s.framecount - seek_to
  let s₁ := { s with rollingback := true }
  let lf := LoadFrame cd s₁ seek_to
  if lf.2 = false ∨ lf.1.framecount ≠ seek_to then
    let s₂ := ResetPrediction lf.1 seek_to
    ({ s₂ with rollingback := false }, 0)
  else
    let s₂ := ResetPrediction lf.1 lf.1.framecount
    let s₃ := iterateAdv adv count.toNat s₂
    ({ s₃ with rollingback := false }, count.toNat)

/-- `Sync::AddLocalInput` (sync.cpp 833-851): refuse at the prediction
barrier; otherwise save the initial frame when `_framecount == 0`, stamp
the input with the current frame and enqueue it. -/
def AddLocalInput (cd : Codec) (s : SyncState) (queue : Nat) (input : GameInput)
    (sv : SaveResult) (async : Bool) : SyncState × Bool :=
  let frames_behind := s.framecount - s.last_confirmed_frame
  if s.max_prediction_frames ≤ s.framecount ∧ s.max_prediction_frames ≤ frames_behind then
    (s, false)
  else
    let s₁ := if s.framecount = 0 then SaveCurrentFrame cd s sv async else s
    let inp := { input with frame := s₁.framecount }
    let q := (s₁.input_queues.getD queue ⟨[], -1⟩).AddInput inp
    ({ s₁ with input_queues := s₁.input_queues.set queue q }, true)

/-- The `Sync` state after construction and `Init` (sync.cpp 268-334):
`memset` zeroes the ring, so every slot starts as `SavedFrame.zero`. -/
def initSync : SyncState :=
  { frames := List.replicate ARRAY_SIZE SavedFrame.zero
    head := 0
    framecount := 0
    last_confirmed_frame := -1
    max_prediction_frames := MAX_PREDICTION_FRAMES
    rollingback := false
    last_state := []
    last_state_size := 0
    last_state_frame := -1
    last_state_valid := false
    pool := []
    size_hint := 0
    next_buf_id := 0
    input_queues := []
    raws := fun _ => [] }

/-- The result the compression worker produces for a job targeting slot
`i` with input buffer `input` (sync.cpp 399-455): the whole input is
compressed, `cd.comp = none` covering a failed allocation or a
non-positive `LZ4_compress_fast` return. -/
def workerResult (cd : Codec) (s : SyncState) (i : Nat) (input : Buf)
    (frame : Int) : CompressResult :=
  { state := some i
    input := some input
    input_size := input.data.length
    frame := frame
    compressed_buf := (cd.comp input.data).map (fun c => Buf.mk s.next_buf_id c)
    compressed_size := (cd.comp input.data).elim 0 List.length }

/-- The legal histories of claim C1: frame saves (`IncrementFrame` =
`_framecount++; SaveCurrentFrame()`), the initial frame-0 save made by
`AddLocalInput`, and asynchronous compression results applied at
arbitrary later points.  The callback never writes zero bytes, and a
repeated save of frame 0 (a second local player before the first
advance) reproduces the same snapshot bytes because the simulation has
not advanced. -/
inductive Reach (cd : Codec) : SyncState → Prop where
  | init : Reach cd initSync
  | save (s : SyncState) (sv : SaveResult) (async : Bool) :
      Reach cd s → sv.data ≠ [] →
      Reach cd (IncrementFrame cd s sv async)
  | save0 (s : SyncState) (sv : SaveResult) (async : Bool) :
      Reach cd s → s.framecount = 0 → sv.data ≠ [] →
      ((∃ st ∈ s.frames, st.frame = 0 ∧ st.buf.isSome = true) → sv.data = s.raws 0) →
      Reach cd (SaveCurrentFrame cd s sv async)
  | compress (s : SyncState) (i : Nat) (input : Buf) (frame : Int) :
      Reach cd s →
      Reach cd (ApplyCompressionResult { s with next_buf_id := s.next_buf_id + 1 }
        (workerResult cd s i input frame))

/-- The bytes a slot must decode to: the ghost snapshot of its frame, or
the xor of two consecutive snapshots for a delta slot. -/
def targetOf (raws : Int → List Nat) (st : SavedFrame) : List Nat :=
  if st.delta then List.zipWith Nat.xor (raws st.frame) (raws (st.frame - 1))
  else raws st.frame

/-- Per-slot invariant of the saved-frame ring: either the slot holds no
buffer (zeroed counters and flags), or it holds a well-formed encoding
of `targetOf` for its frame. -/
def SlotOk (cd : Codec) (raws : Int → List Nat) (st : SavedFrame) : Prop :=
  (st.buf = none ∧ st.cbuf = 0 ∧ st.uncompressed_size = 0 ∧
    st.delta = false ∧ st.compressed = false) ∨
  (0 ≤ st.frame ∧ ∃ b, st.buf = some b ∧
    st.uncompressed_size = (raws st.frame).length ∧
    0 < st.uncompressed_size ∧
    st.cbuf ≤ st.uncompressed_size ∧
    (st.delta = true → 1 ≤ st.frame ∧ ¬st.frame % 4 = 0 ∧
      (raws (st.frame - 1)).length = (raws st.frame).length) ∧
    (st.compressed = true → b.data.length = st.cbuf ∧ 0 < st.cbuf ∧
      cd.decomp b.data st.uncompressed_size = some (targetOf raws st)) ∧
    (st.compressed = false → b.data = targetOf raws st ∧ st.cbuf = st.uncompressed_size))

/-- Reachability invariant of the sync engine: a full ten-slot ring, a
head inside it, a coherent `_last_state` cache, and every slot a
well-formed encoding of the ghost snapshots, no slot ahead of
`_framecount`. -/
def SyncInv (cd : Codec) (s : SyncState) : Prop :=
  s.frames.length = ARRAY_SIZE ∧
  0 ≤ s.framecount ∧
  0 ≤ s.head ∧ s.head < (ARRAY_SIZE : Int) ∧
  (s.last_state_valid = true →
    0 ≤ s.last_state_frame ∧ s.last_state = s.raws s.last_state_frame ∧
    s.last_state_size = s.last_state.length ∧ 0 < s.last_state_size) ∧
  (∀ st ∈ s.frames, SlotOk cd s.raws st ∧ st.frame ≤ s.framecount)


/-- `RecycleStateBuffer` only changes the buffer pool. -/
theorem recycle_shape (s : SyncState) (b : Option Buf) (c : Nat) :
    ∃ pl, RecycleStateBuffer s b c = { s with pool := pl } := by
  unfold RecycleStateBuffer
  rcases b with _ | b
  · exact ⟨s.pool, rfl⟩
  · by_cases h1 : c = 0
    · simp only [h1, if_true]
      exact ⟨s.pool, rfl⟩
    · simp only [h1, if_false]
      by_cases h2 : ARRAY_SIZE ≤ s.pool.length
      · simp only [h2, if_true]
        exact ⟨s.pool, rfl⟩
      · simp only [h2, if_false]
        exact ⟨s.pool ++ [(b, c)], rfl⟩

/-- `AcquireStateBuffer` only changes the buffer pool. -/
theorem acquire_shape (s : SyncState) :
    ∃ pl, (AcquireStateBuffer s).1 = { s with pool := pl } := by
  unfold AcquireStateBuffer
  by_cases h1 : s.size_hint = 0 ∨ s.pool.isEmpty
  · simp only [h1, if_true]
    exact ⟨s.pool, rfl⟩
  · simp only [h1, if_false]
    rcases h2 : s.pool.enum.foldl (bestFitStep s.size_hint) none with _ | bc
    · exact ⟨s.pool, rfl⟩
    · exact ⟨s.pool.eraseIdx bc.1, rfl⟩

/-- `FreeSavedFrameBuffer` only changes the ring and the pool. -/
theorem free_shape (s : SyncState) (i : Nat) :
    ∃ fr pl, FreeSavedFrameBuffer s i = { s with frames := fr, pool := pl } := by
  unfold FreeSavedFrameBuffer
  rcases hb : (s.frames.getD i SavedFrame.zero).buf with _ | b
  · simp only [hb]
    exact ⟨s.frames, s.pool, rfl⟩
  · simp only [hb]
    by_cases h1 : (s.frames.getD i SavedFrame.zero).compressed = true ∨
        (s.frames.getD i SavedFrame.zero).delta = true
    · simp only [h1, if_true]
      exact ⟨_, s.pool, rfl⟩
    · simp only [h1, if_false]
      obtain ⟨pl, hpl⟩ := recycle_shape s (some b) (s.frames.getD i SavedFrame.zero).buf_capacity
      rw [hpl]
      exact ⟨_, pl, rfl⟩

/-- The state returned by `CompressSync` only changes pool and allocation
counter. -/
theorem compress_sync_shape (cd : Codec) (s : SyncState) (st : SavedFrame)
    (input : List Nat) (n : Nat) :
    ∃ pl nid, (CompressSync cd s st input n).2 = { s with pool := pl, next_buf_id := nid } := by
  unfold CompressSync
  rcases hc : cd.comp (input.take n) with _ | c
  · exact ⟨s.pool, s.next_buf_id, rfl⟩
  · simp only []
    by_cases h1 : 0 < c.length ∧ c.length < n
    · rw [if_pos h1]
      by_cases h2 : st.compressed = true ∨ st.delta = true
      · rw [if_pos h2]
        exact ⟨s.pool, s.next_buf_id + 1, rfl⟩
      · rw [if_neg h2]
        obtain ⟨pl, hpl⟩ := recycle_shape { s with next_buf_id := s.next_buf_id + 1 } st.buf st.buf_capacity
        rw [hpl]
        exact ⟨pl, s.next_buf_id + 1, rfl⟩
    · rw [if_neg h1]
      exact ⟨s.pool, s.next_buf_id, rfl⟩

/-- The slot returned by `CompressSync`: unchanged, or swapped to a winning
compressed payload. -/
theorem compress_sync_fst (cd : Codec) (s : SyncState) (st : SavedFrame)
    (input : List Nat) (n : Nat) :
    (CompressSync cd s st input n).1 = st ∨
    ∃ c, cd.comp (input.take n) = some c ∧ 0 < c.length ∧ c.length < n ∧
      (CompressSync cd s st input n).1 =
        { st with buf := some (Buf.mk s.next_buf_id c), cbuf := c.length, buf_capacity := c.length, compressed := true } := by
  unfold CompressSync
  rcases hc : cd.comp (input.take n) with _ | c
  · exact Or.inl rfl
  · simp only []
    by_cases h1 : 0 < c.length ∧ c.length < n
    · rw [if_pos h1]
      exact Or.inr ⟨c, rfl, h1.1, h1.2, rfl⟩
    · rw [if_neg h1]
      exact Or.inl rfl


/-!
Field projections of the pool-only helpers, used to evaluate
`SaveCurrentFrameCore`.
-/

theorem recycle_frames (s : SyncState) (b : Option Buf) (c : Nat) :
    (RecycleStateBuffer s b c).frames = s.frames := by
  obtain ⟨pl, h⟩ := recycle_shape s b c
  rw [h]

theorem recycle_head (s : SyncState) (b : Option Buf) (c : Nat) :
    (RecycleStateBuffer s b c).head = s.head := by
  obtain ⟨pl, h⟩ := recycle_shape s b c
  rw [h]

theorem recycle_framecount (s : SyncState) (b : Option Buf) (c : Nat) :
    (RecycleStateBuffer s b c).framecount = s.framecount := by
  obtain ⟨pl, h⟩ := recycle_shape s b c
  rw [h]

theorem recycle_last_confirmed_frame (s : SyncState) (b : Option Buf) (c : Nat) :
    (RecycleStateBuffer s b c).last_confirmed_frame = s.last_confirmed_frame := by
  obtain ⟨pl, h⟩ := recycle_shape s b c
  rw [h]

theorem recycle_max_prediction_frames (s : SyncState) (b : Option Buf) (c : Nat) :
    (RecycleStateBuffer s b c).max_prediction_frames = s.max_prediction_frames := by
  obtain ⟨pl, h⟩ := recycle_shape s b c
  rw [h]

theorem recycle_rollingback (s : SyncState) (b : Option Buf) (c : Nat) :
    (RecycleStateBuffer s b c).rollingback = s.rollingback := by
  obtain ⟨pl, h⟩ := recycle_shape s b c
  rw [h]

theorem recycle_last_state (s : SyncState) (b : Option Buf) (c : Nat) :
    (RecycleStateBuffer s b c).last_state = s.last_state := by
  obtain ⟨pl, h⟩ := recycle_shape s b c
  rw [h]

theorem recycle_last_state_size (s : SyncState) (b : Option Buf) (c : Nat) :
    (RecycleStateBuffer s b c).last_state_size = s.last_state_size := by
  obtain ⟨pl, h⟩ := recycle_shape s b c
  rw [h]

theorem recycle_last_state_frame (s : SyncState) (b : Option Buf) (c : Nat) :
    (RecycleStateBuffer s b c).last_state_frame = s.last_state_frame := by
  obtain ⟨pl, h⟩ := recycle_shape s b c
  rw [h]

theorem recycle_last_state_valid (s : SyncState) (b : Option Buf) (c : Nat) :
    (RecycleStateBuffer s b c).last_state_valid = s.last_state_valid := by
  obtain ⟨pl, h⟩ := recycle_shape s b c
  rw [h]

theorem recycle_input_queues (s : SyncState) (b : Option Buf) (c : Nat) :
    (RecycleStateBuffer s b c).input_queues = s.input_queues := by
  obtain ⟨pl, h⟩ := recycle_shape s b c
  rw [h]

theorem recycle_raws (s : SyncState) (b : Option Buf) (c : Nat) :
    (RecycleStateBuffer s b c).raws = s.raws := by
  obtain ⟨pl, h⟩ := recycle_shape s b c
  rw [h]

theorem recycle_nbi (s : SyncState) (b : Option Buf) (c : Nat) :
    (RecycleStateBuffer s b c).next_buf_id = s.next_buf_id := by
  obtain ⟨pl, h⟩ := recycle_shape s b c
  rw [h]


/-- `_last_state` fields after `UpdateLastState` on `size = data.length`
bytes. -/
def lsData (d : List Nat) : List Nat := if d.length = 0 then [] else d

def lsFrame (d : List Nat) (n : Int) : Int := if d.length = 0 then -1 else n

def lsValid (d : List Nat) : Bool := if d.length = 0 then false else true

theorem lsData_pos (d : List Nat) (h : ¬d.length = 0) : lsData d = d := by
  unfold lsData
  rw [if_neg h]

theorem lsFrame_pos (d : List Nat) (n : Int) (h : ¬d.length = 0) : lsFrame d n = n := by
  unfold lsFrame
  rw [if_neg h]

theorem lsValid_pos (d : List Nat) (h : ¬d.length = 0) : lsValid d = true := by
  unfold lsValid
  rw [if_neg h]

/-- Full characterization of `SaveCurrentFrameCore`: the state differs from
the input only in the written ring slot, the advanced head, the
refreshed `_last_state`, the ghost `raws`, and the pool / hint /
allocation bookkeeping; and the written slot holds the snapshot (or its
delta against `_last_state`), raw or LZ4-compressed. -/
theorem core_spec (cd : Codec) (t : SyncState) (async : Bool) (i : Nat)
    (hp : Int) (bufNew : Buf) (capNew ck : Nat) :
    ∃ st₂ pl sh nid, SaveCurrentFrameCore cd t async i hp bufNew capNew ck =
      { t with
        frames := t.frames.set i st₂
        pool := pl
        size_hint := sh
        next_buf_id := nid
        head := (hp + 1) % (ARRAY_SIZE : Int)
        last_state := lsData bufNew.data
        last_state_size := bufNew.data.length
        last_state_frame := lsFrame bufNew.data t.framecount
        last_state_valid := lsValid bufNew.data
        raws := Function.update t.raws t.framecount bufNew.data } ∧
      st₂.frame = t.framecount ∧
      st₂.uncompressed_size = bufNew.data.length ∧
      (st₂.delta = true ↔ useDelta t bufNew.data.length) ∧
      (st₂.compressed = false →
        st₂.cbuf = bufNew.data.length ∧
        ∃ b, st₂.buf = some b ∧
          b.data = if useDelta t bufNew.data.length
                   then XorBuffers bufNew.data t.last_state bufNew.data.length
                   else bufNew.data) ∧
      (st₂.compressed = true →
        ∃ c, cd.comp ((if useDelta t bufNew.data.length
                       then XorBuffers bufNew.data t.last_state bufNew.data.length
                       else bufNew.data).take bufNew.data.length) = some c ∧
          0 < c.length ∧ c.length < bufNew.data.length ∧
          st₂.cbuf = c.length ∧ ∃ b, st₂.buf = some b ∧ b.data = c) := by
  simp only [SaveCurrentFrameCore, UpdateLastState]
  simp only [lsData, lsFrame, lsValid]
  by_cases hud : useDelta t bufNew.data.length
  · simp only [if_pos hud]
    by_cases hsz : bufNew.data.length = 0
    · rw [hsz] at hud
      simp only [hsz, if_pos rfl]
      have hq : ¬(async = true ∧ 0 < (0 : Nat)) := by omega
      simp only [if_neg hq]
      rcases hcm : cd.comp ((XorBuffers bufNew.data t.last_state 0).take 0) with _ | c
      · simp only [CompressSync, Option.elim, hcm]
        simp only [recycle_frames, recycle_head, recycle_framecount,
          recycle_last_confirmed_frame, recycle_max_prediction_frames,
          recycle_rollingback, recycle_last_state, recycle_last_state_size,
          recycle_last_state_frame, recycle_last_state_valid,
          recycle_input_queues, recycle_raws, recycle_nbi]
        refine ⟨_, _, _, _, rfl, rfl, rfl, ?_, ?_, ?_⟩
        · exact iff_of_true rfl hud
        · intro hcf
          exact ⟨rfl, _, rfl, rfl⟩
        · intro habs
          simp at habs
      · simp only [CompressSync, Option.elim, hcm]
        have hwin : ¬(0 < c.length ∧ c.length < 0) := by omega
        simp only [if_neg hwin]
        simp only [recycle_frames, recycle_head, recycle_framecount,
          recycle_last_confirmed_frame, recycle_max_prediction_frames,
          recycle_rollingback, recycle_last_state, recycle_last_state_size,
          recycle_last_state_frame, recycle_last_state_valid,
          recycle_input_queues, recycle_raws, recycle_nbi]
        refine ⟨_, _, _, _, rfl, rfl, rfl, ?_, ?_, ?_⟩
        · exact iff_of_true rfl hud
        · intro hcf
          exact ⟨rfl, _, rfl, rfl⟩
        · intro habs
          simp at habs
    · simp only [if_neg hsz, List.take_length]
      by_cases hq : async = true ∧ 0 < bufNew.data.length
      · simp only [if_pos hq]
        simp only [recycle_frames, recycle_head, recycle_framecount,
          recycle_last_confirmed_frame, recycle_max_prediction_frames,
          recycle_rollingback, recycle_last_state, recycle_last_state_size,
          recycle_last_state_frame, recycle_last_state_valid,
          recycle_input_queues, recycle_raws, recycle_nbi]
        refine ⟨_, _, _, _, rfl, rfl, rfl, ?_, ?_, ?_⟩
        · exact iff_of_true rfl hud
        · intro hcf
          exact ⟨rfl, _, rfl, rfl⟩
        · intro habs
          simp at habs
      · simp only [if_neg hq]
        rcases hcm : cd.comp ((XorBuffers bufNew.data t.last_state
            bufNew.data.length).take bufNew.data.length) with _ | c
        · simp only [CompressSync, Option.elim, hcm]
          simp only [recycle_frames, recycle_head, recycle_framecount,
          recycle_last_confirmed_frame, recycle_max_prediction_frames,
          recycle_rollingback, recycle_last_state, recycle_last_state_size,
          recycle_last_state_frame, recycle_last_state_valid,
          recycle_input_queues, recycle_raws, recycle_nbi]
          refine ⟨_, _, _, _, rfl, rfl, rfl, ?_, ?_, ?_⟩
          · exact iff_of_true rfl hud
          · intro hcf
            exact ⟨rfl, _, rfl, rfl⟩
          · intro habs
            simp at habs
        · simp only [CompressSync, Option.elim, hcm]
          by_cases hwin : 0 < c.length ∧ c.length < bufNew.data.length
          · rw [if_pos hwin]
            simp only [recycle_frames, recycle_head, recycle_framecount,
          recycle_last_confirmed_frame, recycle_max_prediction_frames,
          recycle_rollingback, recycle_last_state, recycle_last_state_size,
          recycle_last_state_frame, recycle_last_state_valid,
          recycle_input_queues, recycle_raws, recycle_nbi]
            refine ⟨_, _, _, _, rfl, rfl, rfl, ?_, ?_, ?_⟩
            · exact iff_of_true rfl hud
            · intro habs
              simp at habs
            · intro hct
              exact ⟨c, rfl, hwin.1, hwin.2, rfl, _, rfl, rfl⟩
          · rw [if_neg hwin]
            simp only [recycle_frames, recycle_head, recycle_framecount,
          recycle_last_confirmed_frame, recycle_max_prediction_frames,
          recycle_rollingback, recycle_last_state, recycle_last_state_size,
          recycle_last_state_frame, recycle_last_state_valid,
          recycle_input_queues, recycle_raws, recycle_nbi]
            refine ⟨_, _, _, _, rfl, rfl, rfl, ?_, ?_, ?_⟩
            · exact iff_of_true rfl hud
            · intro hcf
              exact ⟨rfl, _, rfl, rfl⟩
            · intro habs
              simp at habs
  · simp only [if_neg hud]
    by_cases hsz : bufNew.data.length = 0
    · rw [hsz] at hud
      simp only [hsz, if_pos rfl]
      have hq : ¬(async = true ∧ 0 < (0 : Nat)) := by omega
      simp only [if_neg hq]
      rcases hcm : cd.comp (bufNew.data.take 0) with _ | c
      · simp only [CompressSync, Option.elim, List.take_length, hcm]
        refine ⟨_, _, _, _, rfl, rfl, rfl, ?_, ?_, ?_⟩
        · exact iff_of_false (by simp) hud
        · intro hcf
          exact ⟨rfl, _, rfl, rfl⟩
        · intro habs
          simp at habs
      · simp only [CompressSync, Option.elim, List.take_length, hcm]
        have hwin : ¬(0 < c.length ∧ c.length < 0) := by omega
        simp only [if_neg hwin]
        refine ⟨_, _, _, _, rfl, rfl, rfl, ?_, ?_, ?_⟩
        · exact iff_of_false (by simp) hud
        · intro hcf
          exact ⟨rfl, _, rfl, rfl⟩
        · intro habs
          simp at habs
    · simp only [if_neg hsz, List.take_length]
      by_cases hq : async = true ∧ 0 < bufNew.data.length
      · simp only [if_pos hq]
        refine ⟨_, _, _, _, rfl, rfl, rfl, ?_, ?_, ?_⟩
        · exact iff_of_false (by simp) hud
        · intro hcf
          exact ⟨rfl, _, rfl, rfl⟩
        · intro habs
          simp at habs
      · simp only [if_neg hq]
        rcases hcm : cd.comp bufNew.data with _ | c
        · simp only [CompressSync, Option.elim, List.take_length, hcm]
          refine ⟨_, _, _, _, rfl, rfl, rfl, ?_, ?_, ?_⟩
          · exact iff_of_false (by simp) hud
          · intro hcf
            exact ⟨rfl, _, rfl, rfl⟩
          · intro habs
            simp at habs
        · simp only [CompressSync, Option.elim, List.take_length, hcm]
          by_cases hwin : 0 < c.length ∧ c.length < bufNew.data.length
          · rw [if_pos hwin]
            rw [if_neg (by simp : ¬((false : Bool) = true ∨ (false : Bool) = true))]
            simp only [recycle_frames, recycle_head, recycle_framecount,
          recycle_last_confirmed_frame, recycle_max_prediction_frames,
          recycle_rollingback, recycle_last_state, recycle_last_state_size,
          recycle_last_state_frame, recycle_last_state_valid,
          recycle_input_queues, recycle_raws, recycle_nbi]
            refine ⟨_, _, _, _, rfl, rfl, rfl, ?_, ?_, ?_⟩
            · exact iff_of_false (by simp) hud
            · intro habs
              simp at habs
            · intro hct
              exact ⟨c, rfl, hwin.1, hwin.2, rfl, _, rfl, rfl⟩
          · rw [if_neg hwin]
            refine ⟨_, _, _, _, rfl, rfl, rfl, ?_, ?_, ?_⟩
            · exact iff_of_false (by simp) hud
            · intro hcf
              exact ⟨rfl, _, rfl, rfl⟩
            · intro habs
              simp at habs


/-- `SaveCurrentFrame` reduces to `SaveCurrentFrameCore` run on a state
that differs from `s` only in ring (freed slot) and pool bookkeeping,
with a buffer holding exactly the callback bytes. -/
theorem save_cases (cd : Codec) (s : SyncState) (sv : SaveResult) (async : Bool) :
    ∃ t bufNew capNew, bufNew.data = sv.data ∧
      t.frames = (FreeSavedFrameBuffer s s.head.toNat).frames ∧
      t.framecount = s.framecount ∧
      t.head = s.head ∧
      t.last_confirmed_frame = s.last_confirmed_frame ∧
      t.max_prediction_frames = s.max_prediction_frames ∧
      t.rollingback = s.rollingback ∧
      t.last_state = s.last_state ∧
      t.last_state_size = s.last_state_size ∧
      t.last_state_frame = s.last_state_frame ∧
      t.last_state_valid = s.last_state_valid ∧
      t.input_queues = s.input_queues ∧
      t.raws = s.raws ∧
      SaveCurrentFrame cd s sv async =
        SaveCurrentFrameCore cd t async s.head.toNat s.head bufNew capNew sv.checksum := by
  obtain ⟨fr, pl, hfree⟩ := free_shape s s.head.toNat
  simp only [SaveCurrentFrame]
  rw [hfree]
  obtain ⟨pl2, hacq⟩ := acquire_shape { s with frames := fr, pool := pl }
  rw [hacq]
  rcases hm : (AcquireStateBuffer { s with frames := fr, pool := pl }).2 with _ | bc
  · simp only [hm]
    exact ⟨{ s with frames := fr, pool := pl2, next_buf_id := s.next_buf_id + 1 },
      Buf.mk s.next_buf_id sv.data, sv.data.length,
      rfl, rfl, rfl, rfl, rfl, rfl, rfl, rfl, rfl, rfl, rfl, rfl, rfl, rfl⟩
  · simp only [hm]
    by_cases hr : sv.reused = true
    · simp only [if_pos hr]
      exact ⟨{ s with frames := fr, pool := pl2 }, Buf.mk bc.1.id sv.data, bc.2,
        rfl, rfl, rfl, rfl, rfl, rfl, rfl, rfl, rfl, rfl, rfl, rfl, rfl, rfl⟩
    · simp only [if_neg hr]
      exact ⟨RecycleStateBuffer { s with frames := fr, pool := pl2, next_buf_id := s.next_buf_id + 1 } (some bc.1) bc.2,
        Buf.mk s.next_buf_id sv.data, sv.data.length,
        rfl, recycle_frames _ _ _, recycle_framecount _ _ _, recycle_head _ _ _,
        recycle_last_confirmed_frame _ _ _, recycle_max_prediction_frames _ _ _,
        recycle_rollingback _ _ _, recycle_last_state _ _ _,
        recycle_last_state_size _ _ _, recycle_last_state_frame _ _ _,
        recycle_last_state_valid _ _ _, recycle_input_queues _ _ _,
        recycle_raws _ _ _, rfl⟩


/-- Behaviour of one whole `SaveCurrentFrame` call on the engine state:
slot write, head advance, `_last_state` refresh, ghost update, and the
shape of the written slot. -/
theorem save_spec (cd : Codec) (s : SyncState) (sv : SaveResult) (async : Bool) :
    ∃ st₂ pl sh nid,
      SaveCurrentFrame cd s sv async =
        { s with
          frames := (FreeSavedFrameBuffer s s.head.toNat).frames.set s.head.toNat st₂
          pool := pl
          size_hint := sh
          next_buf_id := nid
          head := (s.head + 1) % (ARRAY_SIZE : Int)
          last_state := lsData sv.data
          last_state_size := sv.data.length
          last_state_frame := lsFrame sv.data s.framecount
          last_state_valid := lsValid sv.data
          raws := Function.update s.raws s.framecount sv.data } ∧
      st₂.frame = s.framecount ∧
      st₂.uncompressed_size = sv.data.length ∧
      (st₂.delta = true ↔ useDelta s sv.data.length) ∧
      (st₂.compressed = false →
        st₂.cbuf = sv.data.length ∧ ∃ b, st₂.buf = some b ∧
          b.data = if useDelta s sv.data.length
                   then XorBuffers sv.data s.last_state sv.data.length else sv.data) ∧
      (st₂.compressed = true →
        ∃ c, cd.comp ((if useDelta s sv.data.length
                       then XorBuffers sv.data s.last_state sv.data.length
                       else sv.data).take sv.data.length) = some c ∧
          0 < c.length ∧ c.length < sv.data.length ∧
          st₂.cbuf = c.length ∧ ∃ b, st₂.buf = some b ∧ b.data = c) := by
  obtain ⟨t, bufNew, capNew, hbd, hfr, hfc, hhd, hlcf, hmp, hrb, hls, hlss, hlsf,
    hlsv, hiq, hraws, heq⟩ := save_cases cd s sv async
  obtain ⟨st₂, pl, sh, nid, hspec, h1, h2, h3, h4, h5⟩ :=
    core_spec cd t async s.head.toNat s.head bufNew capNew sv.checksum
  refine ⟨st₂, pl, sh, nid, ?_, ?_, ?_, ?_, ?_, ?_⟩
  · rw [heq, hspec, hbd, hfr, hfc, hlcf, hmp, hrb, hiq, hraws]
  · rw [hfc] at h1
    exact h1
  · rw [hbd] at h2
    exact h2
  · rw [hbd] at h3
    unfold useDelta at h3 ⊢
    rw [hlsv, hlss, hlsf, hfc] at h3
    exact h3
  · rw [hbd, hls] at h4
    unfold useDelta at h4 ⊢
    rw [hlsv, hlss, hlsf, hfc] at h4
    exact h4
  · rw [hbd, hls] at h5
    unfold useDelta at h5 ⊢
    rw [hlsv, hlss, hlsf, hfc] at h5
    exact h5


theorem getD_set_self {α : Type} (l : List α) (i : Nat) (a d : α)
    (h : i < l.length) : (l.set i a).getD i d = a := by
  simp [List.getD_eq_getElem?_getD, List.getElem?_set_self, h]

theorem getD_set_other {α : Type} (l : List α) (i j : Nat) (a d : α)
    (h : i ≠ j) : (l.set i a).getD j d = l.getD j d := by
  simp [List.getD_eq_getElem?_getD, List.getElem?_set_ne h]

/-- The slot with only its `compress_pending` flag cleared (sync.cpp
524-526). -/
def clearPending (st : SavedFrame) : SavedFrame :=
  { st with compress_pending := false }

/-- A result with a NULL state pointer only frees its buffer. -/
theorem ACR_none (s : SyncState) (r : CompressResult) (hr : r.state = none) :
    ApplyCompressionResult s r = s := by
  unfold ApplyCompressionResult
  rw [hr]

/-- Every non-swap path of `ApplyCompressionResult`: the target slot only
has its `compress_pending` flag cleared. -/
theorem ACR_no_swap (s : SyncState) (r : CompressResult) (i : Nat)
    (hi : r.state = some i)
    (hcond : r.compressed_buf = none ∨ r.compressed_size = 0 ∨
      ¬(s.frames.getD i SavedFrame.zero).frame = r.frame ∨
      ¬(s.frames.getD i SavedFrame.zero).buf = r.input ∨
      (s.frames.getD i SavedFrame.zero).compressed = true ∨
      (s.frames.getD i SavedFrame.zero).uncompressed_size ≤ r.compressed_size) :
    ApplyCompressionResult s r =
      { s with frames := s.frames.set i (clearPending (s.frames.getD i SavedFrame.zero)) } := by
  unfold ApplyCompressionResult clearPending
  rw [hi]
  rcases hb : r.compressed_buf with _ | cb
  · rfl
  · simp only []
    by_cases h0 : r.compressed_size = 0
    · rw [if_pos h0]
    · rw [if_neg h0]
      by_cases hst : ¬(s.frames.getD i SavedFrame.zero).frame = r.frame ∨
          ¬(s.frames.getD i SavedFrame.zero).buf = r.input ∨
          (s.frames.getD i SavedFrame.zero).compressed = true
      · rw [if_pos hst]
      · rw [if_neg hst]
        by_cases hnw : (s.frames.getD i SavedFrame.zero).uncompressed_size ≤ r.compressed_size
        · rw [if_pos hnw]
        · exfalso
          rcases hcond with h | h | h | h | h | h
          · rw [hb] at h
            cases h
          · exact h0 h
          · exact hst (Or.inl h)
          · exact hst (Or.inr (Or.inl h))
          · exact hst (Or.inr (Or.inr h))
          · exact hnw h

/-- The slot as rewritten by a winning swap (sync.cpp 545-554). -/
def swapSlot (st : SavedFrame) (cb : Buf) (sz : Nat) : SavedFrame :=
  { st with
    compress_pending := false
    buf := some cb
    cbuf := sz
    buf_capacity := sz
    compressed := true }

/-- The swap path of `ApplyCompressionResult`: a matching, winning result
installs the compressed buffer (only the pool can also change, through
`RecycleStateBuffer`). -/
theorem ACR_swap (s : SyncState) (r : CompressResult) (i : Nat) (cb : Buf)
    (hi : r.state = some i) (hb : r.compressed_buf = some cb)
    (h0 : ¬r.compressed_size = 0)
    (hfr : (s.frames.getD i SavedFrame.zero).frame = r.frame)
    (hbu : (s.frames.getD i SavedFrame.zero).buf = r.input)
    (hcp : (s.frames.getD i SavedFrame.zero).compressed = false)
    (hwin : r.compressed_size < (s.frames.getD i SavedFrame.zero).uncompressed_size) :
    ∃ pl, ApplyCompressionResult s r =
      { s with
        frames := s.frames.set i (swapSlot (s.frames.getD i SavedFrame.zero) cb r.compressed_size)
        pool := pl } := by
  unfold ApplyCompressionResult swapSlot
  rw [hi]
  simp only [hb]
  rw [if_neg h0]
  rw [if_neg ?hstale]
  case hstale =>
    intro h
    rcases h with h | h | h
    · exact h hfr
    · exact h hbu
    · have h2 : (s.frames.getD i SavedFrame.zero).compressed = true := h
      rw [hcp] at h2
      cases h2
  rw [if_neg (by omega)]
  by_cases hcd : ({ s.frames.getD i SavedFrame.zero with compress_pending := false } : SavedFrame).compressed = true ∨
      ({ s.frames.getD i SavedFrame.zero with compress_pending := false } : SavedFrame).delta = true
  · rw [if_pos hcd]
    refine ⟨s.pool, ?_⟩
    rw [List.set_set]
  · rw [if_neg hcd]
    obtain ⟨pl, hpl⟩ := recycle_shape
      { s with frames := s.frames.set i { s.frames.getD i SavedFrame.zero with compress_pending := false } }
      ({ s.frames.getD i SavedFrame.zero with compress_pending := false } : SavedFrame).buf
      ({ s.frames.getD i SavedFrame.zero with compress_pending := false } : SavedFrame).buf_capacity
    rw [hpl]
    refine ⟨pl, ?_⟩
    rw [List.set_set]


theorem set_oob {α : Type} (l : List α) (i : Nat) (a : α) (h : l.length ≤ i) :
    l.set i a = l := by
  induction l generalizing i with
  | nil => rfl
  | cons x xs ih =>
    cases i with
    | zero => simp at h
    | succ j =>
      simp only [List.set]
      rw [ih]
      simpa using h

/-- Exhaustive case split of `ApplyCompressionResult`: NULL state, non-swap
(pending cleared only), or winning swap. -/
theorem ACR_cases (s : SyncState) (r : CompressResult) :
    (r.state = none ∧ ApplyCompressionResult s r = s) ∨
    ∃ i, r.state = some i ∧
      (ApplyCompressionResult s r =
        { s with frames := s.frames.set i (clearPending (s.frames.getD i SavedFrame.zero)) } ∨
       ∃ cb pl, r.compressed_buf = some cb ∧ ¬r.compressed_size = 0 ∧
         (s.frames.getD i SavedFrame.zero).buf = r.input ∧
         (s.frames.getD i SavedFrame.zero).frame = r.frame ∧
         (s.frames.getD i SavedFrame.zero).compressed = false ∧
         r.compressed_size < (s.frames.getD i SavedFrame.zero).uncompressed_size ∧
         ApplyCompressionResult s r =
           { s with
             frames := s.frames.set i (swapSlot (s.frames.getD i SavedFrame.zero) cb r.compressed_size)
             pool := pl }) := by
  rcases hst : r.state with _ | i
  · exact Or.inl ⟨rfl, ACR_none s r hst⟩
  · refine Or.inr ⟨i, rfl, ?_⟩
    rcases hb : r.compressed_buf with _ | cb
    · exact Or.inl (ACR_no_swap s r i hst (Or.inl hb))
    · by_cases h0 : r.compressed_size = 0
      · exact Or.inl (ACR_no_swap s r i hst (Or.inr (Or.inl h0)))
      · by_cases hfr : (s.frames.getD i SavedFrame.zero).frame = r.frame
        · by_cases hbu : (s.frames.getD i SavedFrame.zero).buf = r.input
          · rcases hcm : (s.frames.getD i SavedFrame.zero).compressed with _ | _
            · by_cases hnw : (s.frames.getD i SavedFrame.zero).uncompressed_size ≤ r.compressed_size
              · exact Or.inl (ACR_no_swap s r i hst (Or.inr (Or.inr (Or.inr (Or.inr (Or.inr hnw))))))
              · obtain ⟨pl, hpl⟩ := ACR_swap s r i cb hst hb h0 hfr hbu hcm (by omega)
                exact Or.inr ⟨cb, pl, rfl, h0, hbu, hfr, rfl, by omega, hpl⟩
            · exact Or.inl (ACR_no_swap s r i hst (Or.inr (Or.inr (Or.inr (Or.inr (Or.inl hcm))))))
          · exact Or.inl (ACR_no_swap s r i hst (Or.inr (Or.inr (Or.inr (Or.inl hbu)))))
        · exact Or.inl (ACR_no_swap s r i hst (Or.inr (Or.inr (Or.inl hfr))))

/-- `ApplyCompressionResult` preserves the ring length. -/
theorem ACR_length (s : SyncState) (r : CompressResult) :
    (ApplyCompressionResult s r).frames.length = s.frames.length := by
  rcases ACR_cases s r with ⟨_, h⟩ | ⟨i, _, h | ⟨cb, pl, _, _, _, _, _, _, h⟩⟩ <;>
    rw [h] <;> simp

/-- `ApplyCompressionResult` clears the target slot of a delivered result. -/
theorem ACR_pending (s : SyncState) (r : CompressResult) (i : Nat)
    (hi : r.state = some i) (hlen : i < s.frames.length) :
    ((ApplyCompressionResult s r).frames.getD i SavedFrame.zero).compress_pending = false := by
  rcases ACR_cases s r with ⟨h, _⟩ | ⟨j, hj, h | ⟨cb, pl, _, _, _, _, _, _, h⟩⟩
  · rw [h] at hi
    cases hi
  · rw [hi] at hj
    cases hj
    rw [h]
    rw [show ({ s with frames := s.frames.set i (clearPending (s.frames.getD i SavedFrame.zero)) } : SyncState).frames = s.frames.set i (clearPending (s.frames.getD i SavedFrame.zero)) from rfl]
    rw [getD_set_self _ _ _ _ hlen]
    rfl
  · rw [hi] at hj
    cases hj
    rw [h]
    rw [show ({ s with frames := s.frames.set i (swapSlot (s.frames.getD i SavedFrame.zero) cb r.compressed_size), pool := pl } : SyncState).frames = s.frames.set i (swapSlot (s.frames.getD i SavedFrame.zero) cb r.compressed_size) from rfl]
    rw [getD_set_self _ _ _ _ hlen]
    rfl

/-- `ApplyCompressionResult` never sets a pending flag. -/
theorem ACR_pending_mono (s : SyncState) (r : CompressResult) (j : Nat)
    (h : ((s.frames.getD j SavedFrame.zero).compress_pending = false)) :
    ((ApplyCompressionResult s r).frames.getD j SavedFrame.zero).compress_pending = false := by
  rcases ACR_cases s r with ⟨_, he⟩ | ⟨i, _, he | ⟨cb, pl, _, _, _, _, _, _, he⟩⟩ <;> rw [he]
  · exact h
  · by_cases hij : i = j
    · subst hij
      by_cases hlen : i < s.frames.length
      · rw [show ({ s with frames := s.frames.set i (clearPending (s.frames.getD i SavedFrame.zero)) } : SyncState).frames = s.frames.set i (clearPending (s.frames.getD i SavedFrame.zero)) from rfl, getD_set_self _ _ _ _ hlen]
        rfl
      · rw [show ({ s with frames := s.frames.set i (clearPending (s.frames.getD i SavedFrame.zero)) } : SyncState).frames = s.frames.set i (clearPending (s.frames.getD i SavedFrame.zero)) from rfl, set_oob _ _ _ (by omega)]
        exact h
    · rw [show ({ s with frames := s.frames.set i (clearPending (s.frames.getD i SavedFrame.zero)) } : SyncState).frames = s.frames.set i (clearPending (s.frames.getD i SavedFrame.zero)) from rfl, getD_set_other _ _ _ _ _ hij]
      exact h
  · by_cases hij : i = j
    · subst hij
      by_cases hlen : i < s.frames.length
      · rw [show ({ s with frames := s.frames.set i (swapSlot (s.frames.getD i SavedFrame.zero) cb r.compressed_size), pool := pl } : SyncState).frames = s.frames.set i (swapSlot (s.frames.getD i SavedFrame.zero) cb r.compressed_size) from rfl, getD_set_self _ _ _ _ hlen]
        rfl
      · rw [show ({ s with frames := s.frames.set i (swapSlot (s.frames.getD i SavedFrame.zero) cb r.compressed_size), pool := pl } : SyncState).frames = s.frames.set i (swapSlot (s.frames.getD i SavedFrame.zero) cb r.compressed_size) from rfl, set_oob _ _ _ (by omega)]
        exact h
    · rw [show ({ s with frames := s.frames.set i (swapSlot (s.frames.getD i SavedFrame.zero) cb r.compressed_size), pool := pl } : SyncState).frames = s.frames.set i (swapSlot (s.frames.getD i SavedFrame.zero) cb r.compressed_size) from rfl, getD_set_other _ _ _ _ _ hij]
      exact h

theorem process_pending_aux_fold (results : List CompressResult) (s : SyncState)
    (i : Nat) (h : ((s.frames.getD i SavedFrame.zero).compress_pending = false)) :
    (((results.foldl ApplyCompressionResult s).frames.getD i
        SavedFrame.zero).compress_pending = false) := by
  induction results generalizing s with
  | nil => exact h
  | cons r rest ih => exact ih (ApplyCompressionResult s r) (ACR_pending_mono s r i h)

/-- After draining a result list, every slot named by a drained result has
its pending flag cleared. -/
theorem process_pending (results : List CompressResult) (s : SyncState) :
    ∀ r ∈ results, ∀ i, r.state = some i → i < s.frames.length →
      ((ProcessCompressionResults s results).frames.getD i SavedFrame.zero).compress_pending = false := by
  induction results generalizing s with
  | nil => intro r hr; cases hr
  | cons r0 rest ih =>
    intro r hr i hi hlen
    rcases List.mem_cons.mp hr with hre | hrm
    · subst hre
      have hstep := ACR_pending s r i hi hlen
      unfold ProcessCompressionResults
      rw [List.foldl_cons]
      have := process_pending_aux_fold rest (ApplyCompressionResult s r) i hstep
      exact this
    · unfold ProcessCompressionResults
      rw [List.foldl_cons]
      exact ih (ApplyCompressionResult s r0) r hrm i hi (by rw [ACR_length]; exact hlen)


/-- On every non-swap path, every slot keeps its buffer and encoding
fields (only a pending flag can change). -/
theorem ACR_no_swap_fields (s : SyncState) (r : CompressResult) (i : Nat)
    (hi : r.state = some i)
    (hcond : r.compressed_buf = none ∨ r.compressed_size = 0 ∨
      ¬(s.frames.getD i SavedFrame.zero).frame = r.frame ∨
      ¬(s.frames.getD i SavedFrame.zero).buf = r.input ∨
      (s.frames.getD i SavedFrame.zero).compressed = true ∨
      (s.frames.getD i SavedFrame.zero).uncompressed_size ≤ r.compressed_size)
    (j : Nat) :
    ((ApplyCompressionResult s r).frames.getD j SavedFrame.zero).buf = (s.frames.getD j SavedFrame.zero).buf ∧
    ((ApplyCompressionResult s r).frames.getD j SavedFrame.zero).cbuf = (s.frames.getD j SavedFrame.zero).cbuf ∧
    ((ApplyCompressionResult s r).frames.getD j SavedFrame.zero).uncompressed_size = (s.frames.getD j SavedFrame.zero).uncompressed_size ∧
    ((ApplyCompressionResult s r).frames.getD j SavedFrame.zero).compressed = (s.frames.getD j SavedFrame.zero).compressed ∧
    ((ApplyCompressionResult s r).frames.getD j SavedFrame.zero).delta = (s.frames.getD j SavedFrame.zero).delta := by
  rw [ACR_no_swap s r i hi hcond]
  have hfr : ({ s with frames := s.frames.set i (clearPending (s.frames.getD i SavedFrame.zero)) } : SyncState).frames = s.frames.set i (clearPending (s.frames.getD i SavedFrame.zero)) := rfl
  rw [hfr]
  by_cases hij : i = j
  · subst hij
    by_cases hlen : i < s.frames.length
    · rw [getD_set_self _ _ _ _ hlen]
      exact ⟨rfl, rfl, rfl, rfl, rfl⟩
    · rw [set_oob _ _ _ (by omega)]
      exact ⟨rfl, rfl, rfl, rfl, rfl⟩
  · rw [getD_set_other _ _ _ _ _ hij]
    exact ⟨rfl, rfl, rfl, rfl, rfl⟩

/-- **C10.** `ApplyCompressionResult` clears the slot's `compress_pending`
flag for every drained result whose state pointer is non-null —
including stale results (frame or buffer-identity mismatch) and no-win
results — and in all of those non-swap cases it leaves the slot's
`buf`, `cbuf`, `uncompressed_size`, `compressed` and `delta` fields
completely unchanged; after `ProcessCompressionResults` drains the
result queue, no slot whose result was delivered remains pending. -/
theorem apply_compression_clears_pending (s : SyncState) (r : CompressResult)
    (results : List CompressResult) :
    (∀ i, r.state = some i → i < s.frames.length →
      ((ApplyCompressionResult s r).frames.getD i SavedFrame.zero).compress_pending = false) ∧
    (∀ i, r.state = some i →
      (r.compressed_buf = none ∨ r.compressed_size = 0 ∨
        ¬(s.frames.getD i SavedFrame.zero).frame = r.frame ∨
        ¬(s.frames.getD i SavedFrame.zero).buf = r.input ∨
        (s.frames.getD i SavedFrame.zero).compressed = true ∨
        (s.frames.getD i SavedFrame.zero).uncompressed_size ≤ r.compressed_size) →
      ∀ j,
        ((ApplyCompressionResult s r).frames.getD j SavedFrame.zero).buf = (s.frames.getD j SavedFrame.zero).buf ∧
        ((ApplyCompressionResult s r).frames.getD j SavedFrame.zero).cbuf = (s.frames.getD j SavedFrame.zero).cbuf ∧
        ((ApplyCompressionResult s r).frames.getD j SavedFrame.zero).uncompressed_size = (s.frames.getD j SavedFrame.zero).uncompressed_size ∧
        ((ApplyCompressionResult s r).frames.getD j SavedFrame.zero).compressed = (s.frames.getD j SavedFrame.zero).compressed ∧
        ((ApplyCompressionResult s r).frames.getD j SavedFrame.zero).delta = (s.frames.getD j SavedFrame.zero).delta) ∧
    (∀ r2 ∈ results, ∀ i, r2.state = some i → i < s.frames.length →
      ((ProcessCompressionResults s results).frames.getD i SavedFrame.zero).compress_pending = false) :=
  ⟨fun i hi hlen => ACR_pending s r i hi hlen,
   fun i hi hcond j => ACR_no_swap_fields s r i hi hcond j,
   fun r2 hr2 i hi hlen => process_pending results s r2 hr2 i hi hlen⟩

/-- Witness for C10 at a concrete drained result targeting slot 0 of the
freshly initialised engine. -/
theorem apply_compression_clears_pending_witness :
    ((ApplyCompressionResult initSync { state := some 0, input := none, input_size := 0, frame := 0, compressed_buf := none, compressed_size := 0 }).frames.getD 0 SavedFrame.zero).compress_pending = false ∧
    ((ProcessCompressionResults initSync [{ state := some 0, input := none, input_size := 0, frame := 0, compressed_buf := none, compressed_size := 0 }]).frames.getD 0 SavedFrame.zero).compress_pending = false :=
  ⟨(apply_compression_clears_pending initSync { state := some 0, input := none, input_size := 0, frame := 0, compressed_buf := none, compressed_size := 0 } []).1 0 rfl (by decide),
   (apply_compression_clears_pending initSync { state := some 0, input := none, input_size := 0, frame := 0, compressed_buf := none, compressed_size := 0 } [{ state := some 0, input := none, input_size := 0, frame := 0, compressed_buf := none, compressed_size := 0 }]).2.2 _ (List.mem_singleton.mpr rfl) 0 rfl (by decide)⟩


/-- Applying any compression result preserves `cbuf ≤ uncompressed_size`
slot-wise. -/
theorem ACR_cbuf_le (s : SyncState) (r : CompressResult) (j : Nat)
    (h : (s.frames.getD j SavedFrame.zero).cbuf ≤ (s.frames.getD j SavedFrame.zero).uncompressed_size) :
    ((ApplyCompressionResult s r).frames.getD j SavedFrame.zero).cbuf ≤
      ((ApplyCompressionResult s r).frames.getD j SavedFrame.zero).uncompressed_size := by
  rcases ACR_cases s r with ⟨_, he⟩ | ⟨i, _, he | ⟨cb, pl, _, _, _, _, _, hwin, he⟩⟩ <;> rw [he]
  · exact h
  · have hfr : ({ s with frames := s.frames.set i (clearPending (s.frames.getD i SavedFrame.zero)) } : SyncState).frames = s.frames.set i (clearPending (s.frames.getD i SavedFrame.zero)) := rfl
    rw [hfr]
    by_cases hij : i = j
    · subst hij
      by_cases hlen : i < s.frames.length
      · rw [getD_set_self _ _ _ _ hlen]
        exact h
      · rw [set_oob _ _ _ (by omega)]
        exact h
    · rw [getD_set_other _ _ _ _ _ hij]
      exact h
  · have hfr : ({ s with frames := s.frames.set i (swapSlot (s.frames.getD i SavedFrame.zero) cb r.compressed_size), pool := pl } : SyncState).frames = s.frames.set i (swapSlot (s.frames.getD i SavedFrame.zero) cb r.compressed_size) := rfl
    rw [hfr]
    by_cases hij : i = j
    · subst hij
      by_cases hlen : i < s.frames.length
      · rw [getD_set_self _ _ _ _ hlen]
        have h1 : (swapSlot (s.frames.getD i SavedFrame.zero) cb r.compressed_size).cbuf = r.compressed_size := rfl
        have h2 : (swapSlot (s.frames.getD i SavedFrame.zero) cb r.compressed_size).uncompressed_size = (s.frames.getD i SavedFrame.zero).uncompressed_size := rfl
        rw [h1, h2]
        omega
      · rw [set_oob _ _ _ (by omega)]
        exact h
    · rw [getD_set_other _ _ _ _ _ hij]
      exact h

/-- A codec that stores payloads verbatim; used to evaluate the model. -/
def copyCodec : Codec where
  comp := fun x => if x.length ≤ LZ4_MAX_INPUT_SIZE then some x else none
  decomp := fun y _ => some y
  comp_bound := fun x y h => by
    simp only [] at h
    by_cases hx : x.length ≤ LZ4_MAX_INPUT_SIZE
    · rw [if_pos hx] at h
      cases h
      unfold LZ4_compressBound
      rw [if_neg (by omega)]
      omega
    · rw [if_neg hx] at h
      cases h
  decomp_comp := fun x y h => by
    simp only [] at h
    by_cases hx : x.length ≤ LZ4_MAX_INPUT_SIZE
    · rw [if_pos hx] at h
      cases h
      rfl
    · rw [if_neg hx] at h
      cases h

/-- **C5.** No-win compression never shrinks a slot incorrectly: applying
any compression result keeps `cbuf ≤ uncompressed_size` at every ring
slot; a result whose LZ4 size is `0` (failure) or at least
`uncompressed_size` leaves the slot's `buf`, `cbuf`,
`uncompressed_size`, `compressed` and `delta` fields unchanged; and the
synchronous `CompressSync` likewise keeps the bound and keeps the slot
untouched on a no-win outcome. -/
theorem compression_no_win (cd : Codec) (s : SyncState) (r : CompressResult)
    (st : SavedFrame) (input : List Nat) :
    (∀ j, (s.frames.getD j SavedFrame.zero).cbuf ≤ (s.frames.getD j SavedFrame.zero).uncompressed_size →
      ((ApplyCompressionResult s r).frames.getD j SavedFrame.zero).cbuf ≤
        ((ApplyCompressionResult s r).frames.getD j SavedFrame.zero).uncompressed_size) ∧
    (∀ i, r.state = some i →
      (r.compressed_size = 0 ∨ (s.frames.getD i SavedFrame.zero).uncompressed_size ≤ r.compressed_size) →
      ((ApplyCompressionResult s r).frames.getD i SavedFrame.zero).buf = (s.frames.getD i SavedFrame.zero).buf ∧
      ((ApplyCompressionResult s r).frames.getD i SavedFrame.zero).cbuf = (s.frames.getD i SavedFrame.zero).cbuf ∧
      ((ApplyCompressionResult s r).frames.getD i SavedFrame.zero).uncompressed_size = (s.frames.getD i SavedFrame.zero).uncompressed_size ∧
      ((ApplyCompressionResult s r).frames.getD i SavedFrame.zero).compressed = (s.frames.getD i SavedFrame.zero).compressed ∧
      ((ApplyCompressionResult s r).frames.getD i SavedFrame.zero).delta = (s.frames.getD i SavedFrame.zero).delta) ∧
    (st.cbuf ≤ st.uncompressed_size →
      (CompressSync cd s st input st.uncompressed_size).1.cbuf ≤
        (CompressSync cd s st input st.uncompressed_size).1.uncompressed_size) ∧
    (∀ c, cd.comp (input.take st.uncompressed_size) = some c →
      (c.length = 0 ∨ st.uncompressed_size ≤ c.length) →
      (CompressSync cd s st input st.uncompressed_size).1 = st) := by
  refine ⟨fun j h => ACR_cbuf_le s r j h, ?_, ?_, ?_⟩
  · intro i hi hnw
    refine ACR_no_swap_fields s r i hi ?_ i
    rcases hnw with h | h
    · exact Or.inr (Or.inl h)
    · exact Or.inr (Or.inr (Or.inr (Or.inr (Or.inr h))))
  · intro h
    rcases compress_sync_fst cd s st input st.uncompressed_size with he | ⟨c, hc, hpos, hlt, he⟩ <;> rw [he]
    · exact h
    · have h1 : ({ st with buf := some (Buf.mk s.next_buf_id c), cbuf := c.length, buf_capacity := c.length, compressed := true } : SavedFrame).cbuf = c.length := rfl
      have h2 : ({ st with buf := some (Buf.mk s.next_buf_id c), cbuf := c.length, buf_capacity := c.length, compressed := true } : SavedFrame).uncompressed_size = st.uncompressed_size := rfl
      rw [h1, h2]
      omega
  · intro c hc hnw
    unfold CompressSync
    rw [hc]
    simp only []
    rw [if_neg (by omega : ¬(0 < c.length ∧ c.length < st.uncompressed_size))]

/-- Witness for C5: a failed result applied to the fresh engine, and a
no-win synchronous compression of the empty zero slot. -/
theorem compression_no_win_witness :
    (((ApplyCompressionResult initSync { state := some 0, input := none, input_size := 0, frame := 0, compressed_buf := none, compressed_size := 0 }).frames.getD 0 SavedFrame.zero).cbuf ≤
      ((ApplyCompressionResult initSync { state := some 0, input := none, input_size := 0, frame := 0, compressed_buf := none, compressed_size := 0 }).frames.getD 0 SavedFrame.zero).uncompressed_size) ∧
    (CompressSync copyCodec initSync SavedFrame.zero [] SavedFrame.zero.uncompressed_size).1 = SavedFrame.zero :=
  ⟨(compression_no_win copyCodec initSync { state := some 0, input := none, input_size := 0, frame := 0, compressed_buf := none, compressed_size := 0 } SavedFrame.zero []).1 0 (by decide),
   (compression_no_win copyCodec initSync { state := some 0, input := none, input_size := 0, frame := 0, compressed_buf := none, compressed_size := 0 } SavedFrame.zero []).2.2.2 [] rfl (Or.inl rfl)⟩


/-- `SaveCurrentFrame` never changes `_framecount`. -/
theorem save_framecount (cd : Codec) (s : SyncState) (sv : SaveResult) (async : Bool) :
    (SaveCurrentFrame cd s sv async).framecount = s.framecount := by
  obtain ⟨st₂, pl, sh, nid, heq, _⟩ := save_spec cd s sv async
  rw [heq]

/-- **C4.** Prediction barrier: `AddLocalInput` returns `false` — leaving
the whole state, input queues included, unchanged — exactly when
`_framecount ≥ _max_prediction_frames` and `_framecount −
_last_confirmed_frame ≥ _max_prediction_frames`; when it accepts, it
saves the initial frame first when `_framecount == 0`, stamps the input
with the current frame and enqueues it on the named queue. -/
theorem add_local_input_barrier (cd : Codec) (s : SyncState) (queue : Nat)
    (input : GameInput) (sv : SaveResult) (async : Bool) :
    ((AddLocalInput cd s queue input sv async).2 = false ↔
      (s.max_prediction_frames ≤ s.framecount ∧
       s.max_prediction_frames ≤ s.framecount - s.last_confirmed_frame)) ∧
    ((AddLocalInput cd s queue input sv async).2 = false →
      (AddLocalInput cd s queue input sv async).1 = s) ∧
    ((AddLocalInput cd s queue input sv async).2 = true →
      (AddLocalInput cd s queue input sv async).1.input_queues =
        (if s.framecount = 0 then SaveCurrentFrame cd s sv async else s).input_queues.set queue
          (((if s.framecount = 0 then SaveCurrentFrame cd s sv async else s).input_queues.getD queue ⟨[], -1⟩).AddInput
            { input with frame := s.framecount }) ∧
      (¬s.framecount = 0 →
        (AddLocalInput cd s queue input sv async).1 =
          { s with input_queues := (AddLocalInput cd s queue input sv async).1.input_queues }) ∧
      (s.framecount = 0 →
        (AddLocalInput cd s queue input sv async).1 =
          { SaveCurrentFrame cd s sv async with input_queues := (AddLocalInput cd s queue input sv async).1.input_queues })) := by
  simp only [AddLocalInput]
  by_cases hbar : s.max_prediction_frames ≤ s.framecount ∧
      s.max_prediction_frames ≤ s.framecount - s.last_confirmed_frame
  · rw [if_pos hbar]
    refine ⟨iff_of_true rfl hbar, fun _ => rfl, fun h => ?_⟩
    simp at h
  · rw [if_neg hbar]
    refine ⟨iff_of_false (by simp) hbar, fun h => by simp at h, fun _ => ?_⟩
    by_cases hz : s.framecount = 0
    · rw [if_pos hz]
      rw [save_framecount]
      exact ⟨rfl, fun h => absurd hz h, fun _ => rfl⟩
    · rw [if_neg hz]
      exact ⟨rfl, fun _ => rfl, fun h => absurd h hz⟩

/-- Witness for C4: the fresh engine accepts the first local input. -/
theorem add_local_input_barrier_witness :
    (AddLocalInput failCodec initSync 0 { frame := 0, bits := [] }
      { reused := false, data := [7], checksum := 0 } false).2 = true := by
  have h := (add_local_input_barrier failCodec initSync 0 { frame := 0, bits := [] }
    { reused := false, data := [7], checksum := 0 } false).1
  cases hr : (AddLocalInput failCodec initSync 0 { frame := 0, bits := [] }
      { reused := false, data := [7], checksum := 0 } false).2
  · exact absurd (h.mp hr).1 (by decide)
  · rfl


/-- Freeing a slot buffer preserves the ring length. -/
theorem free_frames_length (s : SyncState) (i : Nat) :
    (FreeSavedFrameBuffer s i).frames.length = s.frames.length := by
  unfold FreeSavedFrameBuffer
  rcases hb : (s.frames.getD i SavedFrame.zero).buf with _ | b
  · simp only [hb]
  · simp only [hb]
    by_cases h1 : (s.frames.getD i SavedFrame.zero).compressed = true ∨
        (s.frames.getD i SavedFrame.zero).delta = true
    · rw [if_pos h1]
      simp
    · rw [if_neg h1]
      simp [recycle_frames]

/-- What a non-negative `FindSavedFrameIndex` return points at: a ring slot
carrying exactly the requested frame number. -/
theorem find_spec (s : SyncState) (g : Int) :
    FindSavedFrameIndex s g = -1 ∨
    (0 ≤ FindSavedFrameIndex s g ∧
     slotAt s (FindSavedFrameIndex s g) ∈ s.frames ∧
     (slotAt s (FindSavedFrameIndex s g)).frame = g) := by
  unfold FindSavedFrameIndex
  rcases hf : s.frames.findIdx? (fun st => st.frame == g) with _ | i
  · simp only [hf]
    exact Or.inl trivial
  · simp only [hf]
    right
    obtain ⟨hlt, hp, -⟩ := List.findIdx?_eq_some_iff_getElem.mp hf
    have hslot : slotAt s ((i : Nat) : Int) = s.frames[i] := by
      unfold slotAt
      simp [List.getD_eq_getElem?_getD, List.getElem?_eq_getElem hlt]
    refine ⟨by omega, ?_, ?_⟩
    · rw [hslot]
      exact List.getElem_mem hlt
    · rw [hslot]
      simpa using hp

/-- Invariants of the backward base scan: the result is a non-delta slot at
or below the start, and every frame strictly between carries a delta
slot. -/
theorem findBaseAux_spec (s : SyncState) :
    ∀ fuel : Nat, ∀ bf b : Int, findBaseAux s fuel bf = some b →
      b ≤ bf ∧
      0 ≤ FindSavedFrameIndex s b ∧
      ¬(slotAt s (FindSavedFrameIndex s b)).delta = true ∧
      ∀ g : Int, b < g → g ≤ bf →
        0 ≤ FindSavedFrameIndex s g ∧ (slotAt s (FindSavedFrameIndex s g)).delta = true := by
  intro fuel
  induction fuel with
  | zero =>
    intro bf b h
    cases h
  | succ n ih =>
    intro bf b h
    unfold findBaseAux at h
    by_cases h0 : bf < 0
    · rw [if_pos h0] at h
      cases h
    · rw [if_neg h0] at h
      by_cases h1 : FindSavedFrameIndex s bf < 0
      · rw [if_pos h1] at h
        cases h
      · rw [if_neg h1] at h
        by_cases h2 : (slotAt s (FindSavedFrameIndex s bf)).delta = true
        · rw [if_pos h2] at h
          obtain ⟨hle, hf, hnd, hvis⟩ := ih (bf - 1) b h
          refine ⟨by omega, hf, hnd, ?_⟩
          intro g hg1 hg2
          by_cases hgb : g = bf
          · subst hgb
            exact ⟨by omega, h2⟩
          · exact hvis g hg1 (by omega)
        · rw [if_neg h2] at h
          cases h
          refine ⟨le_refl _, by omega, h2, ?_⟩
          intro g hg1 hg2
          omega

/-- Under the ring invariant, the base of any delta reconstruction lies at
most `KEYFRAME_INTERVAL − 1 = 3` frames below the target. -/
theorem findBase_bound (cd : Codec) (s : SyncState) (hInv : SyncInv cd s) (F b : Int)
    (hF : 0 ≤ F) (hdel : (slotAt s (FindSavedFrameIndex s F)).delta = true)
    (hb : findBase s F = some b) : F - b ≤ 3 := by
  obtain ⟨hle, hfb, hnd, hvis⟩ := findBaseAux_spec s (F.toNat + 1) F b hb
  have hbF : b < F := by
    rcases lt_or_eq_of_le hle with hlt | heq
    · exact hlt
    · exfalso
      rw [heq] at hnd
      exact hnd hdel
  have hFfind : 0 ≤ FindSavedFrameIndex s F := (hvis F hbF (le_refl F)).1
  rcases find_spec s F with hmiss | ⟨-, hmem, hfr⟩
  · omega
  · obtain ⟨hok, -⟩ := hInv.2.2.2.2.2 _ hmem
    rcases hok with ⟨-, -, -, hdf, -⟩ | ⟨-, bb, -, -, -, -, hdcl, -, -⟩
    · rw [hdf] at hdel
      cases hdel
    · obtain ⟨-, hmod, -⟩ := hdcl hdel
      rw [hfr] at hmod
      by_cases hbg : b < F - F % 4
      · exfalso
        obtain ⟨hgfind, hgdel⟩ := hvis (F - F % 4) hbg (by omega)
        rcases find_spec s (F - F % 4) with hmiss2 | ⟨-, hmem2, hfr2⟩
        · omega
        · obtain ⟨hok2, -⟩ := hInv.2.2.2.2.2 _ hmem2
          rcases hok2 with ⟨-, -, -, hdf2, -⟩ | ⟨-, bb2, -, -, -, -, hdcl2, -, -⟩
          · rw [hdf2] at hgdel
            cases hgdel
          · obtain ⟨-, hmod2, -⟩ := hdcl2 hgdel
            rw [hfr2] at hmod2
            omega
      · omega


/-- **C2.** Delta eligibility and keyframe bound: `SaveCurrentFrame` stores
the new frame as a delta exactly when the last-state cache is valid,
matches the snapshot size, holds frame `F − 1`, and `F mod
KEYFRAME_INTERVAL (= 4)` is nonzero; every frame with `F mod 4 = 0` is
stored non-delta; and under the ring invariant no reconstruction chain
spans more than `KEYFRAME_INTERVAL − 1 = 3` delta records. -/
theorem save_delta_eligibility (cd : Codec) (s : SyncState) (sv : SaveResult)
    (async : Bool) (hlen : s.frames.length = ARRAY_SIZE)
    (hh0 : 0 ≤ s.head) (hh1 : s.head < (ARRAY_SIZE : Int)) :
    (((SaveCurrentFrame cd s sv async).frames.getD s.head.toNat SavedFrame.zero).delta = true ↔
      (s.last_state_valid = true ∧ s.last_state_size = sv.data.length ∧
       s.last_state_frame = s.framecount - 1) ∧
      ¬s.framecount % GGPO_STATE_KEYFRAME_INTERVAL = 0) ∧
    (s.framecount % GGPO_STATE_KEYFRAME_INTERVAL = 0 →
      ((SaveCurrentFrame cd s sv async).frames.getD s.head.toNat SavedFrame.zero).delta = false) ∧
    (∀ F b : Int, SyncInv cd s → 0 ≤ F →
      (slotAt s (FindSavedFrameIndex s F)).delta = true →
      findBase s F = some b → F - b ≤ GGPO_STATE_KEYFRAME_INTERVAL - 1) := by
  obtain ⟨st₂, pl, sh, nid, heq, h1, h2, h3, h4, h5⟩ := save_spec cd s sv async
  have hidx : s.head.toNat < (FreeSavedFrameBuffer s s.head.toNat).frames.length := by
    rw [free_frames_length, hlen]
    unfold ARRAY_SIZE at hh1 ⊢
    omega
  have hslot : (SaveCurrentFrame cd s sv async).frames.getD s.head.toNat SavedFrame.zero = st₂ := by
    rw [heq]
    exact getD_set_self _ _ _ _ hidx
  refine ⟨?_, ?_, ?_⟩
  · rw [hslot]
    exact h3
  · intro hk
    rw [hslot]
    cases hd : st₂.delta
    · rfl
    · exact absurd hk (h3.mp hd).2
  · intro F b hInv hF hdel hfb
    have := findBase_bound cd s hInv F b hF hdel hfb
    unfold GGPO_STATE_KEYFRAME_INTERVAL
    omega

/-- Witness for C2: the initial frame-0 save is a keyframe and is stored
non-delta. -/
theorem save_delta_eligibility_witness :
    ((SaveCurrentFrame failCodec initSync { reused := false, data := [7], checksum := 0 }
        false).frames.getD 0 SavedFrame.zero).delta = false :=
  (save_delta_eligibility failCodec initSync { reused := false, data := [7], checksum := 0 }
    false rfl (by decide) (by decide)).2.1 (by decide)


/-- Iterating a callback that advances the frame counter by one advances
it by `n`. -/
theorem iterateAdv_framecount (adv : SyncState → SyncState)
    (hadv : ∀ t, (adv t).framecount = t.framecount + 1) :
    ∀ (n : Nat) (t : SyncState), (iterateAdv adv n t).framecount = t.framecount + n := by
  intro n
  induction n with
  | zero =>
    intro t
    simp [iterateAdv]
  | succ m ih =>
    intro t
    unfold iterateAdv
    rw [ih (adv t), hadv]
    omega

/-- **C3.** `AdjustSimulation(seek)` with entry frame `target`: when
`LoadFrame(seek)` succeeds and leaves `_framecount == seek`, exactly
`target − seek` `advance_frame` calls are made and the final frame
counter is `target`; when the load fails or leaves a different frame,
zero advance calls are made, every input queue is reset from `seek`,
and `_rollingback` is `false` on return.  `adv` is the `advance_frame`
callback, constrained only to advance the frame counter by one. -/
theorem adjust_simulation_spec (cd : Codec) (adv : SyncState → SyncState)
    (s : SyncState) (seek_to : Int)
    (hadv : ∀ t, (adv t).framecount = t.framecount + 1) :
    ((LoadFrame cd { s with rollingback := true } seek_to).2 = true →
      (LoadFrame cd { s with rollingback := true } seek_to).1.framecount = seek_to →
      (AdjustSimulation cd adv s seek_to).2 = (s.framecount - seek_to).toNat ∧
      (seek_to ≤ s.framecount →
        (AdjustSimulation cd adv s seek_to).1.framecount = s.framecount) ∧
      (AdjustSimulation cd adv s seek_to).1.rollingback = false) ∧
    (((LoadFrame cd { s with rollingback := true } seek_to).2 = false ∨
      ¬(LoadFrame cd { s with rollingback := true } seek_to).1.framecount = seek_to) →
      (AdjustSimulation cd adv s seek_to).2 = 0 ∧
      (AdjustSimulation cd adv s seek_to).1.rollingback = false ∧
      (AdjustSimulation cd adv s seek_to).1.input_queues =
        (LoadFrame cd { s with rollingback := true } seek_to).1.input_queues.map
          (fun q => q.ResetPrediction seek_to)) := by
  constructor
  · intro hok hfc
    have hcond : ¬((LoadFrame cd { s with rollingback := true } seek_to).2 = false ∨
        ¬(LoadFrame cd { s with rollingback := true } seek_to).1.framecount = seek_to) := by
      intro h
      rcases h with h | h
      · rw [hok] at h
        cases h
      · exact h hfc
    have hrp : (ResetPrediction (LoadFrame cd { s with rollingback := true } seek_to).1
        (LoadFrame cd { s with rollingback := true } seek_to).1.framecount).framecount =
        seek_to := hfc
    simp only [AdjustSimulation]
    rw [if_neg hcond]
    refine ⟨rfl, ?_, rfl⟩
    intro hle
    have hit := iterateAdv_framecount adv hadv (s.framecount - seek_to).toNat
      (ResetPrediction (LoadFrame cd { s with rollingback := true } seek_to).1
        (LoadFrame cd { s with rollingback := true } seek_to).1.framecount)
    rw [hrp] at hit
    have hfin : (iterateAdv adv (s.framecount - seek_to).toNat
        (ResetPrediction (LoadFrame cd { s with rollingback := true } seek_to).1
          (LoadFrame cd { s with rollingback := true } seek_to).1.framecount)).framecount =
        s.framecount := by omega
    exact hfin
  · intro hfail
    have hcond : ((LoadFrame cd { s with rollingback := true } seek_to).2 = false ∨
        ¬(LoadFrame cd { s with rollingback := true } seek_to).1.framecount = seek_to) := hfail
    simp only [AdjustSimulation]
    rw [if_pos hcond]
    exact ⟨rfl, rfl, rfl⟩

/-- Witness for C3: seeking to an absent frame on the fresh engine is the
recoverable failure path. -/
theorem adjust_simulation_spec_witness :
    (AdjustSimulation failCodec (fun t => { t with framecount := t.framecount + 1 })
      initSync 5).2 = 0 ∧
    (AdjustSimulation failCodec (fun t => { t with framecount := t.framecount + 1 })
      initSync 5).1.rollingback = false := by
  have h := (adjust_simulation_spec failCodec
    (fun t => { t with framecount := t.framecount + 1 }) initSync 5
    (fun t => rfl)).2 (Or.inl (by decide))
  exact ⟨h.1, h.2.1⟩


/-- Byte-wise xor undoes a xor-delta: `b ⊕ (a ⊕ b) = a`. -/
theorem zipWith_xor_cancel : ∀ (a b : List Nat), a.length = b.length →
    List.zipWith Nat.xor b (List.zipWith Nat.xor a b) = a := by
  intro a
  induction a with
  | nil =>
    intro b h
    cases b
    · rfl
    · cases h
  | cons x xs ih =>
    intro b h
    cases b with
    | nil => cases h
    | cons y ys =>
      simp only [List.zipWith]
      rw [ih ys (by simpa using h)]
      congr 1
      show y ^^^ (x ^^^ y) = x
      rw [Nat.xor_comm x y, ← Nat.xor_assoc, Nat.xor_self, Nat.zero_xor]

/-- The decode target of a buffered slot has exactly
`uncompressed_size` bytes. -/
theorem target_length (cd : Codec) (raws : Int → List Nat) (st : SavedFrame)
    (hok : SlotOk cd raws st) (hb : st.buf.isSome = true) :
    (targetOf raws st).length = st.uncompressed_size ∧
    0 < st.uncompressed_size ∧ 0 ≤ st.frame := by
  rcases hok with ⟨hn, -⟩ | ⟨hf, b2, hb2, hsz, hpos, -, hdcl, -, -⟩
  · rw [hn] at hb
    cases hb
  · unfold targetOf
    by_cases hd : st.delta = true
    · rw [if_pos hd]
      obtain ⟨-, -, hlen⟩ := hdcl hd
      rw [List.length_zipWith]
      omega
    · rw [if_neg hd]
      omega

/-- A buffered, invariant-satisfying slot decodes to its target. -/
theorem decode_raw_of_ok (cd : Codec) (raws : Int → List Nat) (st : SavedFrame)
    (bs : Nat) (hok : SlotOk cd raws st) (hb : st.buf.isSome = true)
    (hbs : st.uncompressed_size ≤ bs) :
    DecodeSavedFrameRaw cd st bs = some (targetOf raws st) := by
  obtain ⟨htl, hupos, -⟩ := target_length cd raws st hok hb
  rcases hok with ⟨hn, -⟩ | ⟨hf, b, hbe, hsz, hpos, hcble, hdcl, hccl, hrcl⟩
  · rw [hn] at hb
    cases hb
  · unfold DecodeSavedFrameRaw
    rw [hbe]
    simp only []
    rw [if_neg (by omega)]
    cases hcm : st.compressed
    · rw [if_neg (by simp [hcm])]
      obtain ⟨hbd, -⟩ := hrcl hcm
      rw [hbd, ← htl, List.take_length]
    · rw [if_pos (by simp [hcm])]
      obtain ⟨hbl, hcpos, hdec⟩ := hccl hcm
      rw [← hbl, List.take_length, hdec]
      simp only []
      rw [if_pos htl]

/-- Same, through the scratch-buffer entry point. -/
theorem decode_internal_of_ok (cd : Codec) (raws : Int → List Nat) (st : SavedFrame)
    (hok : SlotOk cd raws st) (hb : st.buf.isSome = true) :
    DecodeSavedFrameInternal cd st = some (targetOf raws st) := by
  obtain ⟨-, hupos, -⟩ := target_length cd raws st hok hb
  unfold DecodeSavedFrameInternal
  rw [if_neg ?hguard]
  case hguard =>
    intro hor
    rcases hor with hg | hg
    · rw [Option.isNone_iff_eq_none] at hg
      rw [hg] at hb
      cases hb
    · omega
  exact decode_raw_of_ok cd raws st st.uncompressed_size hok hb (le_refl _)

/-- Whatever `DecodeSavedFrameInternal` returns on an
invariant-satisfying slot is the slot's target. -/
theorem decode_internal_partial (cd : Codec) (raws : Int → List Nat)
    (st : SavedFrame) (out : List Nat) (hok : SlotOk cd raws st)
    (h : DecodeSavedFrameInternal cd st = some out) :
    out = targetOf raws st ∧ st.buf.isSome = true := by
  rcases hbe : st.buf with _ | b
  · rw [DecodeSavedFrameInternal, if_pos (by rw [hbe]; exact Or.inl rfl)] at h
    cases h
  · have hb : st.buf.isSome = true := by rw [hbe]; rfl
    rw [decode_internal_of_ok cd raws st hok hb] at h
    cases h
    exact ⟨rfl, rfl⟩


/-- Partial correctness of the forward delta loop: if it starts from the
snapshot of `f − 1` and returns, it returns the snapshot of the last
frame processed. -/
theorem applyDeltas_partial (cd : Codec) (s : SyncState)
    (hslots : ∀ st ∈ s.frames, SlotOk cd s.raws st) :
    ∀ (k : Nat) (f : Int) (buffer out : List Nat),
      buffer = s.raws (f - 1) →
      applyDeltasAux cd s k f buffer = some out →
      out = s.raws (f - 1 + k) := by
  intro k
  induction k with
  | zero =>
    intro f buffer out hbuf h
    cases h
    rw [hbuf]
    norm_num
  | succ m ih =>
    intro f buffer out hbuf h
    unfold applyDeltasAux at h
    by_cases hfind : FindSavedFrameIndex s f < 0
    · rw [if_pos hfind] at h
      cases h
    · rw [if_neg hfind] at h
      rcases find_spec s f with hmiss | ⟨hge, hmem, hfr⟩
      · exfalso
        omega
      · have hok := hslots _ hmem
        by_cases hd : (slotAt s (FindSavedFrameIndex s f)).delta = true
        · rw [if_pos hd] at h
          rcases hdec : DecodeSavedFrameInternal cd (slotAt s (FindSavedFrameIndex s f)) with _ | d
          · simp only [hdec] at h
            cases h
          · simp only [hdec] at h
            obtain ⟨hout, hbsome⟩ := decode_internal_partial cd s.raws _ d hok hdec
            by_cases hlt : buffer.length < (slotAt s (FindSavedFrameIndex s f)).uncompressed_size
            · rw [if_pos hlt] at h
              cases h
            · rw [if_neg hlt] at h
              rcases hok with ⟨-, -, -, hdf, -⟩ | ⟨hf0, b, hbe, hsz, hpos, -, hdcl, -, -⟩
              · rw [hdf] at hd
                cases hd
              · obtain ⟨hge1, hmod, hlen⟩ := hdcl hd
                rw [hfr] at hsz hlen
                have hblen : buffer.length = (s.raws (f - 1)).length := by rw [hbuf]
                have htt : targetOf s.raws (slotAt s (FindSavedFrameIndex s f)) =
                    List.zipWith Nat.xor (s.raws f) (s.raws (f - 1)) := by
                  unfold targetOf
                  rw [if_pos hd, hfr]
                have hxor : XorBufferInPlace buffer d
                    (slotAt s (FindSavedFrameIndex s f)).uncompressed_size = s.raws f := by
                  unfold XorBufferInPlace
                  rw [hout, htt, hbuf]
                  have h1 : (s.raws (f - 1)).take (slotAt s (FindSavedFrameIndex s f)).uncompressed_size = s.raws (f - 1) := by
                    apply List.take_of_length_le
                    omega
                  have h2 : (List.zipWith Nat.xor (s.raws f) (s.raws (f - 1))).take (slotAt s (FindSavedFrameIndex s f)).uncompressed_size = List.zipWith Nat.xor (s.raws f) (s.raws (f - 1)) := by
                    apply List.take_of_length_le
                    rw [List.length_zipWith]
                    omega
                  have h3 : (s.raws (f - 1)).drop (slotAt s (FindSavedFrameIndex s f)).uncompressed_size = [] := by
                    apply List.drop_eq_nil_of_le
                    omega
                  rw [h1, h2, h3, List.append_nil]
                  exact zipWith_xor_cancel (s.raws f) (s.raws (f - 1)) (by omega)
                rw [hxor] at h
                have hrec := ih (f + 1) (s.raws f) out (by congr 1; ring) h
                rw [hrec]
                congr 1
                push_cast
                ring
        · rw [if_neg hd] at h
          rcases hdec : DecodeSavedFrameInternal cd (slotAt s (FindSavedFrameIndex s f)) with _ | bnew
          · simp only [hdec] at h
            cases h
          · simp only [hdec] at h
            obtain ⟨hout, hbsome⟩ := decode_internal_partial cd s.raws _ bnew hok hdec
            have hbnew : bnew = s.raws f := by
              rw [hout]
              unfold targetOf
              rw [if_neg hd, hfr]
            have hrec := ih (f + 1) bnew out (by rw [hbnew]; congr 1; ring) h
            rw [hrec]
            congr 1
            push_cast
            ring

/-- Partial correctness of `ReconstructFrameInternal`: whatever it returns
for frame `F` is the ghost snapshot of `F`. -/
theorem reconstruct_partial (cd : Codec) (s : SyncState)
    (hslots : ∀ st ∈ s.frames, SlotOk cd s.raws st) (F : Int) (out : List Nat)
    (h : ReconstructFrameInternal cd s F = some out) : out = s.raws F := by
  unfold ReconstructFrameInternal at h
  by_cases hfind : FindSavedFrameIndex s F < 0
  · rw [if_pos hfind] at h
    cases h
  · rw [if_neg hfind] at h
    rcases find_spec s F with hmiss | ⟨hge, hmem, hfr⟩
    · exfalso
      omega
    · by_cases hd : (slotAt s (FindSavedFrameIndex s F)).delta = true
      · rw [if_pos hd] at h
        rcases hfb : findBase s F with _ | base
        · simp only [hfb] at h
          cases h
        · simp only [hfb] at h
          rcases hdec : DecodeSavedFrameInternal cd (slotAt s (FindSavedFrameIndex s base)) with _ | buffer
          · simp only [hdec] at h
            cases h
          · simp only [hdec] at h
            obtain ⟨hble, hbfind, hbnd, hvis⟩ := findBaseAux_spec s (F.toNat + 1) F base hfb
            rcases find_spec s base with hm2 | ⟨hge2, hmem2, hfr2⟩
            · exfalso
              omega
            · obtain ⟨hout, -⟩ := decode_internal_partial cd s.raws _ buffer (hslots _ hmem2) hdec
              have hbuf : buffer = s.raws base := by
                rw [hout]
                unfold targetOf
                rw [if_neg hbnd, hfr2]
              have hfin := applyDeltas_partial cd s hslots (F - base).toNat (base + 1)
                buffer out (by rw [hbuf]; congr 1; ring) h
              rw [hfin]
              congr 1
              have hnn : ((F - base).toNat : Int) = F - base := Int.toNat_of_nonneg (by omega)
              omega
      · rw [if_neg hd] at h
        obtain ⟨hout, -⟩ := decode_internal_partial cd s.raws _ out (hslots _ hmem) h
        rw [hout]
        unfold targetOf
        rw [if_neg hd, hfr]


/-- The backward base scan succeeds when every frame from the last
keyframe up to the start is still retained (with a buffer) in the ring. -/
theorem findBaseAux_success (cd : Codec) (s : SyncState)
    (hslots : ∀ st ∈ s.frames, SlotOk cd s.raws st) (F : Int) (hF : 0 ≤ F)
    (hret : ∀ g : Int, F - F % 4 ≤ g → g ≤ F →
      0 ≤ FindSavedFrameIndex s g ∧ (slotAt s (FindSavedFrameIndex s g)).buf.isSome = true) :
    ∀ (fuel : Nat) (bf : Int), F - F % 4 ≤ bf → bf ≤ F → bf.toNat < fuel →
      ∃ b, findBaseAux s fuel bf = some b := by
  intro fuel
  induction fuel with
  | zero =>
    intro bf h1 h2 h3
    omega
  | succ n ih =>
    intro bf h1 h2 h3
    unfold findBaseAux
    rw [if_neg (by omega)]
    obtain ⟨hgf, hgb⟩ := hret bf h1 h2
    rw [if_neg (by omega)]
    by_cases hd : (slotAt s (FindSavedFrameIndex s bf)).delta = true
    · rw [if_pos hd]
      rcases find_spec s bf with hmiss | ⟨-, hmem, hfr⟩
      · exfalso
        omega
      · rcases hslots _ hmem with ⟨hbn, -⟩ | ⟨-, b, -, -, -, -, hdcl, -, -⟩
        · rw [hbn] at hgb
          cases hgb
        · obtain ⟨-, hmod, -⟩ := hdcl hd
          rw [hfr] at hmod
          have hne : ¬bf = F - F % 4 := by
            intro he
            rw [he] at hmod
            omega
          exact ih (bf - 1) (by omega) (by omega) (by omega)
    · rw [if_neg hd]
      exact ⟨bf, rfl⟩

/-- The forward loop succeeds when every frame it visits is retained. -/
theorem applyDeltas_success (cd : Codec) (s : SyncState)
    (hslots : ∀ st ∈ s.frames, SlotOk cd s.raws st) :
    ∀ (k : Nat) (f : Int) (buffer : List Nat),
      buffer = s.raws (f - 1) →
      (∀ g : Int, f ≤ g → g < f + k →
        0 ≤ FindSavedFrameIndex s g ∧ (slotAt s (FindSavedFrameIndex s g)).buf.isSome = true) →
      ∃ out, applyDeltasAux cd s k f buffer = some out := by
  intro k
  induction k with
  | zero =>
    intro f buffer hbuf hret
    exact ⟨buffer, rfl⟩
  | succ m ih =>
    intro f buffer hbuf hret
    obtain ⟨hgf, hgb⟩ := hret f (le_refl f) (by push_cast; omega)
    unfold applyDeltasAux
    rw [if_neg (by omega)]
    rcases find_spec s f with hmiss | ⟨-, hmem, hfr⟩
    · exfalso
      omega
    · have hok := hslots _ hmem
      have hdec := decode_internal_of_ok cd s.raws _ hok hgb
      by_cases hd : (slotAt s (FindSavedFrameIndex s f)).delta = true
      · rw [if_pos hd]
        rw [hdec]
        simp only []
        rcases hok with ⟨-, -, -, hdf, -⟩ | ⟨-, b, hbe, hsz, hpos, -, hdcl, -, -⟩
        · rw [hdf] at hd
          cases hd
        · obtain ⟨-, -, hlen⟩ := hdcl hd
          rw [hfr] at hsz hlen
          rw [if_neg (by rw [hbuf]; omega)]
          have htt : targetOf s.raws (slotAt s (FindSavedFrameIndex s f)) =
              List.zipWith Nat.xor (s.raws f) (s.raws (f - 1)) := by
            unfold targetOf
            rw [if_pos hd, hfr]
          have hxor : XorBufferInPlace buffer
              (targetOf s.raws (slotAt s (FindSavedFrameIndex s f)))
              (slotAt s (FindSavedFrameIndex s f)).uncompressed_size = s.raws f := by
            unfold XorBufferInPlace
            rw [htt, hbuf]
            have h1 : (s.raws (f - 1)).take (slotAt s (FindSavedFrameIndex s f)).uncompressed_size = s.raws (f - 1) := by
              apply List.take_of_length_le
              omega
            have h2 : (List.zipWith Nat.xor (s.raws f) (s.raws (f - 1))).take (slotAt s (FindSavedFrameIndex s f)).uncompressed_size = List.zipWith Nat.xor (s.raws f) (s.raws (f - 1)) := by
              apply List.take_of_length_le
              rw [List.length_zipWith]
              omega
            have h3 : (s.raws (f - 1)).drop (slotAt s (FindSavedFrameIndex s f)).uncompressed_size = [] := by
              apply List.drop_eq_nil_of_le
              omega
            rw [h1, h2, h3, List.append_nil]
            exact zipWith_xor_cancel (s.raws f) (s.raws (f - 1)) (by omega)
          rw [hxor]
          exact ih (f + 1) (s.raws f) (by congr 1; ring)
            (fun g hg1 hg2 => hret g (by omega) (by push_cast at hg2 ⊢; omega))
      · rw [if_neg hd]
        rw [hdec]
        simp only []
        have htt : targetOf s.raws (slotAt s (FindSavedFrameIndex s f)) = s.raws f := by
          unfold targetOf
          rw [if_neg hd, hfr]
        rw [htt]
        exact ih (f + 1) (s.raws f) (by congr 1; ring)
          (fun g hg1 hg2 => hret g (by omega) (by push_cast at hg2 ⊢; omega))


/-- Total correctness of reconstruction when the whole chain back to the
last keyframe is retained: the exact ghost snapshot comes back. -/
theorem reconstruct_success (cd : Codec) (s : SyncState)
    (hslots : ∀ st ∈ s.frames, SlotOk cd s.raws st) (F : Int) (hF : 0 ≤ F)
    (hret : ∀ g : Int, F - F % 4 ≤ g → g ≤ F →
      0 ≤ FindSavedFrameIndex s g ∧ (slotAt s (FindSavedFrameIndex s g)).buf.isSome = true) :
    ReconstructFrameInternal cd s F = some (s.raws F) := by
  have hretF := hret F (by omega) (le_refl F)
  unfold ReconstructFrameInternal
  rw [if_neg (by omega)]
  rcases find_spec s F with hmiss | ⟨-, hmem, hfr⟩
  · exfalso
    omega
  · by_cases hd : (slotAt s (FindSavedFrameIndex s F)).delta = true
    · rw [if_pos hd]
      obtain ⟨b, hfb⟩ := findBaseAux_success cd s hslots F hF hret (F.toNat + 1) F
        (by omega) (le_refl F) (by omega)
      rw [show findBase s F = findBaseAux s (F.toNat + 1) F from rfl, hfb]
      simp only []
      obtain ⟨hble, hbfind, hbnd, hvis⟩ := findBaseAux_spec s (F.toNat + 1) F b hfb
      have hbge : F - F % 4 ≤ b := by
        by_contra hlt
        push_neg at hlt
        obtain ⟨hgf, hgd⟩ := hvis (F - F % 4) (by omega) (by omega)
        obtain ⟨hrf, hrb⟩ := hret (F - F % 4) (le_refl _) (by omega)
        rcases find_spec s (F - F % 4) with hm | ⟨-, hmem2, hfr2⟩
        · omega
        · rcases hslots _ hmem2 with ⟨hbn, -⟩ | ⟨-, bb, -, -, -, -, hdcl, -, -⟩
          · rw [hbn] at hrb
            cases hrb
          · obtain ⟨-, hmod, -⟩ := hdcl hgd
            rw [hfr2] at hmod
            omega
      obtain ⟨hrbf, hrbb⟩ := hret b hbge (by omega)
      rcases find_spec s b with hm | ⟨-, hmemb, hfrb⟩
      · exfalso
        omega
      · have hdecb := decode_internal_of_ok cd s.raws _ (hslots _ hmemb) hrbb
        rw [hdecb]
        simp only []
        have htb : targetOf s.raws (slotAt s (FindSavedFrameIndex s b)) = s.raws b := by
          unfold targetOf
          rw [if_neg hbnd, hfrb]
        obtain ⟨out, hout⟩ := applyDeltas_success cd s hslots (F - b).toNat (b + 1)
          (targetOf s.raws (slotAt s (FindSavedFrameIndex s b)))
          (by rw [htb]; congr 1; ring)
          (by
            intro g hg1 hg2
            have hnn : ((F - b).toNat : Int) = F - b := Int.toNat_of_nonneg (by omega)
            refine hret g (by omega) (by omega))
        rw [hout]
        have hval := applyDeltas_partial cd s hslots (F - b).toNat (b + 1) _ out
          (by rw [htb]; congr 1; ring) hout
        rw [hval]
        have hnn : ((F - b).toNat : Int) = F - b := Int.toNat_of_nonneg (by omega)
        have harg : b + 1 - 1 + ((F - b).toNat : Int) = F := by omega
        rw [harg]
    · rw [if_neg hd]
      have hdec := decode_internal_of_ok cd s.raws _ (hslots _ hmem) hretF.2
      rw [hdec]
      congr 1
      unfold targetOf
      rw [if_neg hd, hfr]


theorem getD_mem {α : Type} (l : List α) (i : Nat) (d : α) (h : i < l.length) :
    l.getD i d ∈ l := by
  rw [List.getD_eq_getElem?_getD, List.getElem?_eq_getElem h]
  exact List.getElem_mem h

/-- `SlotOk` only looks at the ghost snapshots of the slot's frame and its
predecessor. -/
theorem slotok_congr (cd : Codec) (raws raws2 : Int → List Nat) (st : SavedFrame)
    (hok : SlotOk cd raws st)
    (h1 : raws2 st.frame = raws st.frame)
    (h2 : raws2 (st.frame - 1) = raws (st.frame - 1)) :
    SlotOk cd raws2 st := by
  have htarget : targetOf raws2 st = targetOf raws st := by
    unfold targetOf
    rw [h1, h2]
  rcases hok with hbl | ⟨hf, b, hbe, hsz, hpos, hcble, hdcl, hccl, hrcl⟩
  · exact Or.inl hbl
  · refine Or.inr ⟨hf, b, hbe, ?_, ?_, hcble, ?_, ?_, ?_⟩
    · rw [h1]
      exact hsz
    · exact hpos
    · intro hd
      obtain ⟨ha, hb2, hc⟩ := hdcl hd
      refine ⟨ha, hb2, ?_⟩
      rw [h1, h2]
      exact hc
    · intro hc
      obtain ⟨ha, hb2, hc2⟩ := hccl hc
      refine ⟨ha, hb2, ?_⟩
      rw [htarget]
      exact hc2
    · intro hc
      obtain ⟨ha, hb2⟩ := hrcl hc
      refine ⟨?_, hb2⟩
      rw [htarget]
      exact ha

/-- Slots of the ring after `FreeSavedFrameBuffer`: an untouched slot, or a
blanked slot keeping only its frame number. -/
theorem free_frames_mem (s : SyncState) (i : Nat) (st : SavedFrame)
    (h : st ∈ (FreeSavedFrameBuffer s i).frames) :
    st ∈ s.frames ∨
    (st.buf = none ∧ st.cbuf = 0 ∧ st.uncompressed_size = 0 ∧
     st.delta = false ∧ st.compressed = false ∧
     ∃ y ∈ s.frames, st.frame = y.frame) := by
  simp only [FreeSavedFrameBuffer] at h
  rcases hb : (s.frames.getD i SavedFrame.zero).buf with _ | b
  · simp only [hb] at h
    exact Or.inl h
  · simp only [hb] at h
    by_cases hlen : i < s.frames.length
    · have hmem0 : s.frames.getD i SavedFrame.zero ∈ s.frames := getD_mem _ _ _ hlen
      by_cases h1 : (s.frames.getD i SavedFrame.zero).compressed = true ∨
          (s.frames.getD i SavedFrame.zero).delta = true
      · rw [if_pos h1] at h
        rcases List.mem_or_eq_of_mem_set h with h2 | h2
        · exact Or.inl h2
        · subst h2
          exact Or.inr ⟨rfl, rfl, rfl, rfl, rfl, s.frames.getD i SavedFrame.zero, hmem0, rfl⟩
      · rw [if_neg h1] at h
        rw [show (RecycleStateBuffer s (some b) (s.frames.getD i SavedFrame.zero).buf_capacity).frames = s.frames from recycle_frames _ _ _] at h
        rcases List.mem_or_eq_of_mem_set h with h2 | h2
        · exact Or.inl h2
        · subst h2
          exact Or.inr ⟨rfl, rfl, rfl, rfl, rfl, s.frames.getD i SavedFrame.zero, hmem0, rfl⟩
    · rw [show s.frames.getD i SavedFrame.zero = SavedFrame.zero from by
          rw [List.getD_eq_getElem?_getD, List.getElem?_eq_none (by omega)]
          rfl] at hb
      cases hb

/-- Incrementing `_framecount` preserves the ring invariant. -/
theorem inv_bump (cd : Codec) (s : SyncState) (hInv : SyncInv cd s) :
    SyncInv cd { s with framecount := s.framecount + 1 } := by
  obtain ⟨hlen, hfc, hh0, hh1, hls, hslots⟩ := hInv
  refine ⟨hlen, by dsimp only; omega, hh0, hh1, hls, ?_⟩
  intro st hmem
  obtain ⟨hok, hle⟩ := hslots st hmem
  exact ⟨hok, by dsimp only; omega⟩


/-- `SaveCurrentFrame` preserves the ring invariant, provided the callback
wrote at least one byte and reproduces the recorded snapshot when some
slot already holds the current frame (the simulation is deterministic
and has not advanced between two saves of the same frame). -/
theorem save_preserves_inv (cd : Codec) (s : SyncState) (sv : SaveResult) (async : Bool)
    (hInv : SyncInv cd s) (hne : sv.data ≠ [])
    (hdet : (∃ st ∈ s.frames, st.frame = s.framecount ∧ st.buf.isSome = true) →
      sv.data = s.raws s.framecount) :
    SyncInv cd (SaveCurrentFrame cd s sv async) := by
  obtain ⟨hlen, hfc, hh0, hh1, hls, hslots⟩ := hInv
  obtain ⟨st₂, pl, sh, nid, heq, h1, h2, h3, h4, h5⟩ := save_spec cd s sv async
  have hlpos : 0 < sv.data.length := by
    cases hsv : sv.data
    · exact absurd hsv hne
    · simp [hsv]
  have hszne : ¬sv.data.length = 0 := by omega
  have hupd_same : Function.update s.raws s.framecount sv.data s.framecount = sv.data :=
    Function.update_same _ _ _
  have hupd_ne : ∀ g : Int, ¬g = s.framecount →
      Function.update s.raws s.framecount sv.data g = s.raws g := by
    intro g hg
    exact Function.update_noteq hg _ _
  rw [heq]
  refine ⟨?_, ?_, ?_, ?_, ?_, ?_⟩
  · dsimp only
    rw [List.length_set, free_frames_length, hlen]
  · dsimp only
    omega
  · dsimp only
    unfold ARRAY_SIZE
    omega
  · dsimp only
    unfold ARRAY_SIZE
    omega
  · dsimp only
    rw [lsValid_pos sv.data hszne, lsData_pos sv.data hszne, lsFrame_pos sv.data s.framecount hszne]
    intro _
    refine ⟨by omega, hupd_same.symm, rfl, by omega⟩
  · dsimp only
    intro st hmem
    rcases List.mem_or_eq_of_mem_set hmem with hfm | hst2
    · rcases free_frames_mem s _ st hfm with hold | ⟨hb0, hc0, hu0, hd0, hcp0, y, hy, hfy⟩
      · obtain ⟨hok, hle⟩ := hslots st hold
        rcases hok with hbl | hgood
        · exact ⟨Or.inl hbl, by omega⟩
        · obtain ⟨hge0, b, hbe, hrest⟩ := hgood
          refine ⟨slotok_congr cd s.raws _ st (Or.inr ⟨hge0, b, hbe, hrest⟩) ?_ ?_, by omega⟩
          · by_cases hgn : st.frame = s.framecount
            · rw [hgn, hupd_same]
              exact hdet ⟨st, hold, hgn, by rw [hbe]; rfl⟩
            · exact hupd_ne _ hgn
          · exact hupd_ne _ (by omega)
      · refine ⟨Or.inl ⟨hb0, hc0, hu0, hd0, hcp0⟩, ?_⟩
        obtain ⟨-, hyle⟩ := hslots y hy
        omega
    · subst hst2
      set raws2 := Function.update s.raws s.framecount sv.data with hraws2
      have hdelta_clause : st.delta = true → 1 ≤ st.frame ∧ ¬st.frame % 4 = 0 ∧
          (raws2 (st.frame - 1)).length = (raws2 st.frame).length := by
        intro hd
        obtain ⟨⟨hlv, hlsz, hlfr⟩, hk⟩ := h3.mp hd
        obtain ⟨hlf0, hlseq, hlsize, hlpos2⟩ := hls hlv
        refine ⟨by omega, by rw [h1]; exact hk, ?_⟩
        rw [h1, hupd_same, hupd_ne (s.framecount - 1) (by omega), ← hlfr, ← hlseq]
        omega
      have hsv_target : st.delta = false → targetOf raws2 st = sv.data := by
        intro hd
        unfold targetOf
        rw [if_neg (by rw [hd]; simp), h1, hupd_same]
      have hxor_target : st.delta = true →
          targetOf raws2 st = List.zipWith Nat.xor sv.data s.last_state ∧
          s.last_state.length = sv.data.length := by
        intro hd
        obtain ⟨⟨hlv, hlsz, hlfr⟩, hk⟩ := h3.mp hd
        obtain ⟨hlf0, hlseq, hlsize, hlpos2⟩ := hls hlv
        constructor
        · unfold targetOf
          rw [if_pos hd, h1, hupd_same, hupd_ne (s.framecount - 1) (by omega), ← hlfr, ← hlseq]
        · omega
      have hpayload : (if useDelta s sv.data.length
          then XorBuffers sv.data s.last_state sv.data.length else sv.data) =
          targetOf raws2 st := by
        by_cases hd : st.delta = true
        · rw [if_pos (h3.mp hd)]
          obtain ⟨ht, hlen2⟩ := hxor_target hd
          rw [ht]
          unfold XorBuffers
          rw [List.take_length]
          congr 1
          exact List.take_of_length_le (by omega)
        · have hd2 : st.delta = false := by
            cases hdd : st.delta
            · rfl
            · exact absurd hdd hd
          rw [if_neg (fun hud => hd (h3.mpr hud)), hsv_target hd2]
      have hpayload_len : (targetOf raws2 st).length = sv.data.length := by
        by_cases hd : st.delta = true
        · obtain ⟨ht, hlen2⟩ := hxor_target hd
          rw [ht, List.length_zipWith]
          omega
        · have hd2 : st.delta = false := by
            cases hdd : st.delta
            · rfl
            · exact absurd hdd hd
          rw [hsv_target hd2]
      refine ⟨?_, by omega⟩
      cases hcomp : st.compressed
      · obtain ⟨hcb, b, hbe, hbd⟩ := h4 hcomp
        refine Or.inr ⟨by omega, b, hbe, ?_, ?_, ?_, hdelta_clause, ?_, ?_⟩
        · rw [h2, h1, hupd_same]
        · rw [h2]
          omega
        · rw [hcb, h2]
        · intro hctr
          rw [hcomp] at hctr
          cases hctr
        · intro _
          exact ⟨by rw [hbd, hpayload], by rw [hcb, h2]⟩
      · obtain ⟨c, hcm, hcpos, hclt, hcb, b, hbe, hbd⟩ := h5 hcomp
        refine Or.inr ⟨by omega, b, hbe, ?_, ?_, ?_, hdelta_clause, ?_, ?_⟩
        · rw [h2, h1, hupd_same]
        · rw [h2]
          omega
        · rw [hcb, h2]
          omega
        · intro _
          refine ⟨by rw [hbd, hcb], by rw [hcb]; omega, ?_⟩
          have hlaw := cd.decomp_comp _ c hcm
          have hXlen : (if useDelta s sv.data.length
              then XorBuffers sv.data s.last_state sv.data.length else sv.data).length =
              sv.data.length := by
            rw [hpayload, hpayload_len]
          have hXtake : (if useDelta s sv.data.length
              then XorBuffers sv.data s.last_state sv.data.length else sv.data).take
                sv.data.length =
              targetOf raws2 st := by
            rw [List.take_of_length_le (by omega), hpayload]
          rw [hXtake] at hlaw
          rw [hpayload_len] at hlaw
          rw [hbd, h2]
          exact hlaw
        · intro hctr
          rw [hcomp] at hctr
          cases hctr


/-- Applying a worker-produced compression result preserves the ring
invariant. -/
theorem apply_preserves_inv (cd : Codec) (s : SyncState) (i : Nat) (input : Buf)
    (frame : Int) (hInv : SyncInv cd s) :
    SyncInv cd (ApplyCompressionResult { s with next_buf_id := s.next_buf_id + 1 }
      (workerResult cd s i input frame)) := by
  have hInv2 : SyncInv cd ({ s with next_buf_id := s.next_buf_id + 1 } : SyncState) := hInv
  obtain ⟨hlen, hfc, hh0, hh1, hls, hslots⟩ := hInv2
  rcases ACR_cases { s with next_buf_id := s.next_buf_id + 1 } (workerResult cd s i input frame) with
    ⟨-, he⟩ | ⟨j, hj, he | ⟨cb, pl, hcb, h0, hbu, hfr, hcomp, hwin, he⟩⟩
  · rw [he]
    exact ⟨hlen, hfc, hh0, hh1, hls, hslots⟩
  · rw [he]
    refine ⟨?_, hfc, hh0, hh1, hls, ?_⟩
    · dsimp only
      rw [List.length_set]
      exact hlen
    · dsimp only
      intro st hmem
      rcases List.mem_or_eq_of_mem_set hmem with hm | hm
      · exact hslots st hm
      · subst hm
        by_cases hin : j < ({ s with next_buf_id := s.next_buf_id + 1 } : SyncState).frames.length
        · have hmem0 := getD_mem ({ s with next_buf_id := s.next_buf_id + 1 } : SyncState).frames j SavedFrame.zero hin
          obtain ⟨hok, hle⟩ := hslots _ hmem0
          exact ⟨hok, hle⟩
        · have hz : ({ s with next_buf_id := s.next_buf_id + 1 } : SyncState).frames.getD j SavedFrame.zero = SavedFrame.zero := by
            rw [List.getD_eq_getElem?_getD, List.getElem?_eq_none (by omega)]
            rfl
          rw [hz]
          exact ⟨Or.inl ⟨rfl, rfl, rfl, rfl, rfl⟩, hfc⟩
  · rw [he]
    refine ⟨?_, hfc, hh0, hh1, hls, ?_⟩
    · dsimp only
      rw [List.length_set]
      exact hlen
    · dsimp only
      intro st hmem
      rcases List.mem_or_eq_of_mem_set hmem with hm | hm
      · exact hslots st hm
      · subst hm
        have hrin : (workerResult cd s i input frame).input = some input := rfl
        rw [hrin] at hbu
        by_cases hin : j < ({ s with next_buf_id := s.next_buf_id + 1 } : SyncState).frames.length
        · have hmem0 := getD_mem ({ s with next_buf_id := s.next_buf_id + 1 } : SyncState).frames j SavedFrame.zero hin
          obtain ⟨hok, hle⟩ := hslots _ hmem0
          refine ⟨?_, hle⟩
          rcases hok with ⟨hbn, -⟩ | ⟨hge0, b, hbe, hsz, hpos, hcble, hdcl, hccl, hrcl⟩
          · rw [hbn] at hbu
            cases hbu
          · have hbi : b = input := by
              rw [hbe] at hbu
              exact Option.some.inj hbu
            have hcmap : (cd.comp input.data).map (fun c => Buf.mk s.next_buf_id c) = some cb := hcb
            rcases hcm : cd.comp input.data with _ | c
            · rw [hcm] at hcmap
              cases hcmap
            · rw [hcm] at hcmap
              have hcbv : cb = Buf.mk s.next_buf_id c := (Option.some.inj hcmap).symm
              have hsize : (workerResult cd s i input frame).compressed_size = c.length := by
                show (cd.comp input.data).elim 0 List.length = c.length
                rw [hcm]
                rfl
              obtain ⟨hbd, hcbe⟩ := hrcl hcomp
              obtain ⟨htl, hupos, -⟩ := target_length cd
                ({ s with next_buf_id := s.next_buf_id + 1 } : SyncState).raws _
                (Or.inr ⟨hge0, b, hbe, hsz, hpos, hcble, hdcl, hccl, hrcl⟩)
                (by rw [hbe]; rfl)
              have hlaw := cd.decomp_comp _ c hcm
              have hidt : input.data = targetOf ({ s with next_buf_id := s.next_buf_id + 1 } : SyncState).raws
                  (({ s with next_buf_id := s.next_buf_id + 1 } : SyncState).frames.getD j SavedFrame.zero) := by
                rw [← hbi]
                exact hbd
              have hidl : input.data.length =
                  (({ s with next_buf_id := s.next_buf_id + 1 } : SyncState).frames.getD j SavedFrame.zero).uncompressed_size := by
                rw [hidt, htl]
              refine Or.inr ⟨hge0, cb, rfl, hsz, hpos, le_of_lt hwin, hdcl, ?_, ?_⟩
              · intro _
                refine ⟨?_, ?_, ?_⟩
                · rw [hcbv]
                  exact hsize.symm
                · rw [hsize] at h0
                  dsimp only [swapSlot]
                  rw [hsize]
                  omega
                · rw [hidl, hidt] at hlaw
                  rw [hcbv]
                  exact hlaw
              · intro hctr
                simp [swapSlot] at hctr
        · exfalso
          have hz : ({ s with next_buf_id := s.next_buf_id + 1 } : SyncState).frames.getD j SavedFrame.zero = SavedFrame.zero := by
            rw [List.getD_eq_getElem?_getD, List.getElem?_eq_none (by omega)]
            rfl
          rw [hz] at hbu
          cases hbu

/-- The freshly initialised engine satisfies the ring invariant. -/
theorem init_inv (cd : Codec) : SyncInv cd initSync := by
  refine ⟨rfl, le_refl 0, le_refl 0, by decide, ?_, ?_⟩
  · intro hv
    cases hv
  · intro st hmem
    have hz : st = SavedFrame.zero := List.eq_of_mem_replicate hmem
    subst hz
    exact ⟨Or.inl ⟨rfl, rfl, rfl, rfl, rfl⟩, le_refl 0⟩

/-- Every reachable engine state satisfies the ring invariant. -/
theorem reach_inv (cd : Codec) (s : SyncState) (h : Reach cd s) : SyncInv cd s := by
  induction h with
  | init => exact init_inv cd
  | save s sv async hr hne ih =>
    refine save_preserves_inv cd { s with framecount := s.framecount + 1 } sv async
      (inv_bump cd s ih) hne ?_
    rintro ⟨st, hmem, hfs, -⟩
    exfalso
    obtain ⟨-, -, -, -, -, hslots⟩ := ih
    obtain ⟨-, hle⟩ := hslots st hmem
    have hfs2 : st.frame = s.framecount + 1 := hfs
    omega
  | save0 s sv async hr h0 hne hdet ih =>
    refine save_preserves_inv cd s sv async ih hne ?_
    rw [h0]
    exact hdet
  | compress s i input frame hr ih =>
    exact apply_preserves_inv cd s i input frame ih


/-- C1: Round-trip of the saved-frame ring. After any legal sequence of
`SaveCurrentFrame` / worker-compression / delta-encoding steps, every slot
still holding a buffer decodes back byte-for-byte to the snapshot the save
callback produced for its frame, whatever encoding (raw, compressed, delta,
delta+compressed) the slot currently holds: a non-delta slot directly via
`DecodeSavedFrameRaw`; any slot via `ReconstructFrameInternal`, which is
partially correct unconditionally (whatever it returns is the snapshot)
and returns exactly the snapshot whenever the delta chain back to the
last keyframe is still retained in the ring. -/
theorem sync_ring_roundtrip (cd : Codec) (s : SyncState) (hreach : Reach cd s) :
    ∀ st ∈ s.frames, st.buf.isSome = true →
      (st.delta = false →
        DecodeSavedFrameRaw cd st st.uncompressed_size = some (s.raws st.frame)) ∧
      (∀ out, ReconstructFrameInternal cd s st.frame = some out →
        out = s.raws st.frame) ∧
      ((∀ g : Int, st.frame - st.frame % 4 ≤ g → g ≤ st.frame →
          0 ≤ FindSavedFrameIndex s g ∧
          (slotAt s (FindSavedFrameIndex s g)).buf.isSome = true) →
        ReconstructFrameInternal cd s st.frame = some (s.raws st.frame)) := by
  intro st hmem hb
  obtain ⟨-, -, -, -, -, hslots⟩ := reach_inv cd s hreach
  have hslots2 : ∀ t ∈ s.frames, SlotOk cd s.raws t := fun t h => (hslots t h).1
  have hok := hslots2 st hmem
  have hge0 : 0 ≤ st.frame := by
    rcases hok with ⟨hbn, -⟩ | ⟨hge0, -⟩
    · rw [hbn] at hb
      cases hb
    · exact hge0
  refine ⟨?_, ?_, ?_⟩
  · intro hd
    have hdec := decode_raw_of_ok cd s.raws st st.uncompressed_size hok hb (le_refl _)
    rw [hdec]
    congr 1
    unfold targetOf
    rw [hd]
    rfl
  · intro out hrec
    exact reconstruct_partial cd s hslots2 st.frame out hrec
  · intro hret
    exact reconstruct_success cd s hslots2 st.frame hge0 hret

/-- Witness for `sync_ring_roundtrip`: the engine after its very first
frame-0 save decodes slot 0 back to the saved bytes. -/
theorem sync_ring_roundtrip_witness :
    DecodeSavedFrameRaw failCodec
      ((SaveCurrentFrame failCodec initSync
          { reused := false, data := [7], checksum := 0 } false).frames.getD 0
        SavedFrame.zero)
      ((SaveCurrentFrame failCodec initSync
          { reused := false, data := [7], checksum := 0 } false).frames.getD 0
        SavedFrame.zero).uncompressed_size =
    some ((SaveCurrentFrame failCodec initSync
        { reused := false, data := [7], checksum := 0 } false).raws
      ((SaveCurrentFrame failCodec initSync
          { reused := false, data := [7], checksum := 0 } false).frames.getD 0
        SavedFrame.zero).frame) := by
  have hreach : Reach failCodec (SaveCurrentFrame failCodec initSync
      { reused := false, data := [7], checksum := 0 } false) := by
    refine Reach.save0 initSync { reused := false, data := [7], checksum := 0 }
      false Reach.init rfl (by decide) ?_
    rintro ⟨st, hm, -, hb⟩
    have hz := List.eq_of_mem_replicate hm
    subst hz
    exact Bool.noConfusion hb
  have h := sync_ring_roundtrip failCodec _ hreach
    ((SaveCurrentFrame failCodec initSync
        { reused := false, data := [7], checksum := 0 } false).frames.getD 0
      SavedFrame.zero)
    (getD_mem _ 0 SavedFrame.zero (by decide))
    (by decide)
  exact h.1 (by decide)

end GGPOSync
